import Mathlib

/-!
# MapReduce coordinator (`p1ck0/mr`): a shallow embedding

The Go package `mr` is embedded function by function.

* `entity.go`     : `Task`, the phase tags `SNOOZE`, `ABORT`, `REDUCE`, `MAP`, `mapFile`.
* `options.go`    : `options`, `Options`, `WithTimeout`.
* `coordinator.go`: `Coordinator`, `checkTask`, `DoneTask`, `GetTask`, `Done`,
  `MakeCoordinator`.
* `worker.go`     : `KeyValue`, `ByKey`, `ihash`, `Worker`, `New`, `Run`.
* `mapreduce.go`  : `MapReduce`, `NewMapReduce`, `MapAndShuffle`, `StoreMap`, `Reduce`.

Modelling decisions.

* Go `int` / `int64` values are `Int`; no arithmetic of the coordinator can overflow
  for slices that fit in memory.  The reduce fan-out handed to `MakeCoordinator` is a
  `Nat`: a negative `nReduce` is outside the claims (`R >= 0`).
* The Go map `runningTask map[int]Task` is an association list `List (Int × Task)`
  with the three map operations used by the code (`mapGet`, `mapDelete`, `mapSet`);
  `len` of the map is the length of the list (keys are kept distinct by `mapSet`).
* `queueTask []*Task` is a `List Task`: every pointer stored in the slice is the only
  reference to its record (`checkTask` stores the address of a fresh local copy).
* The mutex makes the bodies of `DoneTask`, `checkTask` and the locked part of
  `GetTask` (`GetTaskLocked`) atomic: each is one function on `Coordinator`.  The
  latch read of `GetTask` (line 74) comes before the lock (line 77) and is not
  covered by it.  Two transition systems are given.  In `System` an event `getTask`
  runs the whole of `GetTask` in one step (`GetTask`: the value read is the latch at
  the lock).  In `RaceSystem` the latch read and the locked part of a call are two
  events, with any `DoneTask` calls and timer fires between them
  (`GetTaskWithRead`: the value read is a parameter).  A call that read `false` and
  reaches the locked part after the last ack finds an empty queue and returns SNOOZE
  without touching the state (`GetTaskLocked_after_done`), so both systems reach the
  same coordinator states (`race_reachable`); they differ in the answers a call can
  get in a state.
* A goroutine started by `go c.checkTask(task.ID)` is a pending timer: the `System`
  state keeps the multiset of pending timers, and a timer fire runs the locked body
  of `checkTask`.  `System.acked` is a history variable (the records retired by
  accepted acks); no transition reads it.
* A Go `string` is a Lean `String`; the bytes hashed by `ihash` are its UTF-8
  encoding, and `<` on keys is the lexicographic order of the characters, which on
  UTF-8 text is the byte-wise order of Go.
* Library code is not part of the package.  `hash/fnv` is embedded by its algorithm
  (`New32a`, `Write32a`, `Sum32`).  `sort.Sort` is a parameter `sortf` of `Reduce`
  with the contract `IsSort` of its documentation (ascending by `Less`, no stability
  promised).  `os.ReadFile`, `os.OpenFile` and the JSON encoder are parameters that
  say which calls fail.
* A call that does not return (`log.Fatalf`, a run-time panic) is the result `none`.
  The loops of `Reduce` run on indices as in the source, bounded by an explicit number
  of iterations; `none` would also mean that this bound was too small, and the
  theorems show that `Reduce` returns `some` output.
* The worker holds its collaborators through the interfaces `Delivery` and
  `MapReducer`: an iteration of `Run` is embedded as the trace of the calls it makes,
  given the answers of the collaborators during that iteration.
-/

namespace MR

/-! ## entity.go -/

/-- Record `Task` of `entity.go`. -/
structure Task where
  ID : Int
  Assignment : Nat
  File : String
  NReduce : Int
deriving DecidableEq, Repr

/-- Phase tag `SNOOZE = iota`. -/
abbrev SNOOZE : Nat := 0
/-- Phase tag `ABORT`. -/
abbrev ABORT : Nat := 1
/-- Phase tag `REDUCE`. -/
abbrev REDUCE : Nat := 2
/-- Phase tag `MAP`. -/
abbrev MAP : Nat := 3

/-- The call `fmt.Sprintf(mapFile, n)` with `mapFile = "mr-map-%d"`. -/
def mapFile (n : Int) : String := "mr-map-" ++ toString n

/-- Constant `_defaultTaskTimeout = 10 * time.Second`, in nanoseconds. -/
def _defaultTaskTimeout : Int := 10 * 1000000000

/-! ## options.go -/

/-- Record `options` of `options.go`. -/
structure options where
  timeout : Int
deriving DecidableEq, Repr

/-- Interface `Options`; its only implementation is `timeoutOption`. -/
inductive Options where
  | timeoutOption (t : Int)
deriving DecidableEq, Repr

/-- Method `apply` of `timeoutOption`. -/
def Options.apply : Options → options → options
  | .timeoutOption t, _ => { timeout := t }

/-- Function `WithTimeout`. -/
def WithTimeout (timeout : Int) : Options := .timeoutOption timeout

/-! ## The Go map `map[int]Task` -/

/-- Go `m[k]` with the comma-ok form: the value stored under `k`, if any. -/
def mapGet : List (Int × Task) → Int → Option Task
  | [], _ => none
  | (k', v) :: m, k => if k' = k then some v else mapGet m k

/-- Go `delete(m, k)`. -/
def mapDelete (m : List (Int × Task)) (k : Int) : List (Int × Task) :=
  m.filter (fun p => decide (p.1 ≠ k))

/-- Go `m[k] = v`: the binding of `k` is replaced. -/
def mapSet (m : List (Int × Task)) (k : Int) (v : Task) : List (Int × Task) :=
  (k, v) :: mapDelete m k

/-! ## coordinator.go -/

/-- Record `Coordinator` (the mutex is implicit: every function below is atomic). -/
structure Coordinator where
  mapCount : Int
  isDone : Bool
  queueTask : List Task
  runningTask : List (Int × Task)
  taskTimeout : Int
deriving DecidableEq, Repr

/-- Body of `checkTask` after the timer has fired, under the lock. -/
def checkTask (c : Coordinator) (taskID : Int) : Coordinator :=
  match mapGet c.runningTask taskID with
  | some task =>
    let queueTask :=
      if task.Assignment = REDUCE then c.queueTask ++ [task]
      else [task] ++ c.queueTask
    { c with queueTask := queueTask, runningTask := mapDelete c.runningTask taskID }
  | none => c

/-- Function `DoneTask`: the new state and the returned error (`none` is `nil`). -/
def DoneTask (c : Coordinator) (taskID : Int) : Coordinator × Option String :=
  match mapGet c.runningTask taskID with
  | none => (c, some ("task " ++ toString taskID ++ " not found"))
  | some task =>
    let runningTask := mapDelete c.runningTask taskID
    let mapCount := if task.Assignment = MAP then c.mapCount + (-1) else c.mapCount
    let isDone :=
      if c.queueTask.length = 0 ∧ runningTask.length = 0 then true else c.isDone
    ({ c with runningTask := runningTask, mapCount := mapCount, isDone := isDone }, none)

/-- Result of `GetTask`: the new state, the returned task and the id handed to the
goroutine `go c.checkTask(task.ID)` when a task is dispatched. -/
structure GetTaskResult where
  coord : Coordinator
  task : Task
  spawned : Option Int
deriving DecidableEq, Repr

/-- Part of `GetTask` that runs under the lock (lines 77-91). -/
def GetTaskLocked (c : Coordinator) : GetTaskResult :=
  match c.queueTask with
  | [] => ⟨c, { ID := 0, Assignment := SNOOZE, File := "", NReduce := 0 }, none⟩
  | task :: rest =>
    if task.Assignment = REDUCE ∧ c.mapCount > 0 then
      ⟨c, { ID := 0, Assignment := SNOOZE, File := "", NReduce := 0 }, none⟩
    else
      ⟨{ c with queueTask := rest, runningTask := mapSet c.runningTask task.ID task },
        task, some task.ID⟩

/-- Function `GetTask`: the lock-free test of the latch, then the locked part. -/
def GetTask (c : Coordinator) : GetTaskResult :=
  if c.isDone then ⟨c, { ID := 0, Assignment := ABORT, File := "", NReduce := 0 }, none⟩
  else GetTaskLocked c

/-- Function `Done`. -/
def Done (c : Coordinator) : Bool := c.isDone

/-- Function `MakeCoordinator`: the two loops thread the slice and `taskNum`. -/
def MakeCoordinator (files : List String) (nReduce : Nat) (opts : List Options) :
    Coordinator :=
  let option := opts.foldl (fun o opt => opt.apply o) { timeout := _defaultTaskTimeout }
  let s₁ := files.foldl
    (fun (s : List Task × Int) file =>
      let taskNum := s.2 + 1
      (s.1 ++ [{ ID := taskNum, File := file, Assignment := MAP, NReduce := nReduce }],
        taskNum))
    ([], 0)
  let s₂ := (List.range nReduce).foldl
    (fun (s : List Task × Int) i =>
      let taskNum := s.2 + 1
      (s.1 ++ [{ ID := taskNum, File := mapFile ((i : Int) + 1), Assignment := REDUCE,
                 NReduce := (i : Int) + 1 }],
        taskNum))
    s₁
  { queueTask := s₂.1
    mapCount := (files.length : Int)
    isDone := false
    runningTask := []
    taskTimeout := option.timeout }

/-! ## Interleavings -/

/-- Coordinator together with its pending reclamation timers and the history of
accepted acks. -/
structure System where
  coord : Coordinator
  timers : List Int
  acked : List Task
deriving DecidableEq, Repr

/-- One atomic event: a `GetTask` call, a `DoneTask` call, or the fire of a pending
reclamation timer. -/
inductive Call where
  | getTask
  | doneTask (taskID : Int)
  | timerFire (taskID : Int)
deriving DecidableEq, Repr

/-- State after `MakeCoordinator`: no timer is pending, nothing is acked. -/
def System.init (files : List String) (nReduce : Nat) (opts : List Options) : System :=
  { coord := MakeCoordinator files nReduce opts, timers := [], acked := [] }

/-- Effect of one event.  A fire of a timer that is not pending is not an event of
the program and leaves the state as it is. -/
def System.step (s : System) : Call → System
  | .getTask =>
    let r := GetTask s.coord
    { s with
      coord := r.coord
      timers := match r.spawned with
        | some id => id :: s.timers
        | none => s.timers }
  | .doneTask taskID =>
    let r := DoneTask s.coord taskID
    { s with
      coord := r.1
      acked := match r.2, mapGet s.coord.runningTask taskID with
        | none, some task => task :: s.acked
        | _, _ => s.acked }
  | .timerFire taskID =>
    if taskID ∈ s.timers then
      { s with coord := checkTask s.coord taskID, timers := s.timers.erase taskID }
    else s

/-- State after a sequence of events. -/
def System.run (s : System) (calls : List Call) : System :=
  calls.foldl System.step s

/-- States reachable from `MakeCoordinator files nReduce opts`. -/
def Reachable (files : List String) (nReduce : Nat) (opts : List Options)
    (s : System) : Prop :=
  ∃ calls, s = (System.init files nReduce opts).run calls

/-- Number of queued or leased tasks of the given kind. -/
def outstanding (kind : Nat) (c : Coordinator) : Nat :=
  c.queueTask.countP (fun t => decide (t.Assignment = kind)) +
    c.runningTask.countP (fun p => decide (p.2.Assignment = kind))

/-- Number of accepted acks of tasks of the given kind. -/
def ackCount (kind : Nat) (s : System) : Nat :=
  s.acked.countP (fun t => decide (t.Assignment = kind))

/-- Contribution of one event to the count of accepted acks of the given kind: 1 for
a `DoneTask` call that returns no error on a leased task of that kind, else 0. -/
def okAck (kind : Nat) (s : System) : Call → Nat
  | .doneTask taskID =>
    match (DoneTask s.coord taskID).2, mapGet s.coord.runningTask taskID with
    | none, some task => if task.Assignment = kind then 1 else 0
    | _, _ => 0
  | _ => 0

/-- Number of `DoneTask` calls of the sequence, run from `s`, that return no error on
a task of the given kind. -/
def okAcks (kind : Nat) : System → List Call → Nat
  | _, [] => 0
  | s, call :: calls => okAck kind s call + okAcks kind (s.step call) calls

/-- Closed form of the first loop of `MakeCoordinator`, started with `taskNum = n`. -/
def mapTasksFrom (nReduce : Nat) : Nat → List String → List Task
  | _, [] => []
  | n, file :: files =>
    { ID := ((n + 1 : Nat) : Int), File := file, Assignment := MAP,
      NReduce := (nReduce : Int) } :: mapTasksFrom nReduce (n + 1) files

/-- Closed form of the second loop of `MakeCoordinator`, started with `taskNum = n`. -/
def reduceTasksFrom (n nReduce : Nat) : List Task :=
  (List.range nReduce).map (fun i =>
    { ID := ((n + i + 1 : Nat) : Int), File := mapFile ((i : Int) + 1),
      Assignment := REDUCE, NReduce := (i : Int) + 1 })

/-- Tasks created by `MakeCoordinator`, in queue order. -/
def initialTasks (files : List String) (nReduce : Nat) : List Task :=
  mapTasksFrom nReduce 0 files ++ reduceTasksFrom files.length nReduce

/-- Control directive returned when the coordinator is done. -/
def abortTask : Task := { ID := 0, Assignment := ABORT, File := "", NReduce := 0 }

/-- Control directive returned when no task can be handed out. -/
def snoozeTask : Task := { ID := 0, Assignment := SNOOZE, File := "", NReduce := 0 }

/-- Error value returned by `DoneTask` for an id that is not leased. -/
def notFound (taskID : Int) : Option String :=
  some ("task " ++ toString taskID ++ " not found")

/-- Invariant: the tasks of the queue, of the leases and of the ack history are the
tasks created at construction, each once; a lease is stored under the id of its
task; `mapCount` is the number of input files minus the accepted MAP acks; the latch
is set exactly when queue and leases are empty after at least one accepted ack. -/
structure Inv (files : List String) (nReduce : Nat) (s : System) : Prop where
  perm : (s.coord.queueTask ++ s.coord.runningTask.map Prod.snd ++ s.acked).Perm
    (initialTasks files nReduce)
  keys : ∀ p ∈ s.coord.runningTask, p.2.ID = p.1
  count : s.coord.mapCount + (ackCount MAP s : Int) = (files.length : Int)
  done : s.coord.isDone = true ↔
    (s.coord.queueTask = [] ∧ s.coord.runningTask = [] ∧ s.acked ≠ [])

/-- One cycle of a sequential worker: `GetTask`, then `DoneTask` on the id of the
returned task, with no timer fire in between. -/
def cycle (c : Coordinator) : Coordinator :=
  (DoneTask (GetTask c).coord (GetTask c).task.ID).1

/-- Coordinator after `n` cycles of a sequential worker. -/
def cycles : Nat → Coordinator → Coordinator
  | 0, c => c
  | n + 1, c => cycle (cycles n c)

/-- Queue discipline: no MAP task sits behind a task that is not a MAP task. -/
def MapsFirst (queue : List Task) : Prop :=
  queue.Pairwise (fun a b => b.Assignment = MAP → a.Assignment = MAP)

/-- Lease discipline: a REDUCE task is leased only when `mapCount` is not positive. -/
def ReduceLeasedAfterMaps (c : Coordinator) : Prop :=
  ∀ p ∈ c.runningTask, p.2.Assignment = REDUCE → c.mapCount ≤ 0

/-! ## worker.go: `KeyValue`, `ByKey`, `ihash` -/

/-- Record `KeyValue` of `worker.go`. -/
structure KeyValue where
  Key : String
  Value : String
deriving DecidableEq, Repr

/-- Go's `<` on strings, the lexicographic order, computed on the characters of the
two strings (on UTF-8 text the byte-wise order and the order by code points agree). -/
def stringLess : List Char → List Char → Bool
  | [], [] => false
  | [], _ :: _ => true
  | _ :: _, [] => false
  | a :: as, b :: bs => if a < b then true else if b < a then false else stringLess as bs

/-- Method `Less` of `ByKey` on two elements of the slice: `a[i].Key < a[j].Key`. -/
def ByKey.Less (x y : KeyValue) : Prop := stringLess x.Key.data y.Key.data = true

instance ByKey.decidableLess : DecidableRel ByKey.Less :=
  fun x y => inferInstanceAs (Decidable (stringLess x.Key.data y.Key.data = true))

/-- Constant `offset32` of `hash/fnv`. -/
def offset32 : Nat := 2166136261

/-- Constant `prime32` of `hash/fnv`. -/
def prime32 : Nat := 16777619

/-- Function `fnv.New32a`: the initial `uint32` state. -/
def New32a : Nat := offset32

/-- Method `Write` of the 32-bit FNV-1a state: for each byte `c`,
`hash ^= uint32(c); hash *= prime32` in `uint32` arithmetic. -/
def Write32a (hash : Nat) (data : List UInt8) : Nat :=
  data.foldl (fun hash c => ((hash ^^^ c.toNat) * prime32) % 2 ^ 32) hash

/-- Method `Sum32` of the 32-bit FNV-1a state. -/
def Sum32 (hash : Nat) : Nat := hash

/-- Function `ihash`: `int(h.Sum32() & 0x7fffffff)` after `h.Write([]byte(key))`. -/
def ihash (key : String) : Int :=
  ((Sum32 (Write32a New32a key.toUTF8.data.toList) &&& 0x7fffffff : Nat) : Int)

/-! ## mapreduce.go -/

/-- Record `MapReduce`: the two user functions. -/
structure MapReduce where
  mapf : String → String → List KeyValue
  reducef : String → List String → String

/-- Function `NewMapReduce`. -/
def NewMapReduce (mapf : String → String → List KeyValue)
    (reducef : String → List String → String) : MapReduce :=
  { mapf := mapf, reducef := reducef }

/-- Body of the loop of `MapAndShuffle` for one emitted pair; `none` is a run-time
panic (division by zero, index out of range). -/
def shuffleStep (nReduce : Int) (shuffleData : List (List KeyValue)) (item : KeyValue) :
    Option (List (List KeyValue)) :=
  if nReduce = 0 then none
  else
    let index := Int.tmod (ihash item.Key) nReduce
    if index < 0 then none
    else
      match shuffleData[index.toNat]? with
      | none => none
      | some bucket => some (shuffleData.set index.toNat (bucket ++ [item]))

/-- Function `MapAndShuffle`.  `readFile` is `os.ReadFile` (`none` for an error);
the result `none` means that the call does not return (`log.Fatalf`, or a panic of
`make` with a negative length or of the loop body). -/
def MapAndShuffle (w : MapReduce) (readFile : String → Option String)
    (filename : String) (nReduce : Int) : Option (List (List KeyValue)) :=
  match readFile filename with
  | none => none
  | some content =>
    let keyValues := w.mapf filename content
    if nReduce < 0 then none
    else keyValues.foldlM (shuffleStep nReduce) (List.replicate nReduce.toNat [])

/-- File name `fmt.Sprintf("mr-map-%d", i+1)` that `StoreMap` uses for partition `i`. -/
def tmpFileName (i : Nat) : String := "mr-map-" ++ toString ((i : Int) + 1)

/-- Loop of `StoreMap` from partition index `i` on: the appends made, as pairs of a
file name and the records encoded to it.  `openFails` tells for which names
`os.OpenFile` returns an error (the partition is skipped), `encodeFails` for which
records `enc.Encode` returns an error (the record is skipped). -/
def storeMapLoop (openFails : String → Bool) (encodeFails : String → KeyValue → Bool) :
    Nat → List (List KeyValue) → List (String × List KeyValue)
  | _, [] => []
  | i, data :: rest =>
    (if openFails (tmpFileName i) then []
      else [(tmpFileName i, data.filter (fun kv => !encodeFails (tmpFileName i) kv))]) ++
      storeMapLoop openFails encodeFails (i + 1) rest

/-- Function `StoreMap`. -/
def StoreMap (openFails : String → Bool) (encodeFails : String → KeyValue → Bool)
    (kvs : List (List KeyValue)) : List (String × List KeyValue) :=
  storeMapLoop openFails encodeFails 0 kvs

/-- FNV-1a on 32 bits as the specification words it: for each byte, xor it into the
hash, then multiply by the prime 16777619 modulo `2^32`. -/
def fnv1a32 : Nat → List UInt8 → Nat
  | h, [] => h
  | h, b :: bs => fnv1a32 (((h ^^^ b.toNat) * 16777619) % 4294967296) bs

/-- Value `h` with bit 31 cleared. -/
def clearBit31 (h : Nat) : Nat := if h.testBit 31 then h - 2147483648 else h

/-- Partition index of a pair for fan-out `R`, as a natural number. -/
def partitionOf (R : Nat) (kv : KeyValue) : Nat := (ihash kv.Key % (R : Int)).toNat

/-- Example job: a map function that emits the words of `"foo bar bar baz"` with the
value `"1"`, and a reduce function that concatenates the values. -/
def exampleJob : MapReduce :=
  { mapf := fun _ _ =>
      [{ Key := "foo", Value := "1" }, { Key := "bar", Value := "2" },
       { Key := "bar", Value := "3" }, { Key := "baz", Value := "4" }]
    reducef := fun _ values => String.join values }

/-- Example file system: every file exists and is empty. -/
def exampleReadFile : String → Option String := fun _ => some ""

/-- Contract of the library call `sort.Sort(ByKey(kv))`: the slice is rearranged into
ascending order as determined by `Less`; the sort is not guaranteed to be stable. -/
structure IsSort (sortf : List KeyValue → List KeyValue) : Prop where
  perm : ∀ kv, (sortf kv).Perm kv
  sorted : ∀ kv, (sortf kv).Pairwise (fun x y => ¬ ByKey.Less y x)

/-- Inner loop of `Reduce`, `for j < len(kv) && kv[j].Key == kv[i].Key { j++ }`; the
first argument bounds the number of iterations (`len(kv) - j` at the start). -/
def scanGroup (kv : List KeyValue) (key : String) : Nat → Nat → Nat
  | 0, j => j
  | n + 1, j =>
    match kv[j]? with
    | some x => if x.Key = key then scanGroup kv key n (j + 1) else j
    | none => j

/-- Outer loop of `Reduce` from index `i` with the output so far.  The first argument
bounds the number of iterations; `none` means that the bound was too small or that an
index was out of range. -/
def reduceLoop (reducef : String → List String → String) (kv : List KeyValue) :
    Nat → Nat → List KeyValue → Option (List KeyValue)
  | 0, i, output =>
    match kv[i]? with
    | none => some output
    | some _ => none
  | fuel + 1, i, output =>
    match kv[i]? with
    | none => some output
    | some first =>
      let j := scanGroup kv first.Key (kv.length - (i + 1)) (i + 1)
      match (List.range' i (j - i)).mapM (fun k => (kv[k]?).map KeyValue.Value) with
      | none => none
      | some values =>
        reduceLoop reducef kv fuel j
          (output ++ [{ Key := first.Key, Value := reducef first.Key values }])

/-- Function `Reduce`; `sortf` is the library call `sort.Sort(ByKey(kv))`. -/
def Reduce (w : MapReduce) (sortf : List KeyValue → List KeyValue) (kv : List KeyValue) :
    Option (List KeyValue) :=
  reduceLoop w.reducef (sortf kv) (sortf kv).length 0 []

/-- Groups of adjacent records with equal keys: the key of each group with the values
of its records in order.  The first argument bounds the number of groups. -/
def groupsAdj : Nat → List KeyValue → List (String × List String)
  | 0, _ => []
  | _ + 1, [] => []
  | n + 1, x :: rest =>
    (x.Key, x.Value :: (rest.takeWhile (fun y => decide (y.Key = x.Key))).map KeyValue.Value) ::
      groupsAdj n (rest.dropWhile (fun y => decide (y.Key = x.Key)))

/-- Values of the records with key `k`, in the order of the list. -/
def valuesOf (k : String) (kv : List KeyValue) : List String :=
  (kv.filter (fun y => decide (y.Key = k))).map KeyValue.Value

/-- Stable insertion sort by key: a function that meets the contract of `sort.Sort`. -/
def stableSort (kv : List KeyValue) : List KeyValue :=
  kv.insertionSort (fun x y => ¬ ByKey.Less y x)

/-- Example input of `Reduce`: the pairs of `exampleJob` in emission order. -/
def exampleRecords : List KeyValue :=
  [{ Key := "foo", Value := "1" }, { Key := "bar", Value := "2" },
   { Key := "bar", Value := "3" }, { Key := "baz", Value := "4" }]

/-- A sort that meets the contract of `sort.Sort` and is not stable: a slice of at most
12 elements is sorted by stable insertion; in a longer slice the element at index
`len/4*2` is first moved to the front (the first move of a quicksort partition around
the middle pivot candidate), then the slice is sorted by stable insertion. -/
def pivotFirstSort (kv : List KeyValue) : List KeyValue :=
  if kv.length ≤ 12 then stableSort kv
  else
    match kv[kv.length / 4 * 2]? with
    | some p => stableSort (p :: kv.eraseIdx (kv.length / 4 * 2))
    | none => stableSort kv

/-- Input of 13 records: one record with key `"b"`, then twelve with key `"a"`. -/
def unstableInput : List KeyValue :=
  [{ Key := "b", Value := "0" }, { Key := "a", Value := "1" }, { Key := "a", Value := "2" },
   { Key := "a", Value := "3" }, { Key := "a", Value := "4" }, { Key := "a", Value := "5" },
   { Key := "a", Value := "6" }, { Key := "a", Value := "7" }, { Key := "a", Value := "8" },
   { Key := "a", Value := "9" }, { Key := "a", Value := "A" }, { Key := "a", Value := "B" },
   { Key := "a", Value := "C" }]

/-! ## worker.go: the worker loop -/

/-- Constant `_defaultSnoozeTime = 1 * time.Second`, in nanoseconds. -/
def _defaultSnoozeTime : Int := 1 * 1000000000

/-- Interface `Delivery`: the answers of the coordinator side to the calls of one
iteration of the worker loop (`error` is a transport or not-found error). -/
structure Delivery where
  GetTask : Except String Task
  DoneTask : Int → Option String

/-- Interface `MapReducer`: the answers of the engine to the calls of one iteration.
`MapAndShuffle` is `none` when the call does not return (`log.Fatalf`). -/
structure MapReducer where
  MapAndShuffle : String → Int → Option (List (List KeyValue))
  ReadMap : String → Except String (List KeyValue)
  Reduce : List KeyValue → List KeyValue
  StoreReduce : Int → String → List KeyValue → Option String

/-- Record `Worker` (the logger is left out: its calls are events of the trace). -/
structure Worker where
  mapReduce : MapReducer
  delivery : Delivery
  snoozeTime : Int

/-- Function `New` of `worker.go`. -/
def New (mapReduce : MapReducer) (delivery : Delivery) (opts : List Options) : Worker :=
  let option := opts.foldl (fun (o : options) (opt : Options) => opt.apply o)
    { timeout := _defaultSnoozeTime }
  { mapReduce := mapReduce, delivery := delivery, snoozeTime := option.timeout }

/-- Calls made by the worker loop, in the order of the trace. -/
inductive WorkerCall where
  | getTask
  | mapAndShuffle (filename : String) (nReduce : Int)
  | doneTask (taskID : Int)
  | storeMap (kvs : List (List KeyValue))
  | readMap (src : String)
  | reduce (kv : List KeyValue)
  | storeReduce (nReduce : Int) (src : String) (kv : List KeyValue)
  | sleep (d : Int)
  | logError (msg : String)
  | logInfo (msg : String)
deriving DecidableEq, Repr

/-- How one iteration of the loop of `Run` ends: `next` goes on to the next iteration,
`exit` returns from `Run`, `fatal` ends the process inside `MapAndShuffle`. -/
inductive Outcome where
  | next
  | exit
  | fatal
deriving DecidableEq, Repr

/-- One iteration of the loop of `Run`: the calls made, in order, and how it ends. -/
def Worker.iteration (m : Worker) : List WorkerCall × Outcome :=
  match m.delivery.GetTask with
  | .error err => ([.getTask, .logError err, .logInfo "worker exit"], .exit)
  | .ok task =>
    if task.Assignment = MAP then
      match m.mapReduce.MapAndShuffle task.File task.NReduce with
      | none => ([.getTask, .mapAndShuffle task.File task.NReduce], .fatal)
      | some shuffleData =>
        match m.delivery.DoneTask task.ID with
        | some err =>
          ([.getTask, .mapAndShuffle task.File task.NReduce, .doneTask task.ID,
            .logError err], .next)
        | none =>
          ([.getTask, .mapAndShuffle task.File task.NReduce, .doneTask task.ID,
            .storeMap shuffleData], .next)
    else if task.Assignment = REDUCE then
      match m.mapReduce.ReadMap task.File with
      | .error err => ([.getTask, .readMap task.File, .logError err], .next)
      | .ok intermediate =>
        let output := m.mapReduce.Reduce intermediate
        match m.delivery.DoneTask task.ID with
        | some err =>
          ([.getTask, .readMap task.File, .reduce intermediate, .doneTask task.ID,
            .logError err], .next)
        | none =>
          match m.mapReduce.StoreReduce task.NReduce task.File output with
          | some err =>
            ([.getTask, .readMap task.File, .reduce intermediate, .doneTask task.ID,
              .storeReduce task.NReduce task.File output, .logError err], .next)
          | none =>
            ([.getTask, .readMap task.File, .reduce intermediate, .doneTask task.ID,
              .storeReduce task.NReduce task.File output], .next)
    else if task.Assignment = SNOOZE then ([.getTask, .sleep m.snoozeTime], .next)
    else if task.Assignment = ABORT then
      ([.getTask, .logInfo "abort", .logInfo "worker exit"], .exit)
    else ([.getTask], .next)

/-- Function `Run` on a finite prefix of the run: one `Worker` value per iteration,
holding the answers of the collaborators during that iteration. -/
def Worker.Run : List Worker → List WorkerCall
  | [] => []
  | m :: rest =>
    match m.iteration with
    | (calls, .next) => calls ++ Worker.Run rest
    | (calls, _) => calls

/-- Predicate: the call is a `StoreMap` or a `StoreReduce`. -/
def WorkerCall.isStore : WorkerCall → Bool
  | .storeMap _ => true
  | .storeReduce _ _ _ => true
  | _ => false

/-- Example worker: the coordinator hands out MAP task 1, the engine returns one
partition, and the ack is answered by the given error. -/
def exampleWorker (ack : Option String) : Worker :=
  { mapReduce :=
      { MapAndShuffle := fun _ _ => some [[{ Key := "foo", Value := "1" }]]
        ReadMap := fun _ => .ok []
        Reduce := fun kv => kv
        StoreReduce := fun _ _ _ => none }
    delivery :=
      { GetTask := .ok { ID := 1, Assignment := MAP, File := "a.txt", NReduce := 1 }
        DoneTask := fun _ => ack }
    snoozeTime := _defaultSnoozeTime }

/-! ## `GetTask` in two steps: the latch read and the locked part -/

/-- Function `GetTask` as the source runs it under concurrency: `seen` is the value
that the lock-free read `c.isDone.Load()` (line 74) returned, `c` is the coordinator
when the call holds the lock (lines 77-91).  `GetTask c` is the case in which nothing
happens between the read and the lock: `seen = c.isDone`. -/
def GetTaskWithRead (seen : Bool) (c : Coordinator) : GetTaskResult :=
  if seen then ⟨c, { ID := 0, Assignment := ABORT, File := "", NReduce := 0 }, none⟩
  else GetTaskLocked c

/-- Coordinator system with the `GetTask` calls in flight: `reads` holds, for every
`GetTask` call that has read the latch and not yet reached the lock, the value it
read. -/
structure RaceSystem where
  sys : System
  reads : List Bool
deriving DecidableEq, Repr

/-- Atomic events of the coordinator when `GetTask` is not atomic: the latch read of a
`GetTask` call, the locked part of a call that read `seen`, a `DoneTask` call, the
fire of a pending reclamation timer. -/
inductive RaceCall where
  | readLatch
  | lockedPart (seen : Bool)
  | doneTask (taskID : Int)
  | timerFire (taskID : Int)
deriving DecidableEq, Repr

/-- State after `MakeCoordinator`: no call is in flight. -/
def RaceSystem.init (files : List String) (nReduce : Nat) (opts : List Options) :
    RaceSystem :=
  { sys := System.init files nReduce opts, reads := [] }

/-- Effect of one event.  The locked part of a call that is not in flight is not an
event of the program and leaves the state as it is. -/
def RaceSystem.step (rs : RaceSystem) : RaceCall → RaceSystem
  | .readLatch => { rs with reads := rs.sys.coord.isDone :: rs.reads }
  | .lockedPart seen =>
    if seen ∈ rs.reads then
      let r := GetTaskWithRead seen rs.sys.coord
      { sys :=
          { rs.sys with
            coord := r.coord
            timers := match r.spawned with
              | some id => id :: rs.sys.timers
              | none => rs.sys.timers }
        reads := rs.reads.erase seen }
    else rs
  | .doneTask taskID => { rs with sys := rs.sys.step (.doneTask taskID) }
  | .timerFire taskID => { rs with sys := rs.sys.step (.timerFire taskID) }

/-- State after a sequence of events. -/
def RaceSystem.run (rs : RaceSystem) (events : List RaceCall) : RaceSystem :=
  events.foldl RaceSystem.step rs

/-- States reachable from `MakeCoordinator files nReduce opts` when the latch read and
the locked part of `GetTask` are separate events. -/
def RaceReachable (files : List String) (nReduce : Nat) (opts : List Options)
    (rs : RaceSystem) : Prop :=
  ∃ events, rs = (RaceSystem.init files nReduce opts).run events

/-! ## The map operations -/

theorem mapGet_mem {m : List (Int × Task)} {k : Int} {t : Task}
    (h : mapGet m k = some t) : (k, t) ∈ m := by
  induction m with
  | nil => simp [mapGet] at h
  | cons p m ih =>
    obtain ⟨k', v⟩ := p
    by_cases hk : k' = k
    · subst hk
      simp [mapGet] at h
      simp [h]
    · simp [mapGet, hk] at h
      exact List.mem_cons_of_mem _ (ih h)

theorem mapGet_eq_none {m : List (Int × Task)} {k : Int} :
    mapGet m k = none ↔ k ∉ m.map Prod.fst := by
  induction m with
  | nil => simp [mapGet]
  | cons p m ih =>
    obtain ⟨k', v⟩ := p
    by_cases hk : k' = k
    · simp [mapGet, hk]
    · simp only [mapGet, hk, if_false, ih, List.map_cons, List.mem_cons]
      constructor
      · rintro h (h' | h')
        · exact hk h'.symm
        · exact h h'
      · intro h h'
        exact h (Or.inr h')

theorem mapDelete_of_not_mem {m : List (Int × Task)} {k : Int}
    (h : k ∉ m.map Prod.fst) : mapDelete m k = m := by
  unfold mapDelete
  rw [List.filter_eq_self]
  intro p hp
  have : p.1 ≠ k := fun e => h (e ▸ List.mem_map_of_mem Prod.fst hp)
  simpa using this

theorem mapDelete_subset (m : List (Int × Task)) (k : Int) :
    ∀ p ∈ mapDelete m k, p ∈ m := by
  intro p hp
  exact (List.mem_filter.mp hp).1

theorem mapGet_mapDelete_self (m : List (Int × Task)) (k : Int) :
    mapGet (mapDelete m k) k = none := by
  rw [mapGet_eq_none]
  intro h
  obtain ⟨p, hp, hk⟩ := List.mem_map.mp h
  have := (List.mem_filter.mp hp).2
  simp [hk] at this

theorem mapDelete_perm {m : List (Int × Task)} {k : Int} {t : Task}
    (hnd : (m.map Prod.fst).Nodup) (h : mapGet m k = some t) :
    (m.map Prod.snd).Perm (t :: (mapDelete m k).map Prod.snd) := by
  induction m with
  | nil => simp [mapGet] at h
  | cons p m ih =>
    obtain ⟨k', v⟩ := p
    rw [List.map_cons, List.nodup_cons] at hnd
    by_cases hk : k' = k
    · subst hk
      simp [mapGet] at h
      subst h
      have h2 : mapDelete m k' = m := mapDelete_of_not_mem hnd.1
      have : mapDelete ((k', v) :: m) k' = mapDelete m k' := by
        simp [mapDelete, List.filter_cons]
      rw [this, h2]
      simp
    · simp [mapGet, hk] at h
      have : mapDelete ((k', v) :: m) k = (k', v) :: mapDelete m k := by
        simp [mapDelete, List.filter_cons, hk]
      rw [this]
      simp only [List.map_cons]
      exact ((ih hnd.2 h).cons v).trans (List.Perm.swap _ _ _)

/-! ## Construction -/

theorem foldl_mapLoop (nReduce : Nat) (files : List String) (q : List Task) (n : Nat) :
    files.foldl
      (fun (s : List Task × Int) file =>
        let taskNum := s.2 + 1
        (s.1 ++ [{ ID := taskNum, File := file, Assignment := MAP,
                   NReduce := (nReduce : Int) }], taskNum))
      (q, (n : Int)) =
    (q ++ mapTasksFrom nReduce n files, ((n + files.length : Nat) : Int)) := by
  induction files generalizing q n with
  | nil => simp [mapTasksFrom]
  | cons f fs ih =>
    simp only [List.foldl_cons, mapTasksFrom, List.length_cons]
    have h := ih (q ++ [{ ID := ((n + 1 : Nat) : Int), File := f, Assignment := MAP,
                          NReduce := (nReduce : Int) }]) (n + 1)
    rw [show ((n : Int) + 1) = ((n + 1 : Nat) : Int) by push_cast; rfl, h]
    simp [Nat.add_assoc, Nat.add_comm 1]

theorem foldl_reduceLoop (nReduce : Nat) (q : List Task) (n : Nat) :
    (List.range nReduce).foldl
      (fun (s : List Task × Int) i =>
        let taskNum := s.2 + 1
        (s.1 ++ [{ ID := taskNum, File := mapFile ((i : Int) + 1), Assignment := REDUCE,
                   NReduce := (i : Int) + 1 }], taskNum))
      (q, (n : Int)) =
    (q ++ reduceTasksFrom n nReduce, ((n + nReduce : Nat) : Int)) := by
  induction nReduce with
  | zero => simp [reduceTasksFrom]
  | succ r ih =>
    rw [List.range_succ, List.foldl_append, ih]
    simp [reduceTasksFrom, List.range_succ, Nat.add_assoc]
    omega

theorem MakeCoordinator_queueTask (files : List String) (nReduce : Nat)
    (opts : List Options) :
    (MakeCoordinator files nReduce opts).queueTask = initialTasks files nReduce := by
  have h₁ := foldl_mapLoop nReduce files [] 0
  have h₂ := foldl_reduceLoop nReduce (mapTasksFrom nReduce 0 files) (0 + files.length)
  simp only [Nat.cast_zero, List.nil_append] at h₁
  simp only [MakeCoordinator, initialTasks, h₁, h₂]
  simp

/-! ## The tasks created at construction -/

theorem mapTasksFrom_ids (nReduce n : Nat) (files : List String) :
    (mapTasksFrom nReduce n files).map Task.ID =
      (List.range' (n + 1) files.length).map (fun i : Nat => (i : Int)) := by
  induction files generalizing n with
  | nil => simp [mapTasksFrom]
  | cons f fs ih => simp [mapTasksFrom, List.range'_succ, ih]

theorem reduceTasksFrom_ids (n nReduce : Nat) :
    (reduceTasksFrom n nReduce).map Task.ID =
      (List.range' (n + 1) nReduce).map (fun i : Nat => (i : Int)) := by
  simp only [reduceTasksFrom, List.range'_eq_map_range, List.map_map]
  apply List.map_congr_left
  intro i _
  simp only [Function.comp]
  congr 1
  omega

theorem initialTasks_ids (files : List String) (nReduce : Nat) :
    (initialTasks files nReduce).map Task.ID =
      (List.range' 1 (files.length + nReduce)).map (fun i : Nat => (i : Int)) := by
  simp only [initialTasks, List.map_append, mapTasksFrom_ids, reduceTasksFrom_ids]
  rw [← List.map_append, Nat.zero_add, Nat.add_comm files.length 1,
    List.range'_append_1, Nat.add_comm nReduce]

theorem initialTasks_nodup (files : List String) (nReduce : Nat) :
    ((initialTasks files nReduce).map Task.ID).Nodup := by
  rw [initialTasks_ids]
  exact (List.nodup_range' 1 _).map (fun a b h => by exact_mod_cast h)

theorem mem_initialTasks_ids (files : List String) (nReduce : Nat) (id : Int) :
    id ∈ (initialTasks files nReduce).map Task.ID ↔
      1 ≤ id ∧ id ≤ (files.length : Int) + nReduce := by
  rw [initialTasks_ids]
  simp only [List.mem_map, List.mem_range'_1]
  constructor
  · rintro ⟨i, ⟨h1, h2⟩, rfl⟩
    omega
  · rintro ⟨h1, h2⟩
    refine ⟨id.toNat, ⟨by omega, by omega⟩, by omega⟩

theorem mapTasksFrom_countP (nReduce n : Nat) (files : List String) (kind : Nat) :
    (mapTasksFrom nReduce n files).countP (fun t => decide (t.Assignment = kind)) =
      if kind = MAP then files.length else 0 := by
  induction files generalizing n with
  | nil => simp [mapTasksFrom]
  | cons f fs ih =>
    simp only [mapTasksFrom, List.countP_cons, ih, List.length_cons]
    by_cases hk : kind = MAP
    · simp [hk]
    · have : ¬ MAP = kind := fun e => hk e.symm
      simp [hk, this]

theorem reduceTasksFrom_countP (n nReduce : Nat) (kind : Nat) :
    (reduceTasksFrom n nReduce).countP (fun t => decide (t.Assignment = kind)) =
      if kind = REDUCE then nReduce else 0 := by
  induction nReduce with
  | zero => simp [reduceTasksFrom]
  | succ r ih =>
    simp only [reduceTasksFrom, List.range_succ, List.map_append, List.countP_append,
      List.map_cons, List.map_nil, List.countP_cons, List.countP_nil] at ih ⊢
    rw [ih]
    by_cases hk : kind = REDUCE
    · simp [hk]
    · have : ¬ REDUCE = kind := fun e => hk e.symm
      simp [hk, this]

theorem initialTasks_countP (files : List String) (nReduce : Nat) (kind : Nat) :
    (initialTasks files nReduce).countP (fun t => decide (t.Assignment = kind)) =
      (if kind = MAP then files.length else 0) +
        (if kind = REDUCE then nReduce else 0) := by
  simp only [initialTasks, List.countP_append, mapTasksFrom_countP,
    reduceTasksFrom_countP]

theorem mapTasksFrom_kind (nReduce n : Nat) (files : List String) :
    ∀ t ∈ mapTasksFrom nReduce n files, t.Assignment = MAP := by
  induction files generalizing n with
  | nil => simp [mapTasksFrom]
  | cons f fs ih =>
    intro t ht
    simp only [mapTasksFrom, List.mem_cons] at ht
    rcases ht with rfl | ht
    · rfl
    · exact ih _ t ht

theorem initialTasks_kind (files : List String) (nReduce : Nat) :
    ∀ t ∈ initialTasks files nReduce, t.Assignment = MAP ∨ t.Assignment = REDUCE := by
  intro t ht
  simp only [initialTasks, List.mem_append] at ht
  rcases ht with ht | ht
  · exact Or.inl (mapTasksFrom_kind _ _ _ t ht)
  · simp only [reduceTasksFrom, List.mem_map] at ht
    obtain ⟨i, _, rfl⟩ := ht
    exact Or.inr rfl

theorem initialTasks_length (files : List String) (nReduce : Nat) :
    (initialTasks files nReduce).length = files.length + nReduce := by
  have h := congrArg List.length (initialTasks_ids files nReduce)
  simpa using h

/-! ## Case analysis of the three operations -/

theorem GetTask_cases (c : Coordinator) :
    (c.isDone = true ∧
      GetTask c = ⟨c, { ID := 0, Assignment := ABORT, File := "", NReduce := 0 }, none⟩) ∨
    (c.isDone = false ∧
      (c.queueTask = [] ∨
        ∃ t rest, c.queueTask = t :: rest ∧ t.Assignment = REDUCE ∧ c.mapCount > 0) ∧
      GetTask c = ⟨c, { ID := 0, Assignment := SNOOZE, File := "", NReduce := 0 }, none⟩) ∨
    (∃ t rest, c.isDone = false ∧ c.queueTask = t :: rest ∧
      ¬ (t.Assignment = REDUCE ∧ c.mapCount > 0) ∧
      GetTask c =
        ⟨{ c with queueTask := rest, runningTask := mapSet c.runningTask t.ID t },
          t, some t.ID⟩) := by
  unfold GetTask GetTaskLocked
  cases hd : c.isDone with
  | true => simp
  | false =>
    right
    cases hq : c.queueTask with
    | nil => simp
    | cons t rest =>
      by_cases hg : t.Assignment = REDUCE ∧ c.mapCount > 0
      · left
        simp [hg]
      · right
        exact ⟨t, rest, rfl, rfl, hg, by simp [hg]⟩

theorem DoneTask_cases (c : Coordinator) (taskID : Int) :
    (mapGet c.runningTask taskID = none ∧
      DoneTask c taskID = (c, some ("task " ++ toString taskID ++ " not found"))) ∨
    (∃ task, mapGet c.runningTask taskID = some task ∧
      DoneTask c taskID =
        ({ c with
            runningTask := mapDelete c.runningTask taskID
            mapCount := if task.Assignment = MAP then c.mapCount + (-1) else c.mapCount
            isDone :=
              if c.queueTask.length = 0 ∧ (mapDelete c.runningTask taskID).length = 0
              then true else c.isDone }, none)) := by
  unfold DoneTask
  cases h : mapGet c.runningTask taskID with
  | none => simp
  | some task => simp

theorem checkTask_cases (c : Coordinator) (taskID : Int) :
    (mapGet c.runningTask taskID = none ∧ checkTask c taskID = c) ∨
    (∃ task, mapGet c.runningTask taskID = some task ∧
      checkTask c taskID =
        { c with
          queueTask :=
            if task.Assignment = REDUCE then c.queueTask ++ [task]
            else [task] ++ c.queueTask
          runningTask := mapDelete c.runningTask taskID }) := by
  unfold checkTask
  cases h : mapGet c.runningTask taskID with
  | none => simp
  | some task => simp

/-! ## The invariant of the reachable states -/

theorem Inv.keys_eq {files : List String} {nReduce : Nat} {s : System}
    (h : Inv files nReduce s) :
    s.coord.runningTask.map Prod.fst = (s.coord.runningTask.map Prod.snd).map Task.ID := by
  rw [List.map_map]
  apply List.map_congr_left
  intro p hp
  exact (h.keys p hp).symm

theorem Inv.nodup {files : List String} {nReduce : Nat} {s : System}
    (h : Inv files nReduce s) :
    (s.coord.queueTask.map Task.ID ++ s.coord.runningTask.map Prod.fst ++
      s.acked.map Task.ID).Nodup := by
  have := (h.perm.map Task.ID).nodup_iff.mpr (initialTasks_nodup files nReduce)
  rw [h.keys_eq]
  simpa using this

theorem Inv.keys_nodup {files : List String} {nReduce : Nat} {s : System}
    (h : Inv files nReduce s) : (s.coord.runningTask.map Prod.fst).Nodup := by
  have := h.nodup
  rw [List.nodup_append, List.nodup_append] at this
  exact this.1.2.1

theorem inv_init (files : List String) (nReduce : Nat) (opts : List Options) :
    Inv files nReduce (System.init files nReduce opts) where
  perm := by
    have hr : (MakeCoordinator files nReduce opts).runningTask = [] := rfl
    simp [System.init, MakeCoordinator_queueTask, hr]
  keys := by simp [System.init, MakeCoordinator]
  count := by simp [System.init, MakeCoordinator, ackCount]
  done := by simp [System.init, MakeCoordinator]

theorem inv_getTask {files : List String} {nReduce : Nat} {s : System}
    (h : Inv files nReduce s) : Inv files nReduce (s.step .getTask) := by
  rcases GetTask_cases s.coord with ⟨_, hg⟩ | ⟨_, _, hg⟩ | ⟨t, rest, hd, hq, _, hg⟩
  · exact ⟨by simpa [System.step, hg] using h.perm, by simpa [System.step, hg] using h.keys,
      by simpa [System.step, hg, ackCount] using h.count,
      by simpa [System.step, hg] using h.done⟩
  · exact ⟨by simpa [System.step, hg] using h.perm, by simpa [System.step, hg] using h.keys,
      by simpa [System.step, hg, ackCount] using h.count,
      by simpa [System.step, hg] using h.done⟩
  · have hnd := h.nodup
    rw [hq, List.map_cons, List.cons_append, List.cons_append, List.nodup_cons] at hnd
    have hnot : t.ID ∉ s.coord.runningTask.map Prod.fst := by
      intro hm
      exact hnd.1 (List.mem_append_left _ (List.mem_append_right _ hm))
    have hdel : mapDelete s.coord.runningTask t.ID = s.coord.runningTask :=
      mapDelete_of_not_mem hnot
    have hp := h.perm
    rw [hq] at hp
    refine ⟨?_, ?_, ?_, ?_⟩
    · simp only [System.step, hg, mapSet, hdel, List.map_cons]
      refine List.Perm.trans ?_ hp
      simp only [List.append_assoc, List.cons_append]
      exact List.perm_middle
    · simp only [System.step, hg, mapSet, hdel]
      intro p hp'
      rcases List.mem_cons.mp hp' with rfl | hp'
      · rfl
      · exact h.keys p hp'
    · simpa [System.step, hg, ackCount] using h.count
    · simp [System.step, hg, mapSet, hd]

theorem Inv.not_done_of_lease {files : List String} {nReduce : Nat} {s : System}
    (h : Inv files nReduce s) {taskID : Int} {task : Task}
    (hget : mapGet s.coord.runningTask taskID = some task) : s.coord.isDone = false := by
  cases hd : s.coord.isDone with
  | false => rfl
  | true =>
    have hr := (h.done.mp hd).2.1
    rw [hr] at hget
    simp [mapGet] at hget

theorem inv_doneTask {files : List String} {nReduce : Nat} {s : System}
    (h : Inv files nReduce s) (taskID : Int) :
    Inv files nReduce (s.step (.doneTask taskID)) := by
  rcases DoneTask_cases s.coord taskID with ⟨hget, hg⟩ | ⟨task, hget, hg⟩
  · exact ⟨by simpa [System.step, hg] using h.perm, by simpa [System.step, hg] using h.keys,
      by simpa [System.step, hg, ackCount] using h.count,
      by simpa [System.step, hg] using h.done⟩
  · have hperm := mapDelete_perm h.keys_nodup hget
    have hd := h.not_done_of_lease hget
    refine ⟨?_, ?_, ?_, ?_⟩
    · simp only [System.step, hg, hget]
      refine List.Perm.trans ?_ h.perm
      simp only [List.append_assoc]
      refine List.Perm.append_left _ ?_
      refine List.Perm.trans List.perm_middle ?_
      rw [← List.cons_append]
      exact List.Perm.append_right _ hperm.symm
    · simp only [System.step, hg]
      intro p hp
      exact h.keys p (mapDelete_subset _ _ p hp)
    · have hc := h.count
      simp only [System.step, hg, hget, ackCount, List.countP_cons] at hc ⊢
      by_cases hk : task.Assignment = MAP
      · simp only [hk, if_true, decide_True, Nat.cast_add, Nat.cast_one]
        omega
      · simp only [hk, if_false, decide_False, Nat.add_zero]
        simpa using hc
    · simp only [System.step, hg, hget, hd, List.length_eq_zero]
      simp

theorem inv_timerFire {files : List String} {nReduce : Nat} {s : System}
    (h : Inv files nReduce s) (taskID : Int) :
    Inv files nReduce (s.step (.timerFire taskID)) := by
  by_cases hm : taskID ∈ s.timers
  · rcases checkTask_cases s.coord taskID with ⟨_, hg⟩ | ⟨task, hget, hg⟩
    · exact ⟨by simpa [System.step, hm, hg] using h.perm,
        by simpa [System.step, hm, hg] using h.keys,
        by simpa [System.step, hm, hg, ackCount] using h.count,
        by simpa [System.step, hm, hg] using h.done⟩
    · have hperm := mapDelete_perm h.keys_nodup hget
      have hd := h.not_done_of_lease hget
      refine ⟨?_, ?_, ?_, ?_⟩
      · simp only [System.step, hm, if_true, hg]
        refine List.Perm.trans ?_ h.perm
        refine List.Perm.append_right _ ?_
        have h₁ : ([task] ++ s.coord.queueTask ++
            (mapDelete s.coord.runningTask taskID).map Prod.snd).Perm
            (s.coord.queueTask ++ s.coord.runningTask.map Prod.snd) := by
          simp only [List.append_assoc, List.singleton_append]
          refine List.Perm.trans List.perm_middle.symm ?_
          exact List.Perm.append_left _ hperm.symm
        by_cases hk : task.Assignment = REDUCE
        · simp only [hk, if_true]
          refine List.Perm.trans ?_ h₁
          exact List.Perm.append_right _ List.perm_append_comm
        · simpa only [hk, if_false] using h₁
      · simp only [System.step, hm, if_true, hg]
        intro p hp
        exact h.keys p (mapDelete_subset _ _ p hp)
      · simpa [System.step, hm, hg, ackCount] using h.count
      · simp only [System.step, hm, if_true, hg, hd]
        by_cases hk : task.Assignment = REDUCE <;> simp [hk]
  · simpa [System.step, hm] using h

theorem inv_step {files : List String} {nReduce : Nat} {s : System}
    (h : Inv files nReduce s) (call : Call) : Inv files nReduce (s.step call) := by
  cases call with
  | getTask => exact inv_getTask h
  | doneTask taskID => exact inv_doneTask h taskID
  | timerFire taskID => exact inv_timerFire h taskID

theorem inv_run {files : List String} {nReduce : Nat} {s : System}
    (h : Inv files nReduce s) (calls : List Call) : Inv files nReduce (s.run calls) := by
  induction calls generalizing s with
  | nil => exact h
  | cons call calls ih => exact ih (inv_step h call)

theorem inv_reachable {files : List String} {nReduce : Nat} {opts : List Options}
    {s : System} (h : Reachable files nReduce opts s) : Inv files nReduce s := by
  obtain ⟨calls, rfl⟩ := h
  exact inv_run (inv_init files nReduce opts) calls

theorem System.run_append (s : System) (xs ys : List Call) :
    s.run (xs ++ ys) = (s.run xs).run ys := by
  simp [System.run, List.foldl_append]

theorem Reachable.run {files : List String} {nReduce : Nat} {opts : List Options}
    {s : System} (h : Reachable files nReduce opts s) (calls : List Call) :
    Reachable files nReduce opts (s.run calls) := by
  obtain ⟨xs, rfl⟩ := h
  exact ⟨xs ++ calls, (System.run_append _ xs calls).symm⟩

/-! ## Consequences of the invariant -/

theorem Inv.outstanding_add_ackCount {files : List String} {nReduce : Nat} {s : System}
    (h : Inv files nReduce s) (kind : Nat) :
    outstanding kind s.coord + ackCount kind s =
      (if kind = MAP then files.length else 0) +
        (if kind = REDUCE then nReduce else 0) := by
  have := h.perm.countP_eq (fun t => decide (t.Assignment = kind))
  rw [initialTasks_countP, List.countP_append, List.countP_append, List.countP_map] at this
  rw [← this]
  rfl

theorem Inv.mapCount_eq {files : List String} {nReduce : Nat} {s : System}
    (h : Inv files nReduce s) : s.coord.mapCount = (outstanding MAP s.coord : Int) := by
  have h₁ := h.outstanding_add_ackCount MAP
  have h₂ := h.count
  simp only [if_true, show ¬ (MAP = REDUCE) by decide, if_false, Nat.add_zero] at h₁
  omega

theorem Inv.mem_tasks {files : List String} {nReduce : Nat} {s : System}
    (h : Inv files nReduce s) (t : Task) :
    t ∈ initialTasks files nReduce ↔
      t ∈ s.coord.queueTask ∨ t ∈ s.coord.runningTask.map Prod.snd ∨ t ∈ s.acked := by
  rw [← h.perm.mem_iff]
  simp [or_assoc]

theorem outstanding_eq_zero {kind : Nat} {c : Coordinator} (h : outstanding kind c = 0) :
    (∀ t ∈ c.queueTask, t.Assignment ≠ kind) ∧
      (∀ p ∈ c.runningTask, p.2.Assignment ≠ kind) := by
  unfold outstanding at h
  have h₁ : c.queueTask.countP (fun t => decide (t.Assignment = kind)) = 0 := by omega
  have h₂ : c.runningTask.countP (fun p => decide (p.2.Assignment = kind)) = 0 := by omega
  rw [List.countP_eq_zero] at h₁ h₂
  exact ⟨fun t ht => by simpa using h₁ t ht, fun p hp => by simpa using h₂ p hp⟩

theorem Inv.id_range {files : List String} {nReduce : Nat} {s : System}
    (h : Inv files nReduce s) (id : Int) :
    (id ∈ s.coord.queueTask.map Task.ID ∨ id ∈ s.coord.runningTask.map Prod.fst ∨
      id ∈ s.acked.map Task.ID) ↔ 1 ≤ id ∧ id ≤ (files.length : Int) + nReduce := by
  rw [← mem_initialTasks_ids, ← (h.perm.map Task.ID).mem_iff, h.keys_eq]
  simp [or_assoc]

/-! ## C1: the phase gate -/

/-- C1 (phase gate).  In every state reachable from `MakeCoordinator`, if `GetTask`
returns a task of kind REDUCE then no MAP task is in the queue or in the leases, every
MAP task created at construction is in the history of accepted acks, and the number of
accepted MAP acks is the number of input files.  When the queue head is a REDUCE task
and `mapCount > 0`, `GetTask` returns SNOOZE and leaves the coordinator as it is. -/
theorem phase_gate (files : List String) (nReduce : Nat) (opts : List Options)
    (s : System) (h : Reachable files nReduce opts s) :
    ((GetTask s.coord).task.Assignment = REDUCE →
      (∀ t ∈ s.coord.queueTask, t.Assignment ≠ MAP) ∧
      (∀ p ∈ s.coord.runningTask, p.2.Assignment ≠ MAP) ∧
      (∀ t ∈ initialTasks files nReduce, t.Assignment = MAP → t ∈ s.acked) ∧
      ackCount MAP s = files.length) ∧
    (∀ t rest, s.coord.queueTask = t :: rest → t.Assignment = REDUCE →
      s.coord.mapCount > 0 → GetTask s.coord = ⟨s.coord, snoozeTask, none⟩) := by
  have hi := inv_reachable h
  constructor
  · intro hr
    have hzero : outstanding MAP s.coord = 0 := by
      rcases GetTask_cases s.coord with ⟨_, hg⟩ | ⟨_, _, hg⟩ | ⟨t, rest, _, _, hn, hg⟩
      · rw [hg] at hr
        simp at hr
      · rw [hg] at hr
        simp at hr
      · rw [hg] at hr
        have hc := hi.mapCount_eq
        have : ¬ s.coord.mapCount > 0 := fun hpos => hn ⟨hr, hpos⟩
        omega
    have hno := outstanding_eq_zero hzero
    have hsum := hi.outstanding_add_ackCount MAP
    simp only [hzero, if_true, show ¬ (MAP = REDUCE) by decide, if_false, Nat.add_zero,
      Nat.zero_add] at hsum
    refine ⟨hno.1, hno.2, ?_, hsum⟩
    intro t ht hk
    rcases (hi.mem_tasks t).mp ht with hq | hl | ha
    · exact absurd hk (hno.1 t hq)
    · obtain ⟨p, hp, rfl⟩ := List.mem_map.mp hl
      exact absurd hk (hno.2 p hp)
    · exact ha
  · intro t rest hq hk hpos
    have hd : s.coord.isDone = false := by
      cases hd : s.coord.isDone with
      | false => rfl
      | true =>
        have := (hi.done.mp hd).1
        rw [hq] at this
        exact absurd this (by simp)
    rcases GetTask_cases s.coord with ⟨hd', _⟩ | ⟨_, _, hg⟩ | ⟨t', rest', _, hq', hn, _⟩
    · rw [hd] at hd'
      exact absurd hd' (by decide)
    · exact hg
    · rw [hq] at hq'
      obtain ⟨rfl, _⟩ := List.cons.inj hq'
      exact absurd ⟨hk, hpos⟩ hn

/-- Witness for C1 on one input file and `R = 1`: after the MAP task is dispatched and
acked the next `GetTask` returns the REDUCE task; after the MAP task is dispatched and
not acked the REDUCE task is at the head, `mapCount = 1` and `GetTask` returns SNOOZE. -/
theorem phase_gate_witness :
    (GetTask ((System.init ["a.txt"] 1 []).run [.getTask, .doneTask 1]).coord).task.Assignment
        = REDUCE ∧
      ackCount MAP ((System.init ["a.txt"] 1 []).run [.getTask, .doneTask 1]) = 1 ∧
      ((System.init ["a.txt"] 1 []).run [.getTask]).coord.queueTask =
        [{ ID := 2, Assignment := REDUCE, File := "mr-map-1", NReduce := 1 }] ∧
      ((System.init ["a.txt"] 1 []).run [.getTask]).coord.mapCount > 0 ∧
      GetTask ((System.init ["a.txt"] 1 []).run [.getTask]).coord =
        ⟨((System.init ["a.txt"] 1 []).run [.getTask]).coord, snoozeTask, none⟩ :=
  ⟨by decide,
    ((phase_gate ["a.txt"] 1 [] _ ⟨[.getTask, .doneTask 1], rfl⟩).1 (by decide)).2.2.2,
    by decide, by decide,
    (phase_gate ["a.txt"] 1 [] _ ⟨[.getTask], rfl⟩).2
      { ID := 2, Assignment := REDUCE, File := "mr-map-1", NReduce := 1 } []
      (by decide) (by decide) (by decide)⟩

/-! ## C2: task conservation -/

/-- C2 (task conservation).  In every state reachable from `MakeCoordinator` on `M`
files and fan-out `R`, each id in `1..M+R` occurs exactly once among the ids of the
queue, the keys of the leases and the ids of the accepted acks (so it is queued once,
or leased, or retired, and only one of the three); the ids of the queue together with
the keys of the leases have no duplicate; and no other id occurs anywhere. -/
theorem task_conservation (files : List String) (nReduce : Nat) (opts : List Options)
    (s : System) (h : Reachable files nReduce opts s) :
    (∀ id : Int, 1 ≤ id → id ≤ (files.length : Int) + nReduce →
      (s.coord.queueTask.map Task.ID).count id +
        (s.coord.runningTask.map Prod.fst).count id +
        (s.acked.map Task.ID).count id = 1) ∧
    (s.coord.queueTask.map Task.ID ++ s.coord.runningTask.map Prod.fst).Nodup ∧
    (∀ id : Int,
      id ∈ s.coord.queueTask.map Task.ID ∨ id ∈ s.coord.runningTask.map Prod.fst ∨
        id ∈ s.acked.map Task.ID →
      1 ≤ id ∧ id ≤ (files.length : Int) + nReduce) := by
  have hi := inv_reachable h
  refine ⟨?_, ?_, fun id hid => (hi.id_range id).mp hid⟩
  · intro id h₁ h₂
    have hmem := (hi.id_range id).mpr ⟨h₁, h₂⟩
    have hnd := hi.nodup
    have hone := List.count_eq_one_of_mem hnd (by
      simpa [or_assoc] using hmem)
    simpa [List.count_append, Nat.add_assoc] using hone
  · have hnd := hi.nodup
    rw [List.nodup_append] at hnd
    exact hnd.1

/-- Witness for C2 on two files and `R = 1`, after both MAP tasks are dispatched and the
first is acked: id 3 is queued, id 2 is leased, id 1 is retired. -/
theorem task_conservation_witness :
    ((System.init ["a.txt", "b.txt"] 1 []).run
        [.getTask, .getTask, .doneTask 1]).coord.queueTask.map Task.ID = [3] ∧
      ((System.init ["a.txt", "b.txt"] 1 []).run
        [.getTask, .getTask, .doneTask 1]).coord.runningTask.map Prod.fst = [2] ∧
      ((System.init ["a.txt", "b.txt"] 1 []).run
        [.getTask, .getTask, .doneTask 1]).acked.map Task.ID = [1] ∧
      (((System.init ["a.txt", "b.txt"] 1 []).run
          [.getTask, .getTask, .doneTask 1]).coord.queueTask.map Task.ID).count 2 +
        (((System.init ["a.txt", "b.txt"] 1 []).run
          [.getTask, .getTask, .doneTask 1]).coord.runningTask.map Prod.fst).count 2 +
        (((System.init ["a.txt", "b.txt"] 1 []).run
          [.getTask, .getTask, .doneTask 1]).acked.map Task.ID).count 2 = 1 :=
  ⟨by decide, by decide, by decide,
    (task_conservation ["a.txt", "b.txt"] 1 [] _
      ⟨[.getTask, .getTask, .doneTask 1], rfl⟩).1 2 (by decide) (by decide)⟩

/-! ## C3: completion detection -/

theorem Inv.kind {files : List String} {nReduce : Nat} {s : System}
    (h : Inv files nReduce s) :
    (∀ t ∈ s.coord.queueTask, t.Assignment = MAP ∨ t.Assignment = REDUCE) ∧
      (∀ p ∈ s.coord.runningTask, p.2.Assignment = MAP ∨ p.2.Assignment = REDUCE) := by
  constructor
  · intro t ht
    exact initialTasks_kind files nReduce t ((h.mem_tasks t).mpr (Or.inl ht))
  · intro p hp
    exact initialTasks_kind files nReduce p.2
      ((h.mem_tasks p.2).mpr (Or.inr (Or.inl (List.mem_map_of_mem Prod.snd hp))))

theorem Inv.empty_iff {files : List String} {nReduce : Nat} {s : System}
    (h : Inv files nReduce s) :
    (s.coord.queueTask = [] ∧ s.coord.runningTask = []) ↔
      (outstanding MAP s.coord = 0 ∧ outstanding REDUCE s.coord = 0) := by
  constructor
  · rintro ⟨hq, hr⟩
    simp [outstanding, hq, hr]
  · rintro ⟨hm, hr⟩
    have hm' := outstanding_eq_zero hm
    have hr' := outstanding_eq_zero hr
    have hk := h.kind
    constructor
    · apply List.eq_nil_iff_forall_not_mem.mpr
      intro t ht
      rcases hk.1 t ht with e | e
      · exact hm'.1 t ht e
      · exact hr'.1 t ht e
    · apply List.eq_nil_iff_forall_not_mem.mpr
      intro p hp
      rcases hk.2 p hp with e | e
      · exact hm'.2 p hp e
      · exact hr'.2 p hp e

theorem Inv.length_eq {files : List String} {nReduce : Nat} {s : System}
    (h : Inv files nReduce s) :
    s.coord.queueTask.length + s.coord.runningTask.length + s.acked.length =
      files.length + nReduce := by
  have := h.perm.length_eq
  rw [initialTasks_length] at this
  simpa [Nat.add_assoc] using this

theorem Inv.done_iff {files : List String} {nReduce : Nat} {s : System}
    (h : Inv files nReduce s) :
    s.coord.isDone = true ↔
      (s.coord.queueTask = [] ∧ s.coord.runningTask = [] ∧ 0 < files.length + nReduce) := by
  rw [h.done]
  have hl := h.length_eq
  constructor
  · rintro ⟨hq, hr, ha⟩
    refine ⟨hq, hr, ?_⟩
    have : 0 < s.acked.length := List.length_pos.mpr ha
    omega
  · rintro ⟨hq, hr, hpos⟩
    refine ⟨hq, hr, ?_⟩
    intro ha
    rw [hq, hr, ha] at hl
    simp at hl
    omega

theorem ackCount_step (kind : Nat) (s : System) (call : Call) :
    ackCount kind (s.step call) = ackCount kind s + okAck kind s call := by
  cases call with
  | getTask => rfl
  | doneTask taskID =>
    rcases DoneTask_cases s.coord taskID with ⟨hget, hg⟩ | ⟨task, hget, hg⟩
    · simp [System.step, okAck, ackCount, hg, hget]
    · simp only [System.step, okAck, ackCount, hg, hget, List.countP_cons]
      by_cases hk : task.Assignment = kind <;> simp [hk]
  | timerFire taskID =>
    by_cases hm : taskID ∈ s.timers
    · simp [System.step, okAck, ackCount, hm]
    · simp [System.step, okAck, ackCount, hm]

theorem ackCount_run (kind : Nat) (s : System) (calls : List Call) :
    ackCount kind (s.run calls) = ackCount kind s + okAcks kind s calls := by
  induction calls generalizing s with
  | nil => rfl
  | cons call calls ih =>
    have h₁ := ih (s.step call)
    have h₂ := ackCount_step kind s call
    have h₃ : (s.run (call :: calls)) = (s.step call).run calls := rfl
    rw [h₃, h₁, h₂]
    simp only [okAcks]
    omega

/-- C3 fails as stated for the empty job (`M = 0`, `R = 0`): right after construction
the `M` MAP acks and `R` REDUCE acks (none) have all been accepted, and `Done()` is
false. -/
theorem completion_detection_counterexample :
    ¬ (Done ((System.init [] 0 []).run []).coord = true ↔
        (okAcks MAP (System.init [] 0 []) [] = ([] : List String).length ∧
          okAcks REDUCE (System.init [] 0 []) [] = 0)) := by
  decide

/-- C3 amended (completion detection).  After any sequence of `GetTask`, `DoneTask`
and timer fires run from `MakeCoordinator` on `M` files and fan-out `R`, `Done()` is
true if and only if `M + R >= 1` and exactly `M` `DoneTask` calls on MAP tasks and `R`
`DoneTask` calls on REDUCE tasks of the sequence have returned no error; the accepted
acks never exceed `M` and `R`, and they are the acks recorded in the history. -/
theorem completion_detection (files : List String) (nReduce : Nat) (opts : List Options)
    (calls : List Call) :
    (Done ((System.init files nReduce opts).run calls).coord = true ↔
      (0 < files.length + nReduce ∧
        okAcks MAP (System.init files nReduce opts) calls = files.length ∧
        okAcks REDUCE (System.init files nReduce opts) calls = nReduce)) ∧
    okAcks MAP (System.init files nReduce opts) calls ≤ files.length ∧
    okAcks REDUCE (System.init files nReduce opts) calls ≤ nReduce ∧
    (∀ kind, ackCount kind ((System.init files nReduce opts).run calls) =
      okAcks kind (System.init files nReduce opts) calls) := by
  have hi := inv_run (inv_init files nReduce opts) calls
  have hk : ∀ kind, ackCount kind ((System.init files nReduce opts).run calls) =
      okAcks kind (System.init files nReduce opts) calls := by
    intro kind
    rw [ackCount_run]
    simp [ackCount, System.init]
  have hm := hi.outstanding_add_ackCount MAP
  have hr := hi.outstanding_add_ackCount REDUCE
  simp only [if_true, show ¬ (MAP = REDUCE) by decide, show ¬ (REDUCE = MAP) by decide,
    if_false, Nat.add_zero, Nat.zero_add] at hm hr
  rw [hk] at hm hr
  refine ⟨?_, by omega, by omega, hk⟩
  unfold Done
  rw [hi.done_iff]
  constructor
  · rintro ⟨hq, hl, hpos⟩
    have := hi.empty_iff.mp ⟨hq, hl⟩
    exact ⟨hpos, by omega, by omega⟩
  · rintro ⟨hpos, ha, hb⟩
    have := hi.empty_iff.mpr ⟨by omega, by omega⟩
    exact ⟨this.1, this.2, hpos⟩

/-- Witness for C3 amended on one file and `R = 1`: after both tasks are dispatched
and acked in turn, with a late second ack of task 1 that returns not-found, `Done()`
is true with one accepted MAP ack and one accepted REDUCE ack. -/
theorem completion_detection_witness :
    Done ((System.init ["a.txt"] 1 []).run
        [.getTask, .doneTask 1, .doneTask 1, .getTask, .doneTask 2]).coord = true ∧
      okAcks MAP (System.init ["a.txt"] 1 [])
        [.getTask, .doneTask 1, .doneTask 1, .getTask, .doneTask 2] = 1 ∧
      okAcks REDUCE (System.init ["a.txt"] 1 [])
        [.getTask, .doneTask 1, .doneTask 1, .getTask, .doneTask 2] = 1 :=
  ⟨by decide,
    (((completion_detection ["a.txt"] 1 []
      [.getTask, .doneTask 1, .doneTask 1, .getTask, .doneTask 2]).1).mp (by decide)).2⟩

/-! ## C4: the latch and the emptiness of queue and leases -/

/-- C4 fails as stated for the empty job (`M = 0`, `R = 0`): after construction the
queue and the leases are both empty and the latch is false. -/
theorem done_latch_counterexample :
    ¬ ((System.init [] 0 []).coord.isDone = true ↔
        ((System.init [] 0 []).coord.queueTask = [] ∧
          (System.init [] 0 []).coord.runningTask = [])) := by
  decide

/-- C4 amended.  In every state reachable from `MakeCoordinator` on `M` files and
fan-out `R` (the initial state included), the latch is true if and only if the queue
and the leases are both empty and `M + R >= 1`; with `M = R = 0` the latch is never
true. -/
theorem done_latch (files : List String) (nReduce : Nat) (opts : List Options)
    (s : System) (h : Reachable files nReduce opts s) :
    s.coord.isDone = true ↔
      (s.coord.queueTask = [] ∧ s.coord.runningTask = [] ∧
        0 < files.length + nReduce) :=
  (inv_reachable h).done_iff

/-- Witness for C4 amended: one file and `R = 1`, both tasks dispatched and acked. -/
theorem done_latch_witness :
    ((System.init ["a.txt"] 1 []).run
        [.getTask, .doneTask 1, .getTask, .doneTask 2]).coord.isDone = true ∧
      ((System.init ["a.txt"] 1 []).run
        [.getTask, .doneTask 1, .getTask, .doneTask 2]).coord.queueTask = [] ∧
      ((System.init ["a.txt"] 1 []).run
        [.getTask, .doneTask 1, .getTask, .doneTask 2]).coord.runningTask = [] :=
  ⟨by decide,
    ((done_latch ["a.txt"] 1 [] _
      ⟨[.getTask, .doneTask 1, .getTask, .doneTask 2], rfl⟩).mp (by decide)).1,
    by decide⟩

/-! ## C5: the done state is absorbing -/

theorem step_coord_of_done {files : List String} {nReduce : Nat} {s : System}
    (h : Inv files nReduce s) (hd : s.coord.isDone = true) (call : Call) :
    (s.step call).coord = s.coord := by
  have hr : s.coord.runningTask = [] := (h.done.mp hd).2.1
  cases call with
  | getTask =>
    rcases GetTask_cases s.coord with ⟨_, hg⟩ | ⟨hf, _, _⟩ | ⟨_, _, hf, _⟩
    · simp [System.step, hg]
    · rw [hd] at hf
      exact absurd hf (by decide)
    · rw [hd] at hf
      exact absurd hf (by decide)
  | doneTask taskID =>
    simp [System.step, DoneTask, hr, mapGet]
  | timerFire taskID =>
    by_cases hm : taskID ∈ s.timers
    · simp [System.step, hm, checkTask, hr, mapGet]
    · simp [System.step, hm]

theorem run_coord_of_done {files : List String} {nReduce : Nat} {s : System}
    (h : Inv files nReduce s) (hd : s.coord.isDone = true) (calls : List Call) :
    (s.run calls).coord = s.coord := by
  induction calls generalizing s with
  | nil => rfl
  | cons call calls ih =>
    have hc := step_coord_of_done h hd call
    have := ih (inv_step h call) (by rw [hc]; exact hd)
    rw [← hc, ← this]
    rfl

theorem GetTaskLocked_after_done {files : List String} {nReduce : Nat} {s : System}
    (h : Inv files nReduce s) (hd : s.coord.isDone = true) :
    GetTaskLocked s.coord = ⟨s.coord, snoozeTask, none⟩ := by
  have hq : s.coord.queueTask = [] := (h.done.mp hd).1
  simp [GetTaskLocked, hq, snoozeTask]

/-- C5 (the done state is absorbing).  If `Done()` is true in a reachable state, then
after any further sequence of `GetTask`, `DoneTask` and timer fires the coordinator is
the same record (queue, leases, `mapCount` and latch unchanged), `Done()` is true,
`GetTask` returns the ABORT directive, every `DoneTask` returns the not-found error
and a timer fire changes nothing. -/
theorem done_absorbing (files : List String) (nReduce : Nat) (opts : List Options)
    (s : System) (h : Reachable files nReduce opts s) (hd : Done s.coord = true)
    (calls : List Call) :
    (s.run calls).coord = s.coord ∧
      Done (s.run calls).coord = true ∧
      GetTask (s.run calls).coord = ⟨(s.run calls).coord, abortTask, none⟩ ∧
      (∀ id, DoneTask (s.run calls).coord id = ((s.run calls).coord, notFound id)) ∧
      (∀ id, checkTask (s.run calls).coord id = (s.run calls).coord) := by
  have hi := inv_reachable h
  have hd' : s.coord.isDone = true := hd
  have hc := run_coord_of_done hi hd' calls
  have hr : s.coord.runningTask = [] := (hi.done.mp hd').2.1
  rw [hc]
  refine ⟨rfl, hd, ?_, ?_, ?_⟩
  · simp [GetTask, hd', abortTask]
  · intro id
    simp [DoneTask, hr, mapGet, notFound]
  · intro id
    simp [checkTask, hr, mapGet]

/-- Witness for C5: the finished job on one file and `R = 1`, followed by a `GetTask`,
a `DoneTask(1)` and the fire of the timer of the REDUCE lease. -/
theorem done_absorbing_witness :
    Done ((System.init ["a.txt"] 1 []).run
        [.getTask, .doneTask 1, .getTask, .doneTask 2]).coord = true ∧
      (((System.init ["a.txt"] 1 []).run
          [.getTask, .doneTask 1, .getTask, .doneTask 2]).run
          [.getTask, .doneTask 1, .timerFire 2]).coord =
        ((System.init ["a.txt"] 1 []).run
          [.getTask, .doneTask 1, .getTask, .doneTask 2]).coord ∧
      GetTask (((System.init ["a.txt"] 1 []).run
          [.getTask, .doneTask 1, .getTask, .doneTask 2]).run
          [.getTask, .doneTask 1, .timerFire 2]).coord =
        ⟨(((System.init ["a.txt"] 1 []).run
          [.getTask, .doneTask 1, .getTask, .doneTask 2]).run
          [.getTask, .doneTask 1, .timerFire 2]).coord, abortTask, none⟩ :=
  ⟨by decide,
    (done_absorbing ["a.txt"] 1 [] _
      ⟨[.getTask, .doneTask 1, .getTask, .doneTask 2], rfl⟩ (by decide)
      [.getTask, .doneTask 1, .timerFire 2]).1,
    (done_absorbing ["a.txt"] 1 [] _
      ⟨[.getTask, .doneTask 1, .getTask, .doneTask 2], rfl⟩ (by decide)
      [.getTask, .doneTask 1, .timerFire 2]).2.2.1⟩

/-! ## C6: construction -/

theorem mapTasksFrom_length (nReduce n : Nat) (files : List String) :
    (mapTasksFrom nReduce n files).length = files.length := by
  induction files generalizing n with
  | nil => rfl
  | cons f fs ih => simp [mapTasksFrom, ih]

theorem mapTasksFrom_getElem? (nReduce n : Nat) (files : List String) (i : Nat)
    (hi : i < files.length) :
    (mapTasksFrom nReduce n files)[i]? =
      some { ID := ((n + i + 1 : Nat) : Int), Assignment := MAP, File := files[i],
             NReduce := (nReduce : Int) } := by
  induction files generalizing n i with
  | nil => simp at hi
  | cons f fs ih =>
    cases i with
    | zero => simp [mapTasksFrom]
    | succ j =>
      simp only [List.length_cons, Nat.add_lt_add_iff_right] at hi
      simp only [mapTasksFrom, List.getElem?_cons_succ, List.getElem_cons_succ]
      rw [ih (n + 1) j hi]
      have : n + 1 + j + 1 = n + (j + 1) + 1 := by omega
      rw [this]

theorem mapFile_natCast (k : Nat) :
    mapFile ((k : Int) + 1) = "mr-map-" ++ toString (k + 1) := by
  have : ((k : Int) + 1) = ((k + 1 : Nat) : Int) := by push_cast; rfl
  rw [mapFile, this]
  rfl

/-- C6 (construction).  For files `f_1..f_M` and fan-out `R`, `MakeCoordinator` returns
a coordinator whose queue has `M + R` entries: entry `i` (counted from 0, `i < M`) is
the MAP task with `ID = i + 1`, file `f_(i+1)` and `NReduce = R`; entry `M + k`
(`k < R`) is the REDUCE task with `ID = M + k + 1`, file `"mr-map-(k+1)"` and
`NReduce = k + 1`; the leases are empty, `mapCount = M` and the latch is false. -/
theorem construction (files : List String) (nReduce : Nat) (opts : List Options) :
    (MakeCoordinator files nReduce opts).queueTask.length = files.length + nReduce ∧
    (∀ (i : Nat) (hi : i < files.length),
      (MakeCoordinator files nReduce opts).queueTask[i]? =
        some { ID := (i : Int) + 1, Assignment := MAP, File := files[i],
               NReduce := (nReduce : Int) }) ∧
    (∀ k : Nat, k < nReduce →
      (MakeCoordinator files nReduce opts).queueTask[files.length + k]? =
        some { ID := (files.length : Int) + (k : Int) + 1, Assignment := REDUCE,
               File := "mr-map-" ++ toString (k + 1), NReduce := (k : Int) + 1 }) ∧
    (MakeCoordinator files nReduce opts).runningTask = [] ∧
    (MakeCoordinator files nReduce opts).mapCount = (files.length : Int) ∧
    (MakeCoordinator files nReduce opts).isDone = false := by
  rw [MakeCoordinator_queueTask]
  refine ⟨initialTasks_length files nReduce, ?_, ?_, rfl, rfl, rfl⟩
  · intro i hi
    have hlt : i < (mapTasksFrom nReduce 0 files).length := by
      rw [mapTasksFrom_length]
      exact hi
    rw [initialTasks, List.getElem?_append_left hlt, mapTasksFrom_getElem? nReduce 0 files i hi]
    simp
  · intro k hk
    have hle : (mapTasksFrom nReduce 0 files).length ≤ files.length + k := by
      rw [mapTasksFrom_length]
      exact Nat.le_add_right _ _
    rw [initialTasks, List.getElem?_append_right hle, mapTasksFrom_length,
      Nat.add_sub_cancel_left, reduceTasksFrom, List.getElem?_map,
      List.getElem?_range hk]
    simp only [Option.map_some', mapFile_natCast]
    congr 2

/-! ## C7: the error contract of `DoneTask` -/

/-- C7 (`DoneTask` error contract).  In every coordinator state and for every integer
id, `DoneTask(id)` returns the not-found error if and only if `id` is not a key of the
leases, and returns no error if and only if it is a key; when it is not a key the
coordinator record (queue, leases, `mapCount`, latch) is returned unchanged; and an ack
that comes right after the reclamation timer of `id` has fired returns not-found and
leaves the coordinator as the timer left it. -/
theorem DoneTask_error_contract (c : Coordinator) (taskID : Int) :
    ((DoneTask c taskID).2 = notFound taskID ↔ taskID ∉ c.runningTask.map Prod.fst) ∧
    ((DoneTask c taskID).2 = none ↔ taskID ∈ c.runningTask.map Prod.fst) ∧
    (taskID ∉ c.runningTask.map Prod.fst → (DoneTask c taskID).1 = c) ∧
    DoneTask (checkTask c taskID) taskID = (checkTask c taskID, notFound taskID) := by
  have key : ∀ c' : Coordinator, mapGet c'.runningTask taskID = none →
      DoneTask c' taskID = (c', notFound taskID) := by
    intro c' hn
    simp [DoneTask, hn, notFound]
  refine ⟨?_, ?_, ?_, ?_⟩
  · rcases DoneTask_cases c taskID with ⟨hget, hg⟩ | ⟨task, hget, hg⟩
    · rw [hg]
      simpa [notFound] using mapGet_eq_none.mp hget
    · rw [hg]
      have : ¬ mapGet c.runningTask taskID = none := by simp [hget]
      rw [mapGet_eq_none] at this
      simpa [notFound] using this
  · rcases DoneTask_cases c taskID with ⟨hget, hg⟩ | ⟨task, hget, hg⟩
    · rw [hg]
      simpa using mapGet_eq_none.mp hget
    · rw [hg]
      have : ¬ mapGet c.runningTask taskID = none := by simp [hget]
      rw [mapGet_eq_none] at this
      simpa using this
  · intro hn
    rw [key c (mapGet_eq_none.mpr hn)]
  · apply key
    rcases checkTask_cases c taskID with ⟨hget, hg⟩ | ⟨task, _, hg⟩
    · rw [hg]
      exact hget
    · rw [hg]
      exact mapGet_mapDelete_self _ _

/-! ## C8: retirement is terminal -/

theorem acked_step (s : System) (call : Call) :
    ∀ t ∈ s.acked, t ∈ (s.step call).acked := by
  intro t ht
  cases call with
  | getTask => exact ht
  | doneTask taskID =>
    rcases DoneTask_cases s.coord taskID with ⟨hget, hg⟩ | ⟨task, hget, hg⟩
    · simpa [System.step, hg, hget] using ht
    · simp only [System.step, hg, hget]
      exact List.mem_cons_of_mem _ ht
  | timerFire taskID =>
    by_cases hm : taskID ∈ s.timers
    · simpa [System.step, hm] using ht
    · simpa [System.step, hm] using ht

theorem acked_run (s : System) (calls : List Call) :
    ∀ t ∈ s.acked, t ∈ (s.run calls).acked := by
  induction calls generalizing s with
  | nil => exact fun t ht => ht
  | cons call calls ih => exact fun t ht => ih (s.step call) t (acked_step s call t ht)

theorem Inv.retired {files : List String} {nReduce : Nat} {s : System}
    (h : Inv files nReduce s) {id : Int} (ha : id ∈ s.acked.map Task.ID) :
    id ∉ s.coord.queueTask.map Task.ID ∧ id ∉ s.coord.runningTask.map Prod.fst ∧
      1 ≤ id := by
  have hnd := h.nodup
  rw [List.nodup_append] at hnd
  have hdis := hnd.2.2
  refine ⟨?_, ?_, ((h.id_range id).mp (Or.inr (Or.inr ha))).1⟩
  · intro hq
    exact hdis (List.mem_append_left _ hq) ha
  · intro hl
    exact hdis (List.mem_append_right _ hl) ha

theorem DoneTask_twice (c : Coordinator) (taskID : Int) :
    ((DoneTask c taskID).2 = none ∨ (DoneTask c taskID).2 = notFound taskID) ∧
      (DoneTask (DoneTask c taskID).1 taskID).2 = notFound taskID := by
  rcases DoneTask_cases c taskID with ⟨hget, hg⟩ | ⟨task, _, hg⟩
  · rw [hg]
    refine ⟨Or.inr rfl, ?_⟩
    simp [DoneTask, hget, notFound]
  · rw [hg]
    refine ⟨Or.inl rfl, ?_⟩
    simp [DoneTask, mapGet_mapDelete_self, notFound]

/-- C8 (retirement is terminal).  If `DoneTask(id)` returns no error in a reachable
state, then after that ack and any further sequence of `GetTask`, `DoneTask` and timer
fires (the timer of that lease included) the id is neither queued nor leased,
`GetTask` does not return a task with that id, and `DoneTask(id)` returns not-found.
In any coordinator state, of two `DoneTask(id)` calls in a row the first returns Ok or
not-found and the second returns not-found. -/
theorem retirement_terminal (files : List String) (nReduce : Nat) (opts : List Options)
    (s : System) (h : Reachable files nReduce opts s) (id : Int)
    (hok : (DoneTask s.coord id).2 = none) (calls : List Call) :
    (GetTask ((s.step (.doneTask id)).run calls).coord).task.ID ≠ id ∧
      (DoneTask ((s.step (.doneTask id)).run calls).coord id).2 = notFound id ∧
      id ∉ ((s.step (.doneTask id)).run calls).coord.queueTask.map Task.ID ∧
      id ∉ ((s.step (.doneTask id)).run calls).coord.runningTask.map Prod.fst ∧
      (∀ (c : Coordinator) (k : Int),
        ((DoneTask c k).2 = none ∨ (DoneTask c k).2 = notFound k) ∧
          (DoneTask (DoneTask c k).1 k).2 = notFound k) := by
  have hi := inv_reachable h
  have hacked : id ∈ (s.step (.doneTask id)).acked.map Task.ID := by
    rcases DoneTask_cases s.coord id with ⟨_, hg⟩ | ⟨task, hget, hg⟩
    · rw [hg] at hok
      simp at hok
    · have hid : task.ID = id := hi.keys _ (mapGet_mem hget)
      simp only [System.step, hg, hget, List.map_cons, hid]
      exact List.mem_cons_self _ _
  have hacked' : id ∈ ((s.step (.doneTask id)).run calls).acked.map Task.ID := by
    obtain ⟨t, ht, hid⟩ := List.mem_map.mp hacked
    exact List.mem_map.mpr ⟨t, acked_run _ calls t ht, hid⟩
  have hi' : Inv files nReduce ((s.step (.doneTask id)).run calls) :=
    inv_run (inv_step hi _) calls
  obtain ⟨hq, hl, hpos⟩ := hi'.retired hacked'
  refine ⟨?_, ?_, hq, hl, DoneTask_twice⟩
  · rcases GetTask_cases ((s.step (.doneTask id)).run calls).coord with
      ⟨_, hg⟩ | ⟨_, _, hg⟩ | ⟨t, rest, _, hq', _, hg⟩
    · rw [hg]
      show (0 : Int) ≠ id
      omega
    · rw [hg]
      show (0 : Int) ≠ id
      omega
    · rw [hg]
      intro e
      apply hq
      rw [hq', List.map_cons, ← e]
      exact List.mem_cons_self _ _
  · have := mapGet_eq_none.mpr hl
    simp [DoneTask, this, notFound]

/-- Witness for C8 on one file and `R = 1`: the MAP task is dispatched and acked; then
its timer fires, `GetTask` is called and a second ack is sent: `GetTask` in the state
reached returns a task with another id and `DoneTask(1)` returns not-found. -/
theorem retirement_terminal_witness :
    (DoneTask ((System.init ["a.txt"] 1 []).run [.getTask]).coord 1).2 = none ∧
      (GetTask ((((System.init ["a.txt"] 1 []).run [.getTask]).step (.doneTask 1)).run
        [.timerFire 1, .getTask, .doneTask 1]).coord).task.ID ≠ 1 ∧
      (DoneTask ((((System.init ["a.txt"] 1 []).run [.getTask]).step (.doneTask 1)).run
        [.timerFire 1, .getTask, .doneTask 1]).coord 1).2 = notFound 1 :=
  ⟨by decide,
    (retirement_terminal ["a.txt"] 1 [] _ ⟨[.getTask], rfl⟩ 1 (by decide)
      [.timerFire 1, .getTask, .doneTask 1]).1,
    (retirement_terminal ["a.txt"] 1 [] _ ⟨[.getTask], rfl⟩ 1 (by decide)
      [.timerFire 1, .getTask, .doneTask 1]).2.1⟩

/-! ## C9: reclamation -/

theorem mapGet_mapDelete_of_ne (m : List (Int × Task)) {k id : Int} (hne : k ≠ id) :
    mapGet (mapDelete m id) k = mapGet m k := by
  induction m with
  | nil => rfl
  | cons p m ih =>
    obtain ⟨k', v⟩ := p
    by_cases hk : k' = id
    · have hk' : ¬ k' = k := fun e => hne (e ▸ hk)
      have : mapDelete ((k', v) :: m) id = mapDelete m id := by
        simp [mapDelete, List.filter_cons, hk]
      rw [this, ih]
      simp [mapGet, hk']
    · have : mapDelete ((k', v) :: m) id = (k', v) :: mapDelete m id := by
        simp [mapDelete, List.filter_cons, hk]
      rw [this]
      simp only [mapGet]
      rw [show mapGet (mapDelete m id) k = mapGet m k from ih]

/-- C9 (reclamation discipline).  In a reachable state, when the timer of `id` fires
and `id` is leased with task record `task` (of kind MAP or REDUCE): the lease of `id`
is removed and the other leases are kept; `mapCount` and the latch are unchanged; for
a MAP task the queue becomes `task` followed by the old queue and the next `GetTask`
returns that same record and leases it again; for a REDUCE task the queue becomes the
old queue followed by `task`.  When `id` is not leased the fire returns the
coordinator unchanged. -/
theorem reclamation_discipline (files : List String) (nReduce : Nat)
    (opts : List Options) (s : System) (h : Reachable files nReduce opts s) (id : Int) :
    (∀ task, mapGet s.coord.runningTask id = some task →
      (checkTask s.coord id).runningTask = mapDelete s.coord.runningTask id ∧
      mapGet (checkTask s.coord id).runningTask id = none ∧
      (∀ k, k ≠ id →
        mapGet (checkTask s.coord id).runningTask k = mapGet s.coord.runningTask k) ∧
      (checkTask s.coord id).mapCount = s.coord.mapCount ∧
      (checkTask s.coord id).isDone = s.coord.isDone ∧
      (task.Assignment = MAP ∨ task.Assignment = REDUCE) ∧
      (task.Assignment = MAP →
        (checkTask s.coord id).queueTask = task :: s.coord.queueTask ∧
        (GetTask (checkTask s.coord id)).task = task ∧
        (GetTask (checkTask s.coord id)).task.ID = id ∧
        mapGet (GetTask (checkTask s.coord id)).coord.runningTask id = some task) ∧
      (task.Assignment = REDUCE →
        (checkTask s.coord id).queueTask = s.coord.queueTask ++ [task])) ∧
    (mapGet s.coord.runningTask id = none → checkTask s.coord id = s.coord) := by
  have hi := inv_reachable h
  constructor
  · intro task hget
    have hd := hi.not_done_of_lease hget
    have hid : task.ID = id := hi.keys _ (mapGet_mem hget)
    have hkind := hi.kind.2 _ (mapGet_mem hget)
    refine ⟨?_, ?_, ?_, ?_, ?_, hkind, ?_, ?_⟩
    · simp [checkTask, hget]
    · simp [checkTask, hget, mapGet_mapDelete_self]
    · intro k hk
      simp [checkTask, hget, mapGet_mapDelete_of_ne _ hk]
    · simp [checkTask, hget]
    · simp [checkTask, hget]
    · intro hm
      have hnr : ¬ task.Assignment = REDUCE := by rw [hm]; decide
      have hq : (checkTask s.coord id).queueTask = task :: s.coord.queueTask := by
        simp [checkTask, hget, hnr]
      have hres : GetTask (checkTask s.coord id) =
          ⟨{ checkTask s.coord id with
              queueTask := s.coord.queueTask
              runningTask := mapSet (checkTask s.coord id).runningTask task.ID task },
            task, some task.ID⟩ := by
        simp [GetTask, GetTaskLocked, checkTask, hget, hnr, hd]
      refine ⟨hq, ?_, ?_, ?_⟩
      · rw [hres]
      · rw [hres]
        exact hid
      · rw [hres]
        simp [mapSet, mapGet, hid]
    · intro hr
      simp [checkTask, hget, hr]
  · intro hget
    simp [checkTask, hget]

/-- Witness for C9 on one file and `R = 1` (timeout reissue): the MAP task 1 is
leased, its timer fires, the task is back at the queue head and the next `GetTask`
returns task 1 again. -/
theorem reclamation_discipline_witness :
    mapGet ((System.init ["a.txt"] 1 []).run [.getTask]).coord.runningTask 1 =
        some { ID := 1, Assignment := MAP, File := "a.txt", NReduce := 1 } ∧
      (checkTask ((System.init ["a.txt"] 1 []).run [.getTask]).coord 1).queueTask =
        { ID := 1, Assignment := MAP, File := "a.txt", NReduce := 1 } ::
          ((System.init ["a.txt"] 1 []).run [.getTask]).coord.queueTask ∧
      (GetTask (checkTask ((System.init ["a.txt"] 1 []).run [.getTask]).coord 1)).task.ID
        = 1 :=
  ⟨by decide,
    ((((reclamation_discipline ["a.txt"] 1 [] _ ⟨[.getTask], rfl⟩ 1).1
      { ID := 1, Assignment := MAP, File := "a.txt", NReduce := 1 }
      (by decide)).2.2.2.2.2.2.1) (by decide)).1,
    ((((reclamation_discipline ["a.txt"] 1 [] _ ⟨[.getTask], rfl⟩ 1).1
      { ID := 1, Assignment := MAP, File := "a.txt", NReduce := 1 }
      (by decide)).2.2.2.2.2.2.1) (by decide)).2.2.1⟩

/-! ## C10: the counter -/

theorem step_mapCount_le (s : System) (call : Call) :
    (s.step call).coord.mapCount ≤ s.coord.mapCount := by
  cases call with
  | getTask =>
    rcases GetTask_cases s.coord with ⟨_, hg⟩ | ⟨_, _, hg⟩ | ⟨t, rest, _, _, _, hg⟩ <;>
      simp [System.step, hg]
  | doneTask taskID =>
    rcases DoneTask_cases s.coord taskID with ⟨_, hg⟩ | ⟨task, _, hg⟩
    · simp [System.step, hg]
    · simp only [System.step, hg]
      split <;> omega
  | timerFire taskID =>
    by_cases hm : taskID ∈ s.timers
    · rcases checkTask_cases s.coord taskID with ⟨_, hg⟩ | ⟨task, _, hg⟩ <;>
        simp [System.step, hm, hg]
    · simp [System.step, hm]

/-- C10 (counter invariant).  In every state reachable from `MakeCoordinator`,
`mapCount` equals the number of MAP tasks in the queue or in the leases; it is never
negative, never above the number of input files, and no `GetTask`, `DoneTask` or timer
fire increases it. -/
theorem counter_invariant (files : List String) (nReduce : Nat) (opts : List Options)
    (s : System) (h : Reachable files nReduce opts s) :
    s.coord.mapCount = (outstanding MAP s.coord : Int) ∧
      0 ≤ s.coord.mapCount ∧
      s.coord.mapCount ≤ (files.length : Int) ∧
      (∀ call, (s.step call).coord.mapCount ≤ s.coord.mapCount) := by
  have hi := inv_reachable h
  have hc := hi.mapCount_eq
  have hcount := hi.count
  exact ⟨hc, by omega, by omega, step_mapCount_le s⟩

/-- Witness for C10 on two files and `R = 1`, after both MAP tasks are dispatched, the
first is acked and the timer of the second has fired: one MAP task is outstanding. -/
theorem counter_invariant_witness :
    ((System.init ["a.txt", "b.txt"] 1 []).run
        [.getTask, .getTask, .doneTask 1, .timerFire 2]).coord.mapCount = 1 ∧
      ((System.init ["a.txt", "b.txt"] 1 []).run
        [.getTask, .getTask, .doneTask 1, .timerFire 2]).coord.mapCount =
        (outstanding MAP ((System.init ["a.txt", "b.txt"] 1 []).run
          [.getTask, .getTask, .doneTask 1, .timerFire 2]).coord : Int) :=
  ⟨by decide,
    (counter_invariant ["a.txt", "b.txt"] 1 [] _
      ⟨[.getTask, .getTask, .doneTask 1, .timerFire 2], rfl⟩).1⟩

/-! ## C11: the sequential run -/

theorem initialTasks_mapsFirst (files : List String) (nReduce : Nat) :
    MapsFirst (initialTasks files nReduce) := by
  unfold MapsFirst initialTasks
  rw [List.pairwise_append]
  refine ⟨?_, ?_, ?_⟩
  · apply List.pairwise_of_forall_mem_list
    intro a ha b _ _
    exact mapTasksFrom_kind nReduce 0 files a ha
  · apply List.pairwise_of_forall_mem_list
    intro a _ b hb hm
    simp only [reduceTasksFrom, List.mem_map] at hb
    obtain ⟨i, _, rfl⟩ := hb
    exact absurd hm (show ¬ (REDUCE = MAP) by decide)
  · intro a ha b _ _
    exact mapTasksFrom_kind nReduce 0 files a ha

theorem MapsFirst.countP_of_head {t : Task} {rest : List Task}
    (h : MapsFirst (t :: rest)) (ht : t.Assignment ≠ MAP) :
    (t :: rest).countP (fun x => decide (x.Assignment = MAP)) = 0 := by
  rw [List.countP_eq_zero]
  intro x hx
  simp only [decide_eq_true_eq]
  rcases List.mem_cons.mp hx with rfl | hx
  · exact ht
  · exact fun hm => ht ((List.pairwise_cons.mp h).1 x hx hm)

theorem initialTasks_getElem_ID (files : List String) (nReduce : Nat) (i : Nat) (t : Task)
    (h : (initialTasks files nReduce)[i]? = some t) : t.ID = (i : Int) + 1 := by
  have h₁ : ((initialTasks files nReduce).map Task.ID)[i]? = some t.ID := by
    rw [List.getElem?_map, h]
    rfl
  rw [initialTasks_ids, List.getElem?_map] at h₁
  have hlt : i < (List.range' 1 (files.length + nReduce)).length := by
    by_contra hge
    rw [List.getElem?_eq_none (Nat.le_of_not_lt hge)] at h₁
    simp at h₁
  rw [List.getElem?_eq_getElem hlt, List.getElem_range'] at h₁
  simp only [Option.map_some', Option.some.injEq] at h₁
  rw [← h₁]
  push_cast
  omega

theorem cycle_of_state (files : List String) (nReduce : Nat) (c : Coordinator) (i : Nat)
    (hi : i < files.length + nReduce)
    (hq : c.queueTask = (initialTasks files nReduce).drop i)
    (hr : c.runningTask = []) (hd : c.isDone = false)
    (hc : c.mapCount =
      ((c.queueTask.countP (fun t => decide (t.Assignment = MAP)) : Nat) : Int)) :
    ∃ t, (initialTasks files nReduce)[i]? = some t ∧
      (GetTask c).task = t ∧
      (DoneTask (GetTask c).coord (GetTask c).task.ID).2 = none ∧
      (cycle c).queueTask = (initialTasks files nReduce).drop (i + 1) ∧
      (cycle c).runningTask = [] ∧
      (cycle c).mapCount =
        (((cycle c).queueTask.countP (fun t => decide (t.Assignment = MAP)) : Nat) : Int) ∧
      ((cycle c).isDone = true ↔ i + 1 = files.length + nReduce) := by
  have hlt : i < (initialTasks files nReduce).length := by
    rw [initialTasks_length]
    exact hi
  have hdrop : (initialTasks files nReduce).drop i =
      (initialTasks files nReduce)[i] :: (initialTasks files nReduce).drop (i + 1) :=
    List.drop_eq_getElem_cons hlt
  generalize (initialTasks files nReduce)[i] = t at hdrop
  have hget : (initialTasks files nReduce)[i]? = some t := by
    have h₀ := congrArg List.head? hdrop
    rw [List.head?_drop] at h₀
    simpa using h₀
  rw [hdrop] at hq
  have hord : MapsFirst (t :: (initialTasks files nReduce).drop (i + 1)) := by
    rw [← hdrop]
    exact List.Pairwise.sublist (List.drop_sublist _ _) (initialTasks_mapsFirst files nReduce)
  have hgate : ¬ (t.Assignment = REDUCE ∧ c.mapCount > 0) := by
    rintro ⟨hred, hpos⟩
    have hne : t.Assignment ≠ MAP := by rw [hred]; decide
    have hzero := hord.countP_of_head hne
    rw [hc, hq, hzero] at hpos
    exact absurd hpos (by decide)
  have hG : GetTask c =
      ⟨{ c with queueTask := (initialTasks files nReduce).drop (i + 1)
                runningTask := [(t.ID, t)] }, t, some t.ID⟩ := by
    simp [GetTask, GetTaskLocked, hd, hq, hgate, mapSet, mapDelete, hr]
  have hlen0 : ((initialTasks files nReduce).drop (i + 1)).length = 0 ↔
      i + 1 = files.length + nReduce := by
    rw [List.length_drop, initialTasks_length]
    omega
  have hcount : c.mapCount =
      ((((initialTasks files nReduce).drop (i + 1)).countP
          (fun t => decide (t.Assignment = MAP)) : Nat) : Int) +
        (if t.Assignment = MAP then 1 else 0) := by
    rw [hc, hq, List.countP_cons]
    by_cases hm : t.Assignment = MAP <;> simp [hm]
  refine ⟨t, hget, by rw [hG], ?_, ?_, ?_, ?_, ?_⟩
  · rw [hG]
    simp [DoneTask, mapGet]
  · simp [cycle, hG, DoneTask, mapGet]
  · simp [cycle, hG, DoneTask, mapGet, mapDelete]
  · simp only [cycle, hG, DoneTask, mapGet, if_true]
    rw [hcount]
    by_cases hm : t.Assignment = MAP <;> simp [hm]
  · simp only [cycle, hG, DoneTask, mapGet, if_true, mapDelete, hd]
    simp only [List.filter_cons, ne_eq, not_true_eq_false, decide_False, List.filter_nil,
      List.length_nil, and_true]
    rw [← hlen0]
    by_cases hz : ((initialTasks files nReduce).drop (i + 1)).length = 0 <;> simp [hz]

theorem cycles_state (files : List String) (nReduce : Nat) (opts : List Options) (i : Nat)
    (hi : i ≤ files.length + nReduce) :
    (cycles i (MakeCoordinator files nReduce opts)).queueTask =
        (initialTasks files nReduce).drop i ∧
      (cycles i (MakeCoordinator files nReduce opts)).runningTask = [] ∧
      (cycles i (MakeCoordinator files nReduce opts)).mapCount =
        (((cycles i (MakeCoordinator files nReduce opts)).queueTask.countP
          (fun t => decide (t.Assignment = MAP)) : Nat) : Int) ∧
      ((cycles i (MakeCoordinator files nReduce opts)).isDone = true ↔
        (i = files.length + nReduce ∧ 0 < i)) := by
  induction i with
  | zero =>
    refine ⟨by simp [cycles, MakeCoordinator_queueTask], rfl, ?_, ?_⟩
    · simp only [cycles, MakeCoordinator_queueTask, initialTasks_countP]
      simp [MakeCoordinator]
    · simp [cycles, MakeCoordinator]
  | succ n ih =>
    obtain ⟨hq, hr, hc, hd⟩ := ih (Nat.le_of_succ_le hi)
    have hd' : (cycles n (MakeCoordinator files nReduce opts)).isDone = false := by
      cases hb : (cycles n (MakeCoordinator files nReduce opts)).isDone with
      | false => rfl
      | true =>
        have := (hd.mp hb).1
        omega
    obtain ⟨t, _, _, _, h₁, h₂, h₃, h₄⟩ :=
      cycle_of_state files nReduce _ n (Nat.lt_of_succ_le hi) hq hr hd' hc
    refine ⟨h₁, h₂, h₃, ?_⟩
    show (cycle (cycles n (MakeCoordinator files nReduce opts))).isDone = true ↔ _
    rw [h₄]
    omega

/-- C11 (sequential run).  Start from `MakeCoordinator` on `M` files and fan-out `R`
and repeat the cycle `GetTask`, then `DoneTask` on the returned id, with no timer fire.
For every `i < M + R`: before cycle `i + 1` `Done()` is false; the `GetTask` of that
cycle returns entry `i` of the queue built at construction (the MAP tasks in input
order, then the REDUCE tasks in partition order), whose id is `i + 1`; the `DoneTask`
of that cycle returns no error; after the cycle `Done()` is true exactly when
`i + 1 = M + R`; and after `M + R` cycles `Done()` is true. -/
theorem sequential_run (files : List String) (nReduce : Nat) (opts : List Options)
    (i : Nat) (hi : i < files.length + nReduce) :
    Done (cycles i (MakeCoordinator files nReduce opts)) = false ∧
      (MakeCoordinator files nReduce opts).queueTask[i]? =
        some (GetTask (cycles i (MakeCoordinator files nReduce opts))).task ∧
      (GetTask (cycles i (MakeCoordinator files nReduce opts))).task.ID = (i : Int) + 1 ∧
      (DoneTask (GetTask (cycles i (MakeCoordinator files nReduce opts))).coord
        (GetTask (cycles i (MakeCoordinator files nReduce opts))).task.ID).2 = none ∧
      (Done (cycles (i + 1) (MakeCoordinator files nReduce opts)) = true ↔
        i + 1 = files.length + nReduce) ∧
      Done (cycles (files.length + nReduce) (MakeCoordinator files nReduce opts)) = true := by
  obtain ⟨hq, hr, hc, hd⟩ := cycles_state files nReduce opts i (Nat.le_of_lt hi)
  have hd' : (cycles i (MakeCoordinator files nReduce opts)).isDone = false := by
    cases hb : (cycles i (MakeCoordinator files nReduce opts)).isDone with
    | false => rfl
    | true =>
      have := (hd.mp hb).1
      omega
  obtain ⟨t, hget, htask, hok, _, _, _, hdone⟩ :=
    cycle_of_state files nReduce _ i hi hq hr hd' hc
  have hlast := (cycles_state files nReduce opts (files.length + nReduce)
    (Nat.le_refl _)).2.2.2
  refine ⟨hd', ?_, ?_, hok, hdone, ?_⟩
  · rw [MakeCoordinator_queueTask, htask]
    exact hget
  · rw [htask]
    exact initialTasks_getElem_ID files nReduce i t hget
  · exact hlast.mpr ⟨rfl, by omega⟩

/-- Witness for C11: two files and `R = 2` (the fourth `GetTask` returns task 4 and
`Done()` turns true with the fourth ack); no file and `R = 2` (two cycles); one file
and `R = 0` (the MAP ack). -/
theorem sequential_run_witness :
    Done (cycles 3 (MakeCoordinator ["a.txt", "b.txt"] 2 [])) = false ∧
      (GetTask (cycles 3 (MakeCoordinator ["a.txt", "b.txt"] 2 []))).task =
        { ID := 4, Assignment := REDUCE, File := "mr-map-2", NReduce := 2 } ∧
      Done (cycles 4 (MakeCoordinator ["a.txt", "b.txt"] 2 [])) = true ∧
      Done (cycles 1 (MakeCoordinator [] 2 [])) = false ∧
      Done (cycles 2 (MakeCoordinator [] 2 [])) = true ∧
      Done (cycles 1 (MakeCoordinator ["a.txt"] 0 [])) = true :=
  ⟨(sequential_run ["a.txt", "b.txt"] 2 [] 3 (by decide)).1,
    by decide,
    (sequential_run ["a.txt", "b.txt"] 2 [] 3 (by decide)).2.2.2.2.2,
    (sequential_run [] 2 [] 1 (by decide)).1,
    (sequential_run [] 2 [] 1 (by decide)).2.2.2.2.2,
    (sequential_run ["a.txt"] 0 [] 0 (by decide)).2.2.2.2.2⟩

/-! ## C20: the queue keeps MAP tasks in front -/

theorem mapsFirst_step {files : List String} {nReduce : Nat} {s : System}
    (h : Inv files nReduce s) (ho : MapsFirst s.coord.queueTask) (call : Call) :
    MapsFirst (s.step call).coord.queueTask := by
  cases call with
  | getTask =>
    rcases GetTask_cases s.coord with ⟨_, hg⟩ | ⟨_, _, hg⟩ | ⟨t, rest, _, hq, _, hg⟩
    · simpa [System.step, hg] using ho
    · simpa [System.step, hg] using ho
    · simp only [System.step, hg]
      rw [hq] at ho
      exact (List.pairwise_cons.mp ho).2
  | doneTask taskID =>
    rcases DoneTask_cases s.coord taskID with ⟨_, hg⟩ | ⟨task, _, hg⟩
    · simpa [System.step, hg] using ho
    · simpa [System.step, hg] using ho
  | timerFire taskID =>
    by_cases hm : taskID ∈ s.timers
    · rcases checkTask_cases s.coord taskID with ⟨_, hg⟩ | ⟨task, hget, hg⟩
      · simpa [System.step, hm, hg] using ho
      · simp only [System.step, hm, if_true, hg]
        by_cases hk : task.Assignment = REDUCE
        · simp only [hk, if_true]
          unfold MapsFirst
          rw [List.pairwise_append]
          refine ⟨ho, List.pairwise_singleton _ _, ?_⟩
          intro a _ b hb hmap
          rw [List.mem_singleton.mp hb, hk] at hmap
          exact absurd hmap (by decide)
        · simp only [hk, if_false, List.singleton_append]
          have hmap : task.Assignment = MAP := by
            rcases h.kind.2 _ (mapGet_mem hget) with e | e
            · exact e
            · exact absurd e hk
          exact List.pairwise_cons.mpr ⟨fun _ _ _ => hmap, ho⟩
    · simpa [System.step, hm] using ho

theorem mapsFirst_run {files : List String} {nReduce : Nat} {s : System}
    (h : Inv files nReduce s) (ho : MapsFirst s.coord.queueTask) (calls : List Call) :
    MapsFirst (s.run calls).coord.queueTask := by
  induction calls generalizing s with
  | nil => exact ho
  | cons call calls ih => exact ih (inv_step h call) (mapsFirst_step h ho call)

theorem mapsFirst_reachable {files : List String} {nReduce : Nat} {opts : List Options}
    {s : System} (h : Reachable files nReduce opts s) : MapsFirst s.coord.queueTask := by
  obtain ⟨calls, rfl⟩ := h
  refine mapsFirst_run (inv_init files nReduce opts) ?_ calls
  simp only [System.init, MakeCoordinator_queueTask]
  exact initialTasks_mapsFirst files nReduce

theorem MapsFirst.split {q : List Task} (ho : MapsFirst q)
    (hk : ∀ t ∈ q, t.Assignment = MAP ∨ t.Assignment = REDUCE) :
    q = q.filter (fun t => decide (t.Assignment = MAP)) ++
      q.filter (fun t => decide (t.Assignment = REDUCE)) := by
  induction q with
  | nil => rfl
  | cons t rest ih =>
    have ho' := List.pairwise_cons.mp ho
    have ih' := ih ho'.2 (fun x hx => hk x (List.mem_cons_of_mem _ hx))
    rcases hk t (List.mem_cons_self _ _) with hm | hr
    · have hnr : ¬ t.Assignment = REDUCE := by rw [hm]; decide
      have e₁ : (t :: rest).filter (fun t => decide (t.Assignment = MAP)) =
          t :: rest.filter (fun t => decide (t.Assignment = MAP)) := by
        simp [List.filter_cons, hm]
      have e₂ : (t :: rest).filter (fun t => decide (t.Assignment = REDUCE)) =
          rest.filter (fun t => decide (t.Assignment = REDUCE)) := by
        simp [List.filter_cons, hnr]
      rw [e₁, e₂, List.cons_append, ← ih']
    · have hnm : ¬ t.Assignment = MAP := by rw [hr]; decide
      have hnone : ∀ x ∈ rest, ¬ x.Assignment = MAP :=
        fun x hx hxm => hnm (ho'.1 x hx hxm)
      have h₁ : rest.filter (fun t => decide (t.Assignment = MAP)) = [] := by
        rw [List.filter_eq_nil_iff]
        intro x hx
        simpa using hnone x hx
      have h₂ : rest.filter (fun t => decide (t.Assignment = REDUCE)) = rest := by
        rw [List.filter_eq_self]
        intro x hx
        rcases hk x (List.mem_cons_of_mem _ hx) with e | e
        · exact absurd e (hnone x hx)
        · simpa using e
      have e₁ : (t :: rest).filter (fun t => decide (t.Assignment = MAP)) = [] := by
        simp [List.filter_cons, hnm, h₁]
      have e₂ : (t :: rest).filter (fun t => decide (t.Assignment = REDUCE)) =
          t :: rest := by
        simp [List.filter_cons, hr, h₂]
      rw [e₁, e₂, List.nil_append]

theorem exists_mem_of_countP_pos {α : Type} {p : α → Bool} {l : List α}
    (h : 0 < l.countP p) : ∃ a ∈ l, p a = true := by
  by_contra hne
  have : l.countP p = 0 := by
    rw [List.countP_eq_zero]
    intro a ha hp
    exact hne ⟨a, ha, hp⟩
  omega

theorem atomic_getTask_not_stuck (files : List String) (nReduce : Nat)
    (opts : List Options) (s : System) (h : Reachable files nReduce opts s)
    (hpos : 0 < files.length + nReduce) :
    (s.coord.queueTask =
        s.coord.queueTask.filter (fun t => decide (t.Assignment = MAP)) ++
          s.coord.queueTask.filter (fun t => decide (t.Assignment = REDUCE))) ∧
      MapsFirst s.coord.queueTask ∧
      ((GetTask s.coord).task.Assignment = SNOOZE →
        s.coord.runningTask ≠ [] ∧
        (s.coord.queueTask ≠ [] → ∃ p ∈ s.coord.runningTask, p.2.Assignment = MAP)) ∧
      (s.coord.runningTask = [] → Done s.coord = false →
        ∃ t rest, s.coord.queueTask = t :: rest ∧ (GetTask s.coord).task = t ∧
          (t.Assignment = MAP ∨ t.Assignment = REDUCE)) := by
  have hi := inv_reachable h
  have ho := mapsFirst_reachable h
  have hsnooze : (GetTask s.coord).task.Assignment = SNOOZE →
      s.coord.runningTask ≠ [] ∧
      (s.coord.queueTask ≠ [] → ∃ p ∈ s.coord.runningTask, p.2.Assignment = MAP) := by
    intro hs
    rcases GetTask_cases s.coord with ⟨_, hg⟩ | ⟨hd, hc, _⟩ | ⟨t, rest, _, hq, _, hg⟩
    · rw [hg] at hs
      simp at hs
    · rcases hc with hq | ⟨t, rest, hq, hred, hmc⟩
      · refine ⟨?_, fun hne => absurd hq hne⟩
        intro hr
        have := hi.done_iff.mpr ⟨hq, hr, hpos⟩
        rw [hd] at this
        exact absurd this (by decide)
      · have hne : t.Assignment ≠ MAP := by rw [hred]; decide
        rw [hq] at ho
        have hzero := ho.countP_of_head hne
        have hmc' := hi.mapCount_eq
        have hlease : 0 < s.coord.runningTask.countP
            (fun p => decide (p.2.Assignment = MAP)) := by
          unfold outstanding at hmc'
          rw [hq, hzero] at hmc'
          omega
        obtain ⟨p, hp, hpm⟩ := exists_mem_of_countP_pos hlease
        have hp' : p.2.Assignment = MAP := by simpa using hpm
        exact ⟨List.ne_nil_of_mem hp, fun _ => ⟨p, hp, hp'⟩⟩
    · rw [hg] at hs
      have hk := hi.kind.1 t (by rw [hq]; exact List.mem_cons_self _ _)
      rcases hk with e | e
      · rw [e] at hs
        exact absurd hs (by decide)
      · rw [e] at hs
        exact absurd hs (by decide)
  refine ⟨ho.split hi.kind.1, ho, hsnooze, ?_⟩
  intro hr hd
  rcases GetTask_cases s.coord with ⟨hd', _⟩ | ⟨_, _, hg⟩ | ⟨t, rest, _, hq, _, hg⟩
  · have : s.coord.isDone = false := hd
    rw [this] at hd'
    exact absurd hd' (by decide)
  · exact absurd hr (hsnooze (by rw [hg])).1
  · refine ⟨t, rest, hq, by rw [hg], ?_⟩
    exact hi.kind.1 t (by rw [hq]; exact List.mem_cons_self _ _)

/-! ## C18: ordering on reissue -/

theorem reduceLeased_step (s : System) (h : ReduceLeasedAfterMaps s.coord) (call : Call) :
    ReduceLeasedAfterMaps (s.step call).coord := by
  have hle := step_mapCount_le s call
  cases call with
  | getTask =>
    rcases GetTask_cases s.coord with ⟨_, hg⟩ | ⟨_, _, hg⟩ | ⟨t, rest, _, _, hn, hg⟩
    · simpa [System.step, hg] using h
    · simpa [System.step, hg] using h
    · intro p hp hred
      simp only [System.step, hg, mapSet, List.mem_cons] at hp ⊢
      rcases hp with rfl | hp
      · by_contra hpos
        exact hn ⟨hred, by omega⟩
      · exact h p (mapDelete_subset _ _ p hp) hred
  | doneTask taskID =>
    intro p hp hred
    have hp' : p ∈ s.coord.runningTask := by
      rcases DoneTask_cases s.coord taskID with ⟨_, hg⟩ | ⟨task, _, hg⟩
      · simpa [System.step, hg] using hp
      · simp only [System.step, hg] at hp
        exact mapDelete_subset _ _ p hp
    exact le_trans hle (h p hp' hred)
  | timerFire taskID =>
    intro p hp hred
    have hp' : p ∈ s.coord.runningTask := by
      by_cases hm : taskID ∈ s.timers
      · rcases checkTask_cases s.coord taskID with ⟨_, hg⟩ | ⟨task, _, hg⟩
        · simpa [System.step, hm, hg] using hp
        · simp only [System.step, hm, if_true, hg] at hp
          exact mapDelete_subset _ _ p hp
      · simpa [System.step, hm] using hp
    exact le_trans hle (h p hp' hred)

theorem reduceLeased_run (s : System) (h : ReduceLeasedAfterMaps s.coord)
    (calls : List Call) : ReduceLeasedAfterMaps (s.run calls).coord := by
  induction calls generalizing s with
  | nil => exact h
  | cons call calls ih => exact ih (s.step call) (reduceLeased_step s h call)

theorem no_mixed_lease {files : List String} {nReduce : Nat} {opts : List Options}
    {s : System} (h : Reachable files nReduce opts s) :
    ¬ ((∃ p ∈ s.coord.runningTask, p.2.Assignment = MAP) ∧
        (∃ q ∈ s.coord.runningTask, q.2.Assignment = REDUCE)) := by
  rintro ⟨⟨p, hp, hpm⟩, ⟨q, hq, hqr⟩⟩
  have hi := inv_reachable h
  obtain ⟨calls, rfl⟩ := h
  have hgate := reduceLeased_run (System.init files nReduce opts)
    (by intro p hp; simp [System.init, MakeCoordinator] at hp) calls
  have hle := hgate q hq hqr
  have hzero : outstanding MAP ((System.init files nReduce opts).run calls).coord = 0 := by
    have := hi.mapCount_eq
    omega
  exact (outstanding_eq_zero hzero).2 p hp hpm

/-- C18 fails as stated: from the coordinator built with one input file and `R = 1`
no sequence of `GetTask`, `DoneTask` and timer fires reaches a state in which the MAP
task (id 1) and the REDUCE task (id 2) are leased at the same time. -/
theorem reissue_ordering_counterexample :
    ¬ ∃ calls : List Call,
        mapGet ((System.init ["a.txt"] 1 []).run calls).coord.runningTask 1 ≠ none ∧
        mapGet ((System.init ["a.txt"] 1 []).run calls).coord.runningTask 2 ≠ none := by
  rintro ⟨calls, h₁, h₂⟩
  have hr : Reachable ["a.txt"] 1 [] ((System.init ["a.txt"] 1 []).run calls) :=
    ⟨calls, rfl⟩
  have hi := inv_reachable hr
  obtain ⟨t₁, ht₁⟩ := Option.ne_none_iff_exists'.mp h₁
  obtain ⟨t₂, ht₂⟩ := Option.ne_none_iff_exists'.mp h₂
  have hm₁ := mapGet_mem ht₁
  have hm₂ := mapGet_mem ht₂
  have hid₁ : t₁.ID = 1 := hi.keys _ hm₁
  have hid₂ : t₂.ID = 2 := hi.keys _ hm₂
  have hin₁ := (hi.mem_tasks t₁).mpr (Or.inr (Or.inl (List.mem_map_of_mem Prod.snd hm₁)))
  have hin₂ := (hi.mem_tasks t₂).mpr (Or.inr (Or.inl (List.mem_map_of_mem Prod.snd hm₂)))
  have hall : initialTasks ["a.txt"] 1 =
      [{ ID := 1, Assignment := MAP, File := "a.txt", NReduce := 1 },
       { ID := 2, Assignment := REDUCE, File := "mr-map-1", NReduce := 1 }] := by
    decide
  rw [hall] at hin₁ hin₂
  simp only [List.mem_cons, List.mem_singleton, List.not_mem_nil, or_false] at hin₁ hin₂
  have hk₁ : t₁.Assignment = MAP := by
    rcases hin₁ with e | e
    · rw [e]
    · rw [e] at hid₁
      exact absurd hid₁ (by decide)
  have hk₂ : t₂.Assignment = REDUCE := by
    rcases hin₂ with e | e
    · rw [e] at hid₂
      exact absurd hid₂ (by decide)
    · rw [e]
  exact no_mixed_lease hr ⟨⟨_, hm₁, hk₁⟩, ⟨_, hm₂, hk₂⟩⟩

theorem MakeCoordinator_one (file : String) (opts : List Options) :
    MakeCoordinator [file] 1 opts =
      { mapCount := 1
        isDone := false
        queueTask := [{ ID := 1, Assignment := MAP, File := file, NReduce := 1 },
                      { ID := 2, Assignment := REDUCE, File := "mr-map-1", NReduce := 1 }]
        runningTask := []
        taskTimeout :=
          (opts.foldl (fun (o : options) (opt : Options) => opt.apply o)
            { timeout := _defaultTaskTimeout }).timeout } := by
  have hf : mapFile ((0 : Nat) + 1 : Int) = "mr-map-1" := by decide
  simp only [MakeCoordinator, List.foldl_cons, List.foldl_nil, List.range_succ,
    List.range_zero, List.nil_append, List.length_singleton, hf]
  rfl

/-- C18 amended (ordering on reissue).  For the coordinator built with one input file
and `R = 1`: in no reachable state are a MAP task and a REDUCE task leased at the same
time; after the first `GetTask` the MAP task is leased, the REDUCE task is the queue
head and `GetTask` returns SNOOZE with the state unchanged; after the MAP ack the next
`GetTask` leases the REDUCE task, and when that lease is reclaimed by its timer the
REDUCE task is requeued, nothing is leased, and the next `GetTask` returns the REDUCE
task again. -/
theorem reissue_ordering (file : String) (opts : List Options) :
    (∀ calls : List Call,
      ¬ ((∃ p ∈ ((System.init [file] 1 opts).run calls).coord.runningTask,
            p.2.Assignment = MAP) ∧
         (∃ q ∈ ((System.init [file] 1 opts).run calls).coord.runningTask,
            q.2.Assignment = REDUCE))) ∧
    (((System.init [file] 1 opts).run [.getTask]).coord.runningTask =
        [(1, { ID := 1, Assignment := MAP, File := file, NReduce := 1 })] ∧
      ((System.init [file] 1 opts).run [.getTask]).coord.queueTask =
        [{ ID := 2, Assignment := REDUCE, File := "mr-map-1", NReduce := 1 }] ∧
      GetTask ((System.init [file] 1 opts).run [.getTask]).coord =
        ⟨((System.init [file] 1 opts).run [.getTask]).coord, snoozeTask, none⟩) ∧
    (((System.init [file] 1 opts).run
        [.getTask, .doneTask 1, .getTask]).coord.runningTask =
        [(2, { ID := 2, Assignment := REDUCE, File := "mr-map-1", NReduce := 1 })] ∧
      ((System.init [file] 1 opts).run
        [.getTask, .doneTask 1, .getTask, .timerFire 2]).coord.queueTask =
        [{ ID := 2, Assignment := REDUCE, File := "mr-map-1", NReduce := 1 }] ∧
      ((System.init [file] 1 opts).run
        [.getTask, .doneTask 1, .getTask, .timerFire 2]).coord.runningTask = [] ∧
      (GetTask ((System.init [file] 1 opts).run
        [.getTask, .doneTask 1, .getTask, .timerFire 2]).coord).task =
        { ID := 2, Assignment := REDUCE, File := "mr-map-1", NReduce := 1 }) := by
  refine ⟨fun calls => no_mixed_lease ⟨calls, rfl⟩, ?_, ?_⟩
  · simp [System.run, System.step, System.init, MakeCoordinator_one, GetTask,
      GetTaskLocked, mapSet, mapDelete, snoozeTask]
  · simp [System.run, System.step, System.init, MakeCoordinator_one, GetTask,
      GetTaskLocked, DoneTask, checkTask, mapGet, mapSet, mapDelete]

/-! ## C16: `ihash` -/

theorem Write32a_eq_fnv1a32 (h : Nat) (data : List UInt8) :
    Write32a h data = fnv1a32 h data := by
  induction data generalizing h with
  | nil => rfl
  | cons b bs ih =>
    simp only [Write32a, List.foldl_cons, fnv1a32] at ih ⊢
    exact ih _

theorem fnv1a32_lt (h : Nat) (data : List UInt8) (hlt : h < 4294967296) :
    fnv1a32 h data < 4294967296 := by
  induction data generalizing h with
  | nil => exact hlt
  | cons b bs ih =>
    simp only [fnv1a32]
    exact ih _ (Nat.mod_lt _ (by decide))

theorem and_mask_eq_clearBit31 (h : Nat) (hlt : h < 4294967296) :
    h &&& 0x7fffffff = clearBit31 h := by
  have hm : h &&& 0x7fffffff = h % 2 ^ 31 := Nat.and_pow_two_sub_one_eq_mod h 31
  rw [hm]
  unfold clearBit31
  rw [Nat.testBit_to_div_mod]
  by_cases hb : h / 2 ^ 31 % 2 = 1
  · simp only [hb, decide_True, if_true]
    omega
  · simp only [hb, decide_False]
    simp only [Bool.false_eq_true, if_false]
    omega

/-- C16 (`ihash`).  For every key, `ihash key` is the 32-bit FNV-1a hash of the bytes
of the key (offset basis 2166136261; for each byte, xor it in, then multiply by
16777619 modulo `2^32`) with bit 31 cleared; hence `0 <= ihash key < 2^31`; and
`ihash ""` is 18652613. -/
theorem ihash_spec (key : String) :
    ihash key = ((clearBit31 (fnv1a32 2166136261 key.toUTF8.data.toList) : Nat) : Int) ∧
      0 ≤ ihash key ∧ ihash key < 2 ^ 31 ∧ ihash "" = 18652613 := by
  have h₁ : ihash key =
      ((clearBit31 (fnv1a32 2166136261 key.toUTF8.data.toList) : Nat) : Int) := by
    unfold ihash Sum32 New32a offset32
    rw [Write32a_eq_fnv1a32, and_mask_eq_clearBit31 _ (fnv1a32_lt _ _ (by decide))]
  refine ⟨h₁, ?_, ?_, by decide⟩
  · rw [h₁]
    exact Int.ofNat_nonneg _
  · unfold ihash
    have hm : Sum32 (Write32a New32a key.toUTF8.data.toList) &&& 0x7fffffff =
        Sum32 (Write32a New32a key.toUTF8.data.toList) % 2 ^ 31 :=
      Nat.and_pow_two_sub_one_eq_mod _ 31
    rw [hm]
    have := Nat.mod_lt (Sum32 (Write32a New32a key.toUTF8.data.toList))
      (show 0 < 2 ^ 31 by decide)
    exact_mod_cast this

/-! ## C14: partitioning -/

theorem ihash_tmod (R : Nat) (key : String) :
    Int.tmod (ihash key) (R : Int) = ihash key % (R : Int) := by
  unfold ihash
  rw [← Int.ofNat_tmod, Int.natCast_mod]

theorem partitionOf_lt {R : Nat} (hR : 0 < R) (kv : KeyValue) : partitionOf R kv < R := by
  unfold partitionOf
  have h₁ : 0 ≤ ihash kv.Key % (R : Int) := Int.emod_nonneg _ (by omega)
  have h₂ : ihash kv.Key % (R : Int) < (R : Int) := Int.emod_lt_of_pos _ (by omega)
  omega

theorem partitionOf_eq_iff {R : Nat} (hR : 0 < R) (kv : KeyValue) (i : Nat) :
    partitionOf R kv = i ↔ ihash kv.Key % (R : Int) = (i : Int) := by
  unfold partitionOf
  have h₁ : 0 ≤ ihash kv.Key % (R : Int) := Int.emod_nonneg _ (by omega)
  omega

theorem set_map_range (R : Nat) (f : Nat → List KeyValue) (k : Nat) (v : List KeyValue) :
    ((List.range R).map f).set k v =
      (List.range R).map (fun i => if i = k then v else f i) := by
  apply List.ext_getElem?
  intro n
  rw [List.getElem?_set, List.getElem?_map, List.getElem?_map]
  by_cases hn : n < R
  · rw [List.getElem?_range hn]
    by_cases hk : k = n
    · subst hk
      simp [hn]
    · have hk' : ¬ n = k := fun e => hk e.symm
      simp [hk, hk', List.getElem?_range hn]
  · have hnone : (List.range R)[n]? = none := by
      apply List.getElem?_eq_none
      simpa using Nat.le_of_not_lt hn
    rw [hnone]
    by_cases hk : k = n
    · subst hk
      simp [hn]
    · simp [hk, hnone]

theorem shuffleStep_range {R : Nat} (hR : 0 < R) (f : Nat → List KeyValue)
    (item : KeyValue) :
    shuffleStep (R : Int) ((List.range R).map f) item =
      some ((List.range R).map
        (fun i => if i = partitionOf R item then f i ++ [item] else f i)) := by
  have hlt := partitionOf_lt hR item
  have hne : ¬ ((R : Int) = 0) := by omega
  have hnn : ¬ (ihash item.Key % (R : Int) < 0) :=
    not_lt.mpr (Int.emod_nonneg _ hne)
  have hget : ((List.range R).map f)[partitionOf R item]? = some (f (partitionOf R item)) := by
    rw [List.getElem?_map, List.getElem?_range hlt]
    rfl
  unfold shuffleStep
  simp only [hne, if_false, ihash_tmod, hnn]
  change (match ((List.range R).map f)[partitionOf R item]? with
    | none => none
    | some bucket => some (((List.range R).map f).set (partitionOf R item)
        (bucket ++ [item]))) = _
  rw [hget]
  simp only [set_map_range]
  congr 1
  apply List.map_congr_left
  intro i _
  by_cases hi : i = partitionOf R item
  · simp [hi]
  · simp [hi]

theorem foldlM_shuffleStep {R : Nat} (hR : 0 < R) (items : List KeyValue)
    (f : Nat → List KeyValue) :
    items.foldlM (shuffleStep (R : Int)) ((List.range R).map f) =
      some ((List.range R).map
        (fun i => f i ++ items.filter (fun kv => decide (partitionOf R kv = i)))) := by
  induction items generalizing f with
  | nil => simp
  | cons item rest ih =>
    rw [List.foldlM_cons, shuffleStep_range hR]
    simp only [Option.some_bind, Option.bind_eq_bind]
    rw [ih]
    congr 1
    apply List.map_congr_left
    intro i _
    by_cases hi : i = partitionOf R item
    · have : partitionOf R item = i := hi.symm
      simp [hi, List.filter_cons]
    · have : ¬ partitionOf R item = i := fun e => hi e.symm
      simp [hi, this, List.filter_cons]

theorem flatten_partitions_perm {R : Nat} (hR : 0 < R) (items : List KeyValue) :
    ((List.range R).map
      (fun i => items.filter (fun kv => decide (partitionOf R kv = i)))).flatten.Perm
      items := by
  rw [List.perm_iff_count]
  intro a
  rw [List.count_flatten, List.map_map]
  have hterm : ∀ i, (List.count a ∘
      fun i => items.filter (fun kv => decide (partitionOf R kv = i))) i =
      if partitionOf R a = i then items.count a else 0 := by
    intro i
    simp only [Function.comp]
    by_cases hi : partitionOf R a = i
    · rw [if_pos hi]
      exact List.count_filter (by simpa using hi)
    · rw [if_neg hi]
      apply List.count_eq_zero_of_not_mem
      intro hm
      have := (List.mem_filter.mp hm).2
      exact hi (by simpa using this)
  have hsum : ((List.range R).map (List.count a ∘
      fun i => items.filter (fun kv => decide (partitionOf R kv = i)))).sum =
      ∑ i in Finset.range R, if partitionOf R a = i then items.count a else 0 := by
    rw [show (List.count a ∘
      fun i => items.filter (fun kv => decide (partitionOf R kv = i))) =
      fun i => if partitionOf R a = i then items.count a else 0 from funext hterm]
    rfl
  rw [hsum, Finset.sum_ite_eq]
  simp [partitionOf_lt hR a]

/-- C14 (partitioning).  For `R >= 1` and a readable input file, `MapAndShuffle`
returns (no panic, every index in bounds) exactly `R` lists; list `i` is the sublist,
in emission order, of the pairs emitted by `mapf` whose key has `ihash key mod R = i`;
the lists together are a permutation of the emitted pairs. -/
theorem partitioning (w : MapReduce) (readFile : String → Option String)
    (filename content : String) (R : Nat) (hR : 1 ≤ R)
    (hread : readFile filename = some content) :
    ∃ parts, MapAndShuffle w readFile filename (R : Int) = some parts ∧
      parts.length = R ∧
      (∀ i, i < R → parts[i]? = some ((w.mapf filename content).filter
        (fun kv => decide (ihash kv.Key % (R : Int) = (i : Int))))) ∧
      parts.flatten.Perm (w.mapf filename content) ∧
      (∀ kv ∈ w.mapf filename content,
        0 ≤ Int.tmod (ihash kv.Key) (R : Int) ∧ Int.tmod (ihash kv.Key) (R : Int) < R) := by
  have hpos : 0 < R := hR
  refine ⟨(List.range R).map (fun i => (w.mapf filename content).filter
    (fun kv => decide (partitionOf R kv = i))), ?_, by simp, ?_,
    flatten_partitions_perm hpos _, ?_⟩
  · have hnn : ¬ ((R : Int) < 0) := by omega
    have hrep : List.replicate R ([] : List KeyValue) =
        (List.range R).map (fun _ => []) := by
      apply List.ext_getElem?
      intro n
      by_cases hn : n < R
      · simp [List.getElem?_replicate, hn, List.getElem?_range hn]
      · simp [List.getElem?_replicate, hn, List.getElem?_eq_none, Nat.le_of_not_lt hn]
    simp only [MapAndShuffle, hread, hnn, if_false, Int.toNat_ofNat, hrep]
    rw [foldlM_shuffleStep hpos]
    simp
  · intro i hi
    rw [List.getElem?_map, List.getElem?_range hi]
    simp only [Option.map_some', Option.some.injEq]
    apply List.filter_congr
    intro kv _
    simp only [decide_eq_decide]
    exact partitionOf_eq_iff hpos kv i
  · intro kv _
    rw [ihash_tmod]
    exact ⟨Int.emod_nonneg _ (by omega), Int.emod_lt_of_pos _ (by omega)⟩

/-- Witness for C14: the example job with `R = 2`; `"bar"` and `"baz"` hash to
partition 0 and `"foo"` to partition 1. -/
theorem partitioning_witness :
    exampleReadFile "a.txt" = some "" ∧
      MapAndShuffle exampleJob exampleReadFile "a.txt" 2 =
        some [[{ Key := "bar", Value := "2" }, { Key := "bar", Value := "3" },
               { Key := "baz", Value := "4" }],
              [{ Key := "foo", Value := "1" }]] ∧
      ∃ parts, MapAndShuffle exampleJob exampleReadFile "a.txt" ((2 : Nat) : Int) =
        some parts ∧ parts.length = 2 :=
  ⟨rfl, by decide,
    (partitioning exampleJob exampleReadFile "a.txt" "" 2 (by decide) rfl).imp
      (fun _ h => ⟨h.1, h.2.1⟩)⟩

/-! ## C15: the partition files of the map side and of the reduce side -/

theorem digitChar_toNat (d : Nat) (hd : d < 10) : (Nat.digitChar d).toNat - 48 = d := by
  interval_cases d <;> decide

theorem foldl_toDigitsCore (fuel n : Nat) (ds : List Char) (h : n < fuel) :
    (Nat.toDigitsCore 10 fuel n ds).foldl (fun acc c => acc * 10 + (c.toNat - 48)) 0 =
      ds.foldl (fun acc c => acc * 10 + (c.toNat - 48)) n := by
  induction fuel generalizing n ds with
  | zero => omega
  | succ fuel ih =>
    simp only [Nat.toDigitsCore]
    have hd := digitChar_toNat (n % 10) (Nat.mod_lt _ (by decide))
    by_cases h0 : n / 10 = 0
    · simp only [h0, if_true, List.foldl_cons, hd]
      congr 1
      omega
    · simp only [h0, if_false]
      rw [ih (n / 10) _ (by omega)]
      simp only [List.foldl_cons, hd]
      congr 1
      omega

theorem toString_nat_injective {a b : Nat} (h : toString a = toString b) : a = b := by
  have h₁ : (Nat.toDigits 10 a).asString = (Nat.toDigits 10 b).asString := h
  have h₂ : Nat.toDigits 10 a = Nat.toDigits 10 b := by
    have := congrArg String.data h₁
    simpa using this
  have ha := foldl_toDigitsCore (a + 1) a [] (Nat.lt_succ_self a)
  have hb := foldl_toDigitsCore (b + 1) b [] (Nat.lt_succ_self b)
  simp only [List.foldl_nil] at ha hb
  unfold Nat.toDigits at h₂
  rw [h₂, hb] at ha
  exact ha.symm

theorem tmpFileName_eq (i : Nat) : tmpFileName i = "mr-map-" ++ toString (i + 1) := by
  have : ((i : Int) + 1) = ((i + 1 : Nat) : Int) := by push_cast; rfl
  rw [tmpFileName, this]
  rfl

theorem tmpFileName_injective {i j : Nat} (h : tmpFileName i = tmpFileName j) : i = j := by
  rw [tmpFileName_eq, tmpFileName_eq] at h
  have h₁ := congrArg String.data h
  simp only [String.data_append] at h₁
  have h₂ := List.append_cancel_left h₁
  have h₃ : toString (i + 1) = toString (j + 1) := String.ext h₂
  have := toString_nat_injective h₃
  omega

theorem tmpFileName_eq_mapFile (i : Nat) : tmpFileName i = mapFile ((i : Int) + 1) := rfl

theorem storeMapLoop_getElem? (n : Nat) (kvs : List (List KeyValue)) (j : Nat)
    (data : List KeyValue) (h : kvs[j]? = some data) :
    (storeMapLoop (fun _ => false) (fun _ _ => false) n kvs)[j]? =
      some (tmpFileName (n + j), data) := by
  induction kvs generalizing n j with
  | nil => simp at h
  | cons d rest ih =>
    cases j with
    | zero =>
      simp only [List.getElem?_cons_zero, Option.some.injEq] at h
      simp [storeMapLoop, h]
    | succ k =>
      simp only [List.getElem?_cons_succ] at h
      simp only [storeMapLoop, Bool.false_eq_true, if_false, List.singleton_append,
        List.getElem?_cons_succ]
      rw [ih (n + 1) k h]
      have : n + 1 + k = n + (k + 1) := by omega
      rw [this]

theorem mem_queue_reduce (files : List String) (nReduce : Nat) (opts : List Options)
    (t : Task) :
    (t ∈ (MakeCoordinator files nReduce opts).queueTask ∧ t.Assignment = REDUCE) ↔
      ∃ j, j < nReduce ∧
        t = { ID := ((files.length + j + 1 : Nat) : Int), Assignment := REDUCE,
              File := tmpFileName j, NReduce := (j : Int) + 1 } := by
  rw [MakeCoordinator_queueTask, initialTasks, List.mem_append]
  constructor
  · rintro ⟨hm | hr, hk⟩
    · have := mapTasksFrom_kind nReduce 0 files t hm
      rw [this] at hk
      exact absurd hk (by decide)
    · simp only [reduceTasksFrom, List.mem_map, List.mem_range] at hr
      obtain ⟨j, hj, rfl⟩ := hr
      exact ⟨j, hj, rfl⟩
  · rintro ⟨j, hj, rfl⟩
    refine ⟨Or.inr ?_, rfl⟩
    simp only [reduceTasksFrom, List.mem_map, List.mem_range]
    exact ⟨j, hj, rfl⟩

/-- C15 (partition consistency).  For every key `s` and `R >= 1`, with
`i = ihash s mod R`: `i < R`; the name `"mr-map-(i+1)"` that `StoreMap` uses for
partition `i` is the `File` of a REDUCE task created by `MakeCoordinator files R`,
that task has `NReduce = i + 1`, and it is the only REDUCE task with that `File`;
conversely the `File` of every REDUCE task is the name `StoreMap` uses for some
partition `j < R`; and `StoreMap` (when no open or encode fails) appends the records of
partition `j` to the file of that name. -/
theorem partition_consistency (files : List String) (R : Nat) (opts : List Options)
    (hR : 1 ≤ R) (s : String) :
    (ihash s % (R : Int)).toNat < R ∧
      (∃ t ∈ (MakeCoordinator files R opts).queueTask,
        t.Assignment = REDUCE ∧
        t.File = tmpFileName (ihash s % (R : Int)).toNat ∧
        t.NReduce = ((ihash s % (R : Int)).toNat : Int) + 1 ∧
        ∀ t' ∈ (MakeCoordinator files R opts).queueTask,
          t'.Assignment = REDUCE →
          t'.File = tmpFileName (ihash s % (R : Int)).toNat → t' = t) ∧
      (∀ t ∈ (MakeCoordinator files R opts).queueTask, t.Assignment = REDUCE →
        ∃ j, j < R ∧ t.File = tmpFileName j ∧ t.NReduce = (j : Int) + 1) ∧
      (∀ (kvs : List (List KeyValue)) (j : Nat) (data : List KeyValue),
        kvs[j]? = some data →
        (StoreMap (fun _ => false) (fun _ _ => false) kvs)[j]? =
          some (tmpFileName j, data)) := by
  have hlt : (ihash s % (R : Int)).toNat < R :=
    partitionOf_lt (R := R) hR { Key := s, Value := "" }
  refine ⟨hlt, ?_, ?_, ?_⟩
  · have hmem := (mem_queue_reduce files R opts
      { ID := ((files.length + (ihash s % (R : Int)).toNat + 1 : Nat) : Int),
        Assignment := REDUCE, File := tmpFileName (ihash s % (R : Int)).toNat,
        NReduce := ((ihash s % (R : Int)).toNat : Int) + 1 }).mpr ⟨_, hlt, rfl⟩
    refine ⟨_, hmem.1, rfl, rfl, rfl, ?_⟩
    intro t' ht' hk hf
    obtain ⟨j, _, rfl⟩ := (mem_queue_reduce files R opts t').mp ⟨ht', hk⟩
    have hj : j = (ihash s % (R : Int)).toNat := tmpFileName_injective hf
    rw [hj]
  · intro t ht hk
    obtain ⟨j, hj, rfl⟩ := (mem_queue_reduce files R opts t).mp ⟨ht, hk⟩
    exact ⟨j, hj, rfl, rfl⟩
  · intro kvs j data h
    have := storeMapLoop_getElem? 0 kvs j data h
    rw [Nat.zero_add] at this
    exact this

/-- Witness for C15: the key `"foo"` with `R = 2` and one input file: partition 1,
file `"mr-map-2"`, REDUCE task 3 with `NReduce = 2`. -/
theorem partition_consistency_witness :
    (ihash "foo" % ((2 : Nat) : Int)).toNat = 1 ∧
      tmpFileName 1 = "mr-map-2" ∧
      ({ ID := 3, Assignment := REDUCE, File := "mr-map-2", NReduce := 2 } : Task) ∈
        (MakeCoordinator ["a.txt"] 2 []).queueTask ∧
      (ihash "foo" % ((2 : Nat) : Int)).toNat < 2 :=
  ⟨by decide, by decide, by decide,
    (partition_consistency ["a.txt"] 2 [] (by decide) "foo").1⟩

/-! ## The order of the keys -/

theorem stringLess_iff_lex (a b : List Char) :
    stringLess a b = true ↔ List.Lex (· < ·) a b := by
  induction a generalizing b with
  | nil =>
    cases b with
    | nil => simp [stringLess, List.Lex.not_nil_right]
    | cons y ys => simp [stringLess, List.Lex.nil]
  | cons x xs ih =>
    cases b with
    | nil => simp [stringLess, List.Lex.not_nil_right]
    | cons y ys =>
      simp only [stringLess]
      by_cases h₁ : x < y
      · simp only [h₁, if_true, true_iff]
        exact List.Lex.rel h₁
      · by_cases h₂ : y < x
        · simp only [h₁, h₂, if_true, if_false, Bool.false_eq_true, false_iff]
          intro hl
          cases hl with
          | cons _ => exact lt_irrefl _ h₂
          | rel h => exact h₁ h
        · have hxy : x = y := le_antisymm (not_lt.mp h₂) (not_lt.mp h₁)
          subst hxy
          simp only [h₁, if_false, ih, List.Lex.cons_iff]

theorem ByKey.less_iff (x y : KeyValue) : ByKey.Less x y ↔ x.Key < y.Key := by
  unfold ByKey.Less
  rw [stringLess_iff_lex, String.lt_iff_toList_lt]
  rfl

theorem ByKey.less_irrefl (x y : KeyValue) (h : x.Key = y.Key) : ¬ ByKey.Less x y := by
  rw [ByKey.less_iff, h]
  exact lt_irrefl _

theorem ByKey.less_total (x y : KeyValue) (h : x.Key ≠ y.Key) :
    ByKey.Less x y ∨ ByKey.Less y x := by
  rw [ByKey.less_iff, ByKey.less_iff]
  exact lt_or_gt_of_ne h

theorem ByKey.less_congr {x y x' y' : KeyValue} (hx : x.Key = x'.Key) (hy : y.Key = y'.Key) :
    ByKey.Less x y ↔ ByKey.Less x' y' := by
  unfold ByKey.Less
  rw [hx, hy]

theorem stableSort_isSort : IsSort stableSort where
  perm := fun kv => List.perm_insertionSort _ kv
  sorted := fun kv => by
    have total : IsTotal KeyValue (fun x y => ¬ ByKey.Less y x) :=
      ⟨fun x y => by
        simp only [ByKey.less_iff]
        rcases le_total x.Key y.Key with h | h
        · exact Or.inl (not_lt.mpr h)
        · exact Or.inr (not_lt.mpr h)⟩
    have trans : IsTrans KeyValue (fun x y => ¬ ByKey.Less y x) :=
      ⟨fun x y z => by
        simp only [ByKey.less_iff, not_lt]
        exact le_trans⟩
    exact List.sorted_insertionSort _ kv

/-! ## The loops of `Reduce` -/

theorem scanGroup_eq (kv : List KeyValue) (key : String) (n j : Nat)
    (h : kv.length - j ≤ n) :
    scanGroup kv key n j =
      j + ((kv.drop j).takeWhile (fun y => decide (y.Key = key))).length := by
  induction n generalizing j with
  | zero =>
    have hle : kv.length ≤ j := by omega
    simp [scanGroup, List.drop_eq_nil_of_le hle]
  | succ n ih =>
    unfold scanGroup
    by_cases hj : j < kv.length
    · rw [List.getElem?_eq_getElem hj, List.drop_eq_getElem_cons hj]
      simp only [List.takeWhile_cons]
      by_cases hk : kv[j].Key = key
      · simp only [hk, if_true, decide_True, List.length_cons]
        rw [ih (j + 1) (by omega)]
        omega
      · simp [hk]
    · have hle : kv.length ≤ j := Nat.le_of_not_lt hj
      rw [List.getElem?_eq_none hle]
      simp [List.drop_eq_nil_of_le hle]

theorem mapM_values (kv : List KeyValue) (i m : Nat) (h : i + m ≤ kv.length) :
    (List.range' i m).mapM (fun k => (kv[k]?).map KeyValue.Value) =
      some (((kv.drop i).take m).map KeyValue.Value) := by
  induction m generalizing i with
  | zero => rfl
  | succ m ih =>
    have hi : i < kv.length := by omega
    rw [List.range'_succ, List.mapM_cons, List.getElem?_eq_getElem hi, ih (i + 1) (by omega),
      List.drop_eq_getElem_cons hi, List.take_succ_cons, List.map_cons]
    rfl

theorem take_length_takeWhile (p : KeyValue → Bool) (l : List KeyValue) :
    l.take (l.takeWhile p).length = l.takeWhile p := by
  induction l with
  | nil => rfl
  | cons a l ih =>
    by_cases ha : p a = true
    · simp [List.takeWhile_cons, ha, ih]
    · simp [List.takeWhile_cons, ha]

theorem drop_length_takeWhile (p : KeyValue → Bool) (l : List KeyValue) :
    l.drop (l.takeWhile p).length = l.dropWhile p := by
  induction l with
  | nil => rfl
  | cons a l ih =>
    by_cases ha : p a = true
    · simp [List.takeWhile_cons, List.dropWhile_cons, ha, ih]
    · simp [List.takeWhile_cons, List.dropWhile_cons, ha]

theorem length_takeWhile_le' (p : KeyValue → Bool) (l : List KeyValue) :
    (l.takeWhile p).length ≤ l.length := by
  have := congrArg List.length (List.takeWhile_append_dropWhile p l)
  rw [List.length_append] at this
  omega

theorem reduceLoop_eq (reducef : String → List String → String) (kv : List KeyValue)
    (fuel i : Nat) (output : List KeyValue) (h : kv.length - i ≤ fuel) :
    reduceLoop reducef kv fuel i output =
      some (output ++ (groupsAdj fuel (kv.drop i)).map
        (fun g => { Key := g.1, Value := reducef g.1 g.2 })) := by
  induction fuel generalizing i output with
  | zero =>
    have hle : kv.length ≤ i := by omega
    simp [reduceLoop, List.getElem?_eq_none hle, groupsAdj]
  | succ fuel ih =>
    unfold reduceLoop
    by_cases hi : i < kv.length
    · rw [List.getElem?_eq_getElem hi]
      simp only
      have hdrop := List.drop_eq_getElem_cons hi
      have hscan := scanGroup_eq kv kv[i].Key (kv.length - (i + 1)) (i + 1) (Nat.le_refl _)
      have htw := length_takeWhile_le' (fun y => decide (y.Key = kv[i].Key)) (kv.drop (i + 1))
      rw [List.length_drop] at htw
      rw [hscan]
      have hm : i + 1 + ((kv.drop (i + 1)).takeWhile
          (fun y => decide (y.Key = kv[i].Key))).length - i =
          ((kv.drop (i + 1)).takeWhile (fun y => decide (y.Key = kv[i].Key))).length + 1 := by
        omega
      have hd2 : kv.drop (i + 1 + ((kv.drop (i + 1)).takeWhile
          (fun y => decide (y.Key = kv[i].Key))).length) =
          (kv.drop (i + 1)).dropWhile (fun y => decide (y.Key = kv[i].Key)) := by
        rw [← List.drop_drop, drop_length_takeWhile]
      have ht2 : (kv.drop i).take (((kv.drop (i + 1)).takeWhile
          (fun y => decide (y.Key = kv[i].Key))).length + 1) =
          kv[i] :: (kv.drop (i + 1)).takeWhile (fun y => decide (y.Key = kv[i].Key)) := by
        rw [hdrop, List.take_succ_cons, take_length_takeWhile]
      rw [hm, mapM_values kv i _ (by omega)]
      simp only
      rw [ih _ _ (by omega), hd2, ht2, hdrop]
      simp [groupsAdj]
    · have hle : kv.length ≤ i := Nat.le_of_not_lt hi
      rw [List.getElem?_eq_none hle]
      simp [List.drop_eq_nil_of_le hle, groupsAdj]

theorem dropWhile_head_not {p : KeyValue → Bool} {l : List KeyValue} {h : KeyValue}
    {t : List KeyValue} (e : l.dropWhile p = h :: t) : p h = false := by
  have := List.head?_dropWhile_not p l
  rw [e] at this
  simpa using this

theorem sorted_dropWhile_ne (x : KeyValue) (rest : List KeyValue)
    (hs : (x :: rest).Pairwise (fun a b => ¬ ByKey.Less b a)) :
    ∀ y ∈ rest.dropWhile (fun y => decide (y.Key = x.Key)), y.Key ≠ x.Key := by
  have hx := (List.pairwise_cons.mp hs).1
  have hrest := (List.pairwise_cons.mp hs).2
  have hdw : (rest.dropWhile (fun y => decide (y.Key = x.Key))).Pairwise
      (fun a b => ¬ ByKey.Less b a) := hrest.sublist (List.dropWhile_sublist _)
  cases e : rest.dropWhile (fun y => decide (y.Key = x.Key)) with
  | nil => simp
  | cons h t =>
    have hp := dropWhile_head_not e
    have hne : h.Key ≠ x.Key := by simpa using hp
    have hmem : h ∈ rest := by
      apply (List.dropWhile_sublist (fun y => decide (y.Key = x.Key))).subset
      rw [e]
      exact List.mem_cons_self _ _
    have hlt : ByKey.Less x h :=
      (ByKey.less_total x h (Ne.symm hne)).resolve_right (hx h hmem)
    rw [e] at hdw
    intro y hy
    rcases List.mem_cons.mp hy with rfl | hy
    · exact hne
    · intro hyk
      exact (List.pairwise_cons.mp hdw).1 y hy ((ByKey.less_congr hyk rfl).mpr hlt)

theorem filter_takeWhile_dropWhile (x : KeyValue) (rest : List KeyValue)
    (hs : (x :: rest).Pairwise (fun a b => ¬ ByKey.Less b a)) :
    rest.filter (fun y => decide (y.Key = x.Key)) =
      rest.takeWhile (fun y => decide (y.Key = x.Key)) := by
  have hne := sorted_dropWhile_ne x rest hs
  conv_lhs => rw [← List.takeWhile_append_dropWhile (fun y => decide (y.Key = x.Key)) rest]
  rw [List.filter_append]
  have h₁ : (rest.takeWhile (fun y => decide (y.Key = x.Key))).filter
      (fun y => decide (y.Key = x.Key)) =
      rest.takeWhile (fun y => decide (y.Key = x.Key)) := by
    rw [List.filter_eq_self]
    intro a ha
    have hpa : decide (a.Key = x.Key) = true :=
      List.mem_takeWhile_imp (p := fun y : KeyValue => decide (y.Key = x.Key)) ha
    exact hpa
  have h₂ : (rest.dropWhile (fun y => decide (y.Key = x.Key))).filter
      (fun y => decide (y.Key = x.Key)) = [] := by
    rw [List.filter_eq_nil_iff]
    intro a ha
    simpa using hne a ha
  rw [h₁, h₂, List.append_nil]

theorem filter_other_key (x : KeyValue) (rest : List KeyValue) (k : String)
    (hk : k ≠ x.Key) :
    (x :: rest).filter (fun y => decide (y.Key = k)) =
      (rest.dropWhile (fun y => decide (y.Key = x.Key))).filter
        (fun y => decide (y.Key = k)) := by
  have hx : ¬ x.Key = k := fun e => hk e.symm
  conv_lhs => rw [← List.takeWhile_append_dropWhile (fun y => decide (y.Key = x.Key)) rest]
  rw [List.filter_cons, List.filter_append]
  have h₁ : (rest.takeWhile (fun y => decide (y.Key = x.Key))).filter
      (fun y => decide (y.Key = k)) = [] := by
    rw [List.filter_eq_nil_iff]
    intro a ha
    have hpa : decide (a.Key = x.Key) = true :=
      List.mem_takeWhile_imp (p := fun y : KeyValue => decide (y.Key = x.Key)) ha
    have : a.Key = x.Key := by simpa using hpa
    simp [this, hx]
  simp [hx, h₁]

theorem groupsAdj_spec (n : Nat) (s : List KeyValue) (hn : s.length ≤ n)
    (hs : s.Pairwise (fun a b => ¬ ByKey.Less b a)) :
    (groupsAdj n s).Pairwise (fun g g' => stringLess g.1.data g'.1.data = true) ∧
      (∀ k, k ∈ (groupsAdj n s).map Prod.fst ↔ k ∈ s.map KeyValue.Key) ∧
      (∀ g ∈ groupsAdj n s, g.2 = valuesOf g.1 s) := by
  induction n generalizing s with
  | zero =>
    have : s = [] := List.length_eq_zero.mp (Nat.le_zero.mp hn)
    subst this
    simp [groupsAdj]
  | succ n ih =>
    cases s with
    | nil => simp [groupsAdj]
    | cons x rest =>
      have hx := (List.pairwise_cons.mp hs).1
      have hrest := (List.pairwise_cons.mp hs).2
      have hsub := List.dropWhile_sublist (l := rest) (fun y => decide (y.Key = x.Key))
      have hlen : (rest.dropWhile (fun y => decide (y.Key = x.Key))).length ≤ n := by
        have := hsub.length_le
        simp only [List.length_cons] at hn
        omega
      obtain ⟨ihp, ihk, ihv⟩ := ih _ hlen (hrest.sublist hsub)
      have hne := sorted_dropWhile_ne x rest hs
      have hsplit := List.takeWhile_append_dropWhile (fun y => decide (y.Key = x.Key)) rest
      simp only [groupsAdj]
      refine ⟨?_, ?_, ?_⟩
      · refine List.pairwise_cons.mpr ⟨?_, ihp⟩
        intro g hg
        have hgk := (ihk g.1).mp (List.mem_map_of_mem Prod.fst hg)
        obtain ⟨y, hy, hyk⟩ := List.mem_map.mp hgk
        have hyrest : y ∈ rest := hsub.subset hy
        have hlt : ByKey.Less x y :=
          (ByKey.less_total x y (Ne.symm (hne y hy))).resolve_right (hx y hyrest)
        unfold ByKey.Less at hlt
        rw [hyk] at hlt
        exact hlt
      · intro k
        simp only [List.map_cons, List.mem_cons]
        rw [ihk k]
        constructor
        · rintro (e | hk)
          · exact Or.inl e
          · obtain ⟨y, hy, hyk⟩ := List.mem_map.mp hk
            exact Or.inr (List.mem_map.mpr ⟨y, hsub.subset hy, hyk⟩)
        · rintro (e | hk)
          · exact Or.inl e
          · obtain ⟨y, hy, hyk⟩ := List.mem_map.mp hk
            rw [← hsplit, List.mem_append] at hy
            rcases hy with hy | hy
            · have hpa : decide (y.Key = x.Key) = true :=
                List.mem_takeWhile_imp (p := fun y : KeyValue => decide (y.Key = x.Key)) hy
              have : y.Key = x.Key := by simpa using hpa
              exact Or.inl (by rw [← hyk, this])
            · exact Or.inr (List.mem_map.mpr ⟨y, hy, hyk⟩)
      · intro g hg
        rcases List.mem_cons.mp hg with rfl | hg
        · simp only [valuesOf, List.filter_cons, decide_True, if_true, List.map_cons]
          rw [filter_takeWhile_dropWhile x rest hs]
        · have hgk := (ihk g.1).mp (List.mem_map_of_mem Prod.fst hg)
          obtain ⟨y, hy, hyk⟩ := List.mem_map.mp hgk
          have hk : g.1 ≠ x.Key := by
            rw [← hyk]
            exact hne y hy
          rw [ihv g hg]
          unfold valuesOf
          rw [filter_other_key x rest g.1 hk]

theorem Reduce_eq (w : MapReduce) (sortf : List KeyValue → List KeyValue)
    (kv : List KeyValue) :
    Reduce w sortf kv =
      some ((groupsAdj (sortf kv).length (sortf kv)).map
        (fun g => { Key := g.1, Value := w.reducef g.1 g.2 })) := by
  unfold Reduce
  rw [reduceLoop_eq w.reducef (sortf kv) (sortf kv).length 0 [] (by omega)]
  simp

/-! ## C12: the keys of the output of `Reduce` -/

/-- C12 (`Reduce` output keys).  For every sort that meets the contract of `sort.Sort`
and every list of records, `Reduce` returns an output whose keys are strictly
increasing in the order of `Less` (the lexicographic order of strings), are exactly
the keys of the input (each once: the keys have no duplicate and are a permutation of
the distinct input keys); the empty input gives the empty output. -/
theorem reduce_keys (w : MapReduce) (sortf : List KeyValue → List KeyValue)
    (hsort : IsSort sortf) (kv : List KeyValue) :
    ∃ out, Reduce w sortf kv = some out ∧
      out.Pairwise ByKey.Less ∧
      (out.map KeyValue.Key).Pairwise (· < ·) ∧
      (∀ k, k ∈ out.map KeyValue.Key ↔ k ∈ kv.map KeyValue.Key) ∧
      (out.map KeyValue.Key).Nodup ∧
      (out.map KeyValue.Key).Perm (kv.map KeyValue.Key).dedup ∧
      (kv = [] → out = []) := by
  obtain ⟨hp, hk, _⟩ := groupsAdj_spec (sortf kv).length (sortf kv) (Nat.le_refl _)
    (hsort.sorted kv)
  have hless : ((groupsAdj (sortf kv).length (sortf kv)).map
      (fun g => ({ Key := g.1, Value := w.reducef g.1 g.2 } : KeyValue))).Pairwise
      ByKey.Less := by
    rw [List.pairwise_map]
    exact hp
  have hkeys : ((groupsAdj (sortf kv).length (sortf kv)).map
      (fun g => ({ Key := g.1, Value := w.reducef g.1 g.2 } : KeyValue))).map KeyValue.Key =
      (groupsAdj (sortf kv).length (sortf kv)).map Prod.fst := by
    rw [List.map_map]
    rfl
  have hlt : ((groupsAdj (sortf kv).length (sortf kv)).map Prod.fst).Pairwise (· < ·) := by
    rw [List.pairwise_map]
    refine hp.imp ?_
    intro g g' h
    exact (ByKey.less_iff { Key := g.1, Value := "" } { Key := g'.1, Value := "" }).mp h
  have hmem : ∀ k, k ∈ (groupsAdj (sortf kv).length (sortf kv)).map Prod.fst ↔
      k ∈ kv.map KeyValue.Key := by
    intro k
    rw [hk k]
    exact ((hsort.perm kv).map KeyValue.Key).mem_iff
  have hnd : ((groupsAdj (sortf kv).length (sortf kv)).map Prod.fst).Nodup :=
    hlt.imp (fun h => ne_of_lt h)
  refine ⟨_, Reduce_eq w sortf kv, hless, ?_, ?_, ?_, ?_, ?_⟩
  · rw [hkeys]
    exact hlt
  · rw [hkeys]
    exact hmem
  · rw [hkeys]
    exact hnd
  · rw [hkeys]
    apply (List.perm_ext_iff_of_nodup hnd (List.nodup_dedup _)).mpr
    intro k
    rw [hmem k, List.mem_dedup]
  · intro he
    have hnil : sortf kv = [] := by
      have := hsort.perm kv
      rw [he] at this
      rw [he]
      exact List.Perm.eq_nil this
    rw [hnil]
    rfl

/-- Witness for C12: the stable insertion sort meets the contract, and on the example
records `Reduce` returns the keys `"bar"`, `"baz"`, `"foo"`. -/
theorem reduce_keys_witness :
    IsSort stableSort ∧
      Reduce exampleJob stableSort exampleRecords =
        some [{ Key := "bar", Value := "23" }, { Key := "baz", Value := "4" },
              { Key := "foo", Value := "1" }] ∧
      ∃ out, Reduce exampleJob stableSort exampleRecords = some out ∧
        out.Pairwise ByKey.Less :=
  ⟨stableSort_isSort, by decide,
    (reduce_keys exampleJob stableSort stableSort_isSort exampleRecords).imp
      (fun _ h => ⟨h.1, h.2.1⟩)⟩

/-! ## C13: the values handed to `reducef` -/

theorem pivotFirstSort_isSort : IsSort pivotFirstSort where
  perm := fun kv => by
    unfold pivotFirstSort
    split
    · exact stableSort_isSort.perm kv
    · split
      · rename_i p hp
        refine (stableSort_isSort.perm _).trans ?_
        have hlt : kv.length / 4 * 2 < kv.length := by
          by_contra hge
          rw [List.getElem?_eq_none (Nat.le_of_not_lt hge)] at hp
          exact absurd hp (by simp)
        have hpe : kv[kv.length / 4 * 2] = p := by
          rw [List.getElem?_eq_getElem hlt] at hp
          exact Option.some.inj hp
        have hsplit : kv = kv.take (kv.length / 4 * 2) ++
            p :: kv.drop (kv.length / 4 * 2 + 1) := by
          conv_lhs => rw [← List.take_append_drop (kv.length / 4 * 2) kv]
          rw [List.drop_eq_getElem_cons hlt, hpe]
        rw [List.eraseIdx_eq_take_drop_succ]
        conv_rhs => rw [hsplit]
        exact List.perm_middle.symm
      · exact stableSort_isSort.perm kv
  sorted := fun kv => by
    unfold pivotFirstSort
    split
    · exact stableSort_isSort.sorted kv
    · split
      · exact stableSort_isSort.sorted _
      · exact stableSort_isSort.sorted kv

/-- C13 fails as stated: `sort.Sort` need not be stable.  With a sort that meets its
contract (`pivotFirstSort`), `reducef` the concatenation of the values and the input
of 13 records `unstableInput`, the record of key `"a"` has the value built from the
values in the order 6, 1, 2, 3, 4, 5, 7, ..., C and not in input order 1, 2, ..., C. -/
theorem reduce_grouping_counterexample :
    ¬ (∀ sortf, IsSort sortf → ∀ out, Reduce exampleJob sortf unstableInput = some out →
        ∀ r ∈ out, r.Value = exampleJob.reducef r.Key (valuesOf r.Key unstableInput)) := by
  intro h
  have hout : Reduce exampleJob pivotFirstSort unstableInput =
      some [{ Key := "a", Value := "612345789ABC" }, { Key := "b", Value := "0" }] := by
    decide
  have := h pivotFirstSort pivotFirstSort_isSort _ hout
    { Key := "a", Value := "612345789ABC" } (List.mem_cons_self _ _)
  revert this
  decide

/-- C13 amended (`Reduce` grouping).  For every sort that meets the contract of
`sort.Sort` and every input there is a list of groups, the same for every `reducef`,
such that `Reduce` returns one record `(k, reducef k vs)` per group `(k, vs)`: every
key of the input is the key of exactly one group (one call of `reducef`); `vs` is the
list of the values of the records with key `k` in the order the sort leaves them,
which is a permutation of their values in input order, and is input order itself
whenever the sort kept the records of that key in input order. -/
theorem reduce_grouping (w : MapReduce) (sortf : List KeyValue → List KeyValue)
    (hsort : IsSort sortf) (kv : List KeyValue) :
    ∃ groups : List (String × List String),
      (∀ reducef : String → List String → String,
        Reduce { w with reducef := reducef } sortf kv =
          some (groups.map (fun g => { Key := g.1, Value := reducef g.1 g.2 }))) ∧
      (∀ k ∈ kv.map KeyValue.Key, (groups.map Prod.fst).count k = 1) ∧
      (∀ g ∈ groups, g.1 ∈ kv.map KeyValue.Key ∧ g.2 = valuesOf g.1 (sortf kv) ∧
        g.2.Perm (valuesOf g.1 kv)) ∧
      (∀ g ∈ groups,
        (sortf kv).filter (fun y => decide (y.Key = g.1)) =
          kv.filter (fun y => decide (y.Key = g.1)) →
        g.2 = valuesOf g.1 kv) := by
  obtain ⟨hp, hk, hv⟩ := groupsAdj_spec (sortf kv).length (sortf kv) (Nat.le_refl _)
    (hsort.sorted kv)
  have hmem : ∀ k, k ∈ (groupsAdj (sortf kv).length (sortf kv)).map Prod.fst ↔
      k ∈ kv.map KeyValue.Key := by
    intro k
    rw [hk k]
    exact ((hsort.perm kv).map KeyValue.Key).mem_iff
  have hnd : ((groupsAdj (sortf kv).length (sortf kv)).map Prod.fst).Nodup := by
    rw [List.Nodup, List.pairwise_map]
    refine hp.imp ?_
    intro g g' h e
    exact ByKey.less_irrefl { Key := g.1, Value := "" } { Key := g'.1, Value := "" } e h
  refine ⟨groupsAdj (sortf kv).length (sortf kv), ?_, ?_, ?_, ?_⟩
  · intro reducef
    exact Reduce_eq { w with reducef := reducef } sortf kv
  · intro k hkm
    exact List.count_eq_one_of_mem hnd ((hmem k).mpr hkm)
  · intro g hg
    refine ⟨(hmem g.1).mp (List.mem_map_of_mem Prod.fst hg), hv g hg, ?_⟩
    rw [hv g hg]
    exact (((hsort.perm kv).filter _).map KeyValue.Value)
  · intro g hg hst
    rw [hv g hg]
    unfold valuesOf
    rw [hst]

/-- Witness for C13 amended: with the stable insertion sort the group of `"bar"` in
the example records has the values `"2"`, `"3"` in input order; with the sort that is
not stable the group of `"a"` in the 13 records starts with the value `"6"`. -/
theorem reduce_grouping_witness :
    IsSort stableSort ∧
      Reduce exampleJob stableSort exampleRecords =
        some [{ Key := "bar", Value := "23" }, { Key := "baz", Value := "4" },
              { Key := "foo", Value := "1" }] ∧
      IsSort pivotFirstSort ∧
      Reduce exampleJob pivotFirstSort unstableInput =
        some [{ Key := "a", Value := "612345789ABC" }, { Key := "b", Value := "0" }] ∧
      ∃ groups : List (String × List String),
        (∀ k ∈ exampleRecords.map KeyValue.Key, (groups.map Prod.fst).count k = 1) :=
  ⟨stableSort_isSort, by decide, pivotFirstSort_isSort, by decide,
    (reduce_grouping exampleJob stableSort stableSort_isSort exampleRecords).imp
      (fun _ h => h.2.1)⟩

/-! ## C17: end-to-end key placement -/

theorem Reduce_spec (w : MapReduce) (sortf : List KeyValue → List KeyValue)
    (hsort : IsSort sortf) (kv : List KeyValue) :
    Reduce w sortf kv =
        some ((groupsAdj (sortf kv).length (sortf kv)).map
          (fun g => { Key := g.1, Value := w.reducef g.1 g.2 })) ∧
      (((groupsAdj (sortf kv).length (sortf kv)).map
          (fun g => ({ Key := g.1, Value := w.reducef g.1 g.2 } : KeyValue))).map
          KeyValue.Key).Nodup ∧
      (∀ k, k ∈ ((groupsAdj (sortf kv).length (sortf kv)).map
          (fun g => ({ Key := g.1, Value := w.reducef g.1 g.2 } : KeyValue))).map
          KeyValue.Key ↔ k ∈ kv.map KeyValue.Key) ∧
      (∀ r ∈ (groupsAdj (sortf kv).length (sortf kv)).map
          (fun g => ({ Key := g.1, Value := w.reducef g.1 g.2 } : KeyValue)),
        r.Value = w.reducef r.Key (valuesOf r.Key (sortf kv))) := by
  obtain ⟨hp, hk, hv⟩ := groupsAdj_spec (sortf kv).length (sortf kv) (Nat.le_refl _)
    (hsort.sorted kv)
  have hkeys : ((groupsAdj (sortf kv).length (sortf kv)).map
      (fun g => ({ Key := g.1, Value := w.reducef g.1 g.2 } : KeyValue))).map KeyValue.Key =
      (groupsAdj (sortf kv).length (sortf kv)).map Prod.fst := by
    rw [List.map_map]
    rfl
  refine ⟨Reduce_eq w sortf kv, ?_, ?_, ?_⟩
  · rw [hkeys, List.Nodup, List.pairwise_map]
    refine hp.imp ?_
    intro g g' h e
    exact ByKey.less_irrefl { Key := g.1, Value := "" } { Key := g'.1, Value := "" } e h
  · intro k
    rw [hkeys, hk k]
    exact ((hsort.perm kv).map KeyValue.Key).mem_iff
  · intro r hr
    obtain ⟨g, hg, rfl⟩ := List.mem_map.mp hr
    simp only
    rw [← hv g hg]

theorem filter_key_singleton (l : List KeyValue) (k : String) (r₀ : KeyValue)
    (hnd : (l.map KeyValue.Key).Nodup) (hall : ∀ r ∈ l, r.Key = k → r = r₀)
    (hex : k ∈ l.map KeyValue.Key) :
    l.filter (fun r => decide (r.Key = k)) = [r₀] := by
  induction l with
  | nil => simp at hex
  | cons a l ih =>
    rw [List.map_cons, List.nodup_cons] at hnd
    by_cases ha : a.Key = k
    · have hr := hall a (List.mem_cons_self _ _) ha
      have hnone : l.filter (fun r => decide (r.Key = k)) = [] := by
        rw [List.filter_eq_nil_iff]
        intro b hb
        have : b.Key ≠ k := by
          intro e
          exact hnd.1 (by rw [ha, ← e]; exact List.mem_map_of_mem KeyValue.Key hb)
        simpa using this
      have hk0 : r₀.Key = k := hr ▸ ha
      rw [List.filter_cons, hnone, hr]
      simp [hk0]
    · have hex' : k ∈ l.map KeyValue.Key := by
        rcases List.mem_cons.mp hex with e | e
        · exact absurd e.symm ha
        · exact e
      have := ih hnd.2 (fun r hr => hall r (List.mem_cons_of_mem _ hr)) hex'
      simp [List.filter_cons, ha, this]

theorem filter_key_nil (l : List KeyValue) (k : String) (h : k ∉ l.map KeyValue.Key) :
    l.filter (fun r => decide (r.Key = k)) = [] := by
  rw [List.filter_eq_nil_iff]
  intro b hb
  have : b.Key ≠ k := fun e => h (e ▸ List.mem_map_of_mem KeyValue.Key hb)
  simpa using this

theorem valuesOf_partition (R : Nat) (k : String) (items : List KeyValue) :
    valuesOf k (items.filter
      (fun kv => decide (partitionOf R kv = (ihash k % (R : Int)).toNat))) =
      valuesOf k items := by
  unfold valuesOf
  rw [List.filter_filter]
  congr 1
  apply List.filter_congr
  intro y _
  by_cases hy : y.Key = k
  · simp [hy, partitionOf]
  · simp [hy]

theorem MapAndShuffle_eq (w : MapReduce) (readFile : String → Option String)
    (filename content : String) (R : Nat) (hR : 1 ≤ R)
    (hread : readFile filename = some content) :
    MapAndShuffle w readFile filename (R : Int) =
      some ((List.range R).map (fun i => (w.mapf filename content).filter
        (fun kv => decide (partitionOf R kv = i)))) := by
  have hpos : 0 < R := hR
  have hnn : ¬ ((R : Int) < 0) := by omega
  have hrep : List.replicate R ([] : List KeyValue) =
      (List.range R).map (fun _ => []) := by
    apply List.ext_getElem?
    intro n
    by_cases hn : n < R
    · simp [List.getElem?_replicate, hn, List.getElem?_range hn]
    · simp [List.getElem?_replicate, hn, List.getElem?_eq_none, Nat.le_of_not_lt hn]
  simp only [MapAndShuffle, hread, hnn, if_false, Int.toNat_ofNat, hrep]
  rw [foldlM_shuffleStep hpos]
  simp

/-- C17 (end-to-end key placement).  For `R >= 1`, a readable input file and every
sort that meets the contract of `sort.Sort`: `MapAndShuffle` returns `R` partitions and
`Reduce` returns an output for each of them; for every emitted key `k` there is a list
`vs`, a permutation of the values emitted for `k`, such that the records with key `k`
in output `i` are the single record `(k, reducef k vs)` when `i = ihash k mod R` and
none otherwise; and every key of every output is an emitted key. -/
theorem key_placement (w : MapReduce) (readFile : String → Option String)
    (filename content : String) (sortf : List KeyValue → List KeyValue)
    (hsort : IsSort sortf) (R : Nat) (hR : 1 ≤ R)
    (hread : readFile filename = some content) :
    ∃ parts outs : List (List KeyValue),
      MapAndShuffle w readFile filename (R : Int) = some parts ∧
      parts.length = R ∧ outs.length = R ∧
      (∀ i, i < R → ∃ part out, parts[i]? = some part ∧ outs[i]? = some out ∧
        Reduce w sortf part = some out) ∧
      (∀ k ∈ (w.mapf filename content).map KeyValue.Key,
        ∃ vs : List String, vs.Perm (valuesOf k (w.mapf filename content)) ∧
          ∀ i out, outs[i]? = some out →
            out.filter (fun r => decide (r.Key = k)) =
              if (ihash k % (R : Int)).toNat = i then
                [{ Key := k, Value := w.reducef k vs }]
              else []) ∧
      (∀ out ∈ outs, ∀ r ∈ out, r.Key ∈ (w.mapf filename content).map KeyValue.Key) := by
  have hout : ∀ (i : Nat) (out : List KeyValue),
      ((List.range R).map (fun i =>
        (groupsAdj (sortf ((w.mapf filename content).filter
            (fun kv => decide (partitionOf R kv = i)))).length
          (sortf ((w.mapf filename content).filter
            (fun kv => decide (partitionOf R kv = i))))).map
          (fun g => ({ Key := g.1, Value := w.reducef g.1 g.2 } : KeyValue))))[i]? =
        some out →
      i < R ∧ out = (groupsAdj (sortf ((w.mapf filename content).filter
            (fun kv => decide (partitionOf R kv = i)))).length
          (sortf ((w.mapf filename content).filter
            (fun kv => decide (partitionOf R kv = i))))).map
          (fun g => ({ Key := g.1, Value := w.reducef g.1 g.2 } : KeyValue)) := by
    intro i out h
    rw [List.getElem?_map] at h
    by_cases hi : i < R
    · rw [List.getElem?_range hi] at h
      simp only [Option.map_some', Option.some.injEq] at h
      exact ⟨hi, h.symm⟩
    · rw [List.getElem?_eq_none (by simpa using Nat.le_of_not_lt hi)] at h
      simp at h
  refine ⟨_, (List.range R).map (fun i =>
      (groupsAdj (sortf ((w.mapf filename content).filter
          (fun kv => decide (partitionOf R kv = i)))).length
        (sortf ((w.mapf filename content).filter
          (fun kv => decide (partitionOf R kv = i))))).map
        (fun g => ({ Key := g.1, Value := w.reducef g.1 g.2 } : KeyValue))),
    MapAndShuffle_eq w readFile filename content R hR hread, by simp, by simp, ?_, ?_, ?_⟩
  · intro i hi
    refine ⟨(w.mapf filename content).filter (fun kv => decide (partitionOf R kv = i)),
      _, ?_, ?_, (Reduce_spec w sortf hsort
        ((w.mapf filename content).filter (fun kv => decide (partitionOf R kv = i)))).1⟩
    · rw [List.getElem?_map, List.getElem?_range hi]
      rfl
    · rw [List.getElem?_map, List.getElem?_range hi]
      rfl
  · intro k hk
    refine ⟨valuesOf k (sortf ((w.mapf filename content).filter
      (fun kv => decide (partitionOf R kv = (ihash k % (R : Int)).toNat)))), ?_, ?_⟩
    · rw [← valuesOf_partition R k (w.mapf filename content)]
      exact ((hsort.perm _).filter _).map KeyValue.Value
    · intro i out hi
      obtain ⟨_, rfl⟩ := hout i out hi
      obtain ⟨_, hnd, hkeys, hvals⟩ := Reduce_spec w sortf hsort
        ((w.mapf filename content).filter (fun kv => decide (partitionOf R kv = i)))
      obtain ⟨y, hy, hyk⟩ := List.mem_map.mp hk
      by_cases he : (ihash k % (R : Int)).toNat = i
      · rw [if_pos he]
        apply filter_key_singleton _ _ _ hnd
        · intro r hr hrk
          have hv := hvals r hr
          rw [hrk, ← he] at hv
          cases r with
          | mk key value =>
            simp only at hrk hv
            rw [hrk, hv]
        · rw [hkeys k]
          refine List.mem_map.mpr ⟨y, List.mem_filter.mpr ⟨hy, ?_⟩, hyk⟩
          simp only [decide_eq_true_eq, partitionOf, hyk]
          exact he
      · rw [if_neg he]
        apply filter_key_nil
        rw [hkeys k]
        intro hmem
        obtain ⟨z, hz, hzk⟩ := List.mem_map.mp hmem
        have hz2 := (List.mem_filter.mp hz).2
        simp only [decide_eq_true_eq, partitionOf, hzk] at hz2
        exact he hz2
  · intro out hmem r hr
    obtain ⟨i, _, rfl⟩ := List.mem_map.mp hmem
    obtain ⟨_, _, hkeys, _⟩ := Reduce_spec w sortf hsort
      ((w.mapf filename content).filter (fun kv => decide (partitionOf R kv = i)))
    have := (hkeys r.Key).mp (List.mem_map_of_mem KeyValue.Key hr)
    obtain ⟨z, hz, hzk⟩ := List.mem_map.mp this
    exact List.mem_map.mpr ⟨z, (List.mem_filter.mp hz).1, hzk⟩

/-- Witness for C17: the example job with `R = 2` and the stable insertion sort;
partition 0 reduces to `bar 23`, `baz 4` and partition 1 to `foo 1`. -/
theorem key_placement_witness :
    IsSort stableSort ∧ exampleReadFile "a.txt" = some "" ∧
      (MapAndShuffle exampleJob exampleReadFile "a.txt" 2).bind
          (fun parts => parts.mapM (Reduce exampleJob stableSort)) =
        some [[{ Key := "bar", Value := "23" }, { Key := "baz", Value := "4" }],
              [{ Key := "foo", Value := "1" }]] ∧
      ∃ parts outs : List (List KeyValue),
        MapAndShuffle exampleJob exampleReadFile "a.txt" ((2 : Nat) : Int) = some parts ∧
        parts.length = 2 ∧ outs.length = 2 :=
  ⟨stableSort_isSort, rfl, by decide,
    (key_placement exampleJob exampleReadFile "a.txt" "" stableSort stableSort_isSort 2
      (by decide) rfl).imp
      (fun _ h => h.imp (fun _ h' => ⟨h'.1, h'.2.1, h'.2.2.1⟩))⟩

/-! ## C19: ack before commit in the worker loop -/

theorem iteration_head (m : Worker) : ∃ tail, m.iteration.1 = .getTask :: tail := by
  unfold Worker.iteration
  repeat' (first | exact ⟨_, rfl⟩ | split | dsimp only)

theorem Run_next (m : Worker) (rest : List Worker) (h : m.iteration.2 = .next) :
    Worker.Run (m :: rest) = m.iteration.1 ++ Worker.Run rest := by
  rw [Worker.Run]
  cases hi : m.iteration with
  | mk calls outcome =>
    rw [hi] at h
    simp only at h
    subst h
    rfl

/-- C19 (ack before commit).  In one iteration of `Worker.Run` whose `GetTask` returns
`task`:
on a MAP task, a `StoreMap` call is in the trace if and only if the `DoneTask(task.ID)`
call is in the trace and returned no error; when `MapAndShuffle` returns partitions
and the ack succeeds the trace is `GetTask`, `MapAndShuffle(task.File, task.NReduce)`,
`DoneTask(task.ID)`, `StoreMap` of those partitions, and when the ack fails it is
`GetTask`, `MapAndShuffle`, `DoneTask`, the error log;
on a REDUCE task, a `StoreReduce` call in the trace implies that `DoneTask(task.ID)`
was called and returned no error; when `ReadMap` succeeds and the ack succeeds the
trace is `GetTask`, `ReadMap`, `Reduce`, `DoneTask`,
`StoreReduce(task.NReduce, task.File, output)` (then the log of a store error, if any),
and when the ack fails it is `GetTask`, `ReadMap`, `Reduce`, `DoneTask`, the error log;
whenever `DoneTask` was called and failed, no store call is in the trace and the loop
goes on: the trace of `Run` continues with the `GetTask` of the next iteration. -/
theorem ack_before_commit (m : Worker) (task : Task)
    (hget : m.delivery.GetTask = .ok task) :
    (task.Assignment = MAP →
      ((∃ kvs, WorkerCall.storeMap kvs ∈ m.iteration.1) ↔
        (WorkerCall.doneTask task.ID ∈ m.iteration.1 ∧
          m.delivery.DoneTask task.ID = none)) ∧
      (∀ shuffleData,
        m.mapReduce.MapAndShuffle task.File task.NReduce = some shuffleData →
        (m.delivery.DoneTask task.ID = none →
          m.iteration =
            ([.getTask, .mapAndShuffle task.File task.NReduce, .doneTask task.ID,
              .storeMap shuffleData], .next)) ∧
        (∀ err, m.delivery.DoneTask task.ID = some err →
          m.iteration =
            ([.getTask, .mapAndShuffle task.File task.NReduce, .doneTask task.ID,
              .logError err], .next)))) ∧
    (task.Assignment = REDUCE →
      ((∃ n src kv, WorkerCall.storeReduce n src kv ∈ m.iteration.1) →
        (WorkerCall.doneTask task.ID ∈ m.iteration.1 ∧
          m.delivery.DoneTask task.ID = none)) ∧
      (∀ intermediate, m.mapReduce.ReadMap task.File = .ok intermediate →
        (m.delivery.DoneTask task.ID = none →
          ∃ tail, (tail = [] ∨ ∃ err, tail = [.logError err]) ∧
            m.iteration =
              ([.getTask, .readMap task.File, .reduce intermediate, .doneTask task.ID,
                .storeReduce task.NReduce task.File (m.mapReduce.Reduce intermediate)]
                ++ tail, .next)) ∧
        (∀ err, m.delivery.DoneTask task.ID = some err →
          m.iteration =
            ([.getTask, .readMap task.File, .reduce intermediate, .doneTask task.ID,
              .logError err], .next)))) ∧
    (∀ err, m.delivery.DoneTask task.ID = some err →
      WorkerCall.doneTask task.ID ∈ m.iteration.1 →
      (∀ c ∈ m.iteration.1, c.isStore = false) ∧ m.iteration.2 = .next ∧
        ∀ (m' : Worker) (rest : List Worker), ∃ tail,
          Worker.Run (m :: m' :: rest) = m.iteration.1 ++ .getTask :: tail) := by
  have hne : ¬ (REDUCE = MAP) := by decide
  refine ⟨?_, ?_, ?_⟩
  · intro hk
    refine ⟨?_, ?_⟩
    · unfold Worker.iteration
      simp only [hget, hk, if_true]
      cases hms : m.mapReduce.MapAndShuffle task.File task.NReduce with
      | none => simp
      | some sd =>
        cases hd : m.delivery.DoneTask task.ID with
        | none => simp
        | some err => simp
    · intro sd hms
      refine ⟨?_, ?_⟩
      · intro hd
        unfold Worker.iteration
        simp only [hget, hk, if_true, hms, hd]
      · intro err hd
        unfold Worker.iteration
        simp only [hget, hk, if_true, hms, hd]
  · intro hk
    have hnm : ¬ task.Assignment = MAP := by rw [hk]; decide
    refine ⟨?_, ?_⟩
    · unfold Worker.iteration
      simp only [hget, hk, hne, if_true, if_false]
      cases hr : m.mapReduce.ReadMap task.File with
      | error e => simp
      | ok intermediate =>
        cases hd : m.delivery.DoneTask task.ID with
        | some err => simp
        | none =>
          cases hs : m.mapReduce.StoreReduce task.NReduce task.File
              (m.mapReduce.Reduce intermediate) with
          | none => simp [hs]
          | some e => simp [hs]
    · intro intermediate hr
      refine ⟨?_, ?_⟩
      · intro hd
        unfold Worker.iteration
        simp only [hget, hk, hne, if_true, if_false, hr, hd]
        cases hs : m.mapReduce.StoreReduce task.NReduce task.File
            (m.mapReduce.Reduce intermediate) with
        | none => exact ⟨[], Or.inl rfl, rfl⟩
        | some e => exact ⟨[.logError e], Or.inr ⟨e, rfl⟩, rfl⟩
      · intro err hd
        unfold Worker.iteration
        simp only [hget, hk, hne, if_true, if_false, hr, hd]
  · intro err hd hcalled
    have key : (∀ c ∈ m.iteration.1, c.isStore = false) ∧ m.iteration.2 = .next := by
      revert hcalled
      unfold Worker.iteration
      simp only [hget]
      by_cases hk : task.Assignment = MAP
      · simp only [hk, if_true]
        cases hms : m.mapReduce.MapAndShuffle task.File task.NReduce with
        | none => simp
        | some sd => simp [hd, WorkerCall.isStore]
      · simp only [hk, if_false]
        by_cases hk2 : task.Assignment = REDUCE
        · simp only [hk2, if_true]
          cases hr : m.mapReduce.ReadMap task.File with
          | error e => simp
          | ok intermediate => simp [hd, WorkerCall.isStore]
        · simp only [hk2, if_false]
          by_cases hk3 : task.Assignment = SNOOZE
          · simp [hk3]
          · by_cases hk4 : task.Assignment = ABORT
            · simp [hk3, hk4]
            · simp [hk3, hk4]
    refine ⟨key.1, key.2, ?_⟩
    intro m' rest
    obtain ⟨t, ht⟩ := iteration_head m'
    rw [Run_next m _ key.2]
    by_cases hn : m'.iteration.2 = .next
    · rw [Run_next m' _ hn, ht]
      exact ⟨_, rfl⟩
    · refine ⟨t, ?_⟩
      congr 1
      rw [Worker.Run]
      cases hi : m'.iteration with
      | mk calls outcome =>
        rw [hi] at ht hn
        simp only at ht hn
        cases outcome with
        | next => exact absurd rfl hn
        | exit => exact ht
        | fatal => exact ht

/-- Witness for C19: the example worker on MAP task 1; with a successful ack the trace
ends with `StoreMap` of the partitions, with a failed ack it ends with the error log
and holds no store call. -/
theorem ack_before_commit_witness :
    (exampleWorker none).delivery.GetTask =
        .ok { ID := 1, Assignment := MAP, File := "a.txt", NReduce := 1 } ∧
      (exampleWorker none).iteration =
        ([.getTask, .mapAndShuffle "a.txt" 1, .doneTask 1,
          .storeMap [[{ Key := "foo", Value := "1" }]]], .next) ∧
      (exampleWorker (some "task 1 not found")).iteration =
        ([.getTask, .mapAndShuffle "a.txt" 1, .doneTask 1,
          .logError "task 1 not found"], .next) :=
  ⟨rfl,
    (((ack_before_commit (exampleWorker none)
      { ID := 1, Assignment := MAP, File := "a.txt", NReduce := 1 } rfl).1 rfl).2
      [[{ Key := "foo", Value := "1" }]] rfl).1 rfl,
    (((ack_before_commit (exampleWorker (some "task 1 not found"))
      { ID := 1, Assignment := MAP, File := "a.txt", NReduce := 1 } rfl).1 rfl).2
      [[{ Key := "foo", Value := "1" }]] rfl).2 "task 1 not found" rfl⟩

/-! ## C20: no stuck queue, with the latch read and the locked part of `GetTask` apart -/

theorem GetTask_eq_withRead (c : Coordinator) : GetTask c = GetTaskWithRead c.isDone c := rfl

theorem GetTaskWithRead_effect {files : List String} {nReduce : Nat} {s : System}
    (h : Inv files nReduce s) (seen : Bool) (hseen : seen = true → s.coord.isDone = true) :
    (GetTaskWithRead seen s.coord).coord = (GetTask s.coord).coord ∧
      (GetTaskWithRead seen s.coord).spawned = (GetTask s.coord).spawned := by
  cases seen with
  | true =>
    have hd := hseen rfl
    simp [GetTaskWithRead, GetTask, hd]
  | false =>
    cases hd : s.coord.isDone with
    | false => simp [GetTaskWithRead, GetTask, hd]
    | true =>
      have hl := GetTaskLocked_after_done h hd
      simp [GetTaskWithRead, GetTask, hd, hl]

theorem step_isDone {files : List String} {nReduce : Nat} {s : System}
    (h : Inv files nReduce s) (hd : s.coord.isDone = true) (call : Call) :
    (s.step call).coord.isDone = true := by
  rw [step_coord_of_done h hd call]
  exact hd

theorem Reachable.step {files : List String} {nReduce : Nat} {opts : List Options}
    {s : System} (h : Reachable files nReduce opts s) (call : Call) :
    Reachable files nReduce opts (s.step call) :=
  h.run [call]

theorem race_step {files : List String} {nReduce : Nat} {opts : List Options}
    {rs : RaceSystem} (hr : Reachable files nReduce opts rs.sys)
    (hreads : ∀ seen ∈ rs.reads, seen = true → rs.sys.coord.isDone = true)
    (event : RaceCall) :
    Reachable files nReduce opts (rs.step event).sys ∧
      ∀ seen ∈ (rs.step event).reads, seen = true → (rs.step event).sys.coord.isDone = true := by
  have hi := inv_reachable hr
  cases event with
  | readLatch =>
    refine ⟨hr, ?_⟩
    intro seen hm ht
    simp only [RaceSystem.step, List.mem_cons] at hm ⊢
    rcases hm with e | hm
    · rw [← e]
      exact ht
    · exact hreads seen hm ht
  | lockedPart seen =>
    by_cases hm : seen ∈ rs.reads
    · have heff := GetTaskWithRead_effect hi seen (hreads seen hm)
      have hsys : (rs.step (.lockedPart seen)).sys = rs.sys.step .getTask := by
        simp only [RaceSystem.step, hm, if_true, System.step, heff.1, heff.2]
      rw [hsys]
      refine ⟨hr.step _, ?_⟩
      intro seen' hm' ht
      have hm'' : seen' ∈ rs.reads := by
        simp only [RaceSystem.step, hm, if_true] at hm'
        exact List.mem_of_mem_erase hm'
      exact step_isDone hi (hreads seen' hm'' ht) _
    · simp only [RaceSystem.step, hm, if_false]
      exact ⟨hr, hreads⟩
  | doneTask taskID =>
    have hsys : (rs.step (.doneTask taskID)).sys = rs.sys.step (.doneTask taskID) := rfl
    have hrd : (rs.step (.doneTask taskID)).reads = rs.reads := rfl
    rw [hsys, hrd]
    refine ⟨hr.step _, ?_⟩
    intro seen hm ht
    exact step_isDone hi (hreads seen hm ht) _
  | timerFire taskID =>
    have hsys : (rs.step (.timerFire taskID)).sys = rs.sys.step (.timerFire taskID) := rfl
    have hrd : (rs.step (.timerFire taskID)).reads = rs.reads := rfl
    rw [hsys, hrd]
    refine ⟨hr.step _, ?_⟩
    intro seen hm ht
    exact step_isDone hi (hreads seen hm ht) _

theorem race_run {files : List String} {nReduce : Nat} {opts : List Options}
    {rs : RaceSystem} (hr : Reachable files nReduce opts rs.sys)
    (hreads : ∀ seen ∈ rs.reads, seen = true → rs.sys.coord.isDone = true)
    (events : List RaceCall) :
    Reachable files nReduce opts (rs.run events).sys ∧
      ∀ seen ∈ (rs.run events).reads, seen = true →
        (rs.run events).sys.coord.isDone = true := by
  induction events generalizing rs with
  | nil => exact ⟨hr, hreads⟩
  | cons event events ih =>
    obtain ⟨h₁, h₂⟩ := race_step hr hreads event
    exact ih h₁ h₂

theorem race_reachable {files : List String} {nReduce : Nat} {opts : List Options}
    {rs : RaceSystem} (h : RaceReachable files nReduce opts rs) :
    Reachable files nReduce opts rs.sys ∧
      ∀ seen ∈ rs.reads, seen = true → rs.sys.coord.isDone = true := by
  obtain ⟨events, rfl⟩ := h
  have h₀ : Reachable files nReduce opts (RaceSystem.init files nReduce opts).sys :=
    ⟨[], rfl⟩
  have h₁ : ∀ seen ∈ (RaceSystem.init files nReduce opts).reads, seen = true →
      (RaceSystem.init files nReduce opts).sys.coord.isDone = true := by
    intro seen hm
    simp [RaceSystem.init] at hm
  exact race_run h₀ h₁ events

/-- C20 fails as stated, because `GetTask` reads the latch before it takes the lock.
One file and `R = 1`: both tasks are dispatched and acked in turn, and a third
`GetTask` call reads the latch (false) before the last ack is accepted and takes the
lock after it.  In the state reached that call is in flight with the value `false`;
its locked part returns SNOOZE and leaves the coordinator as it is, although no task
is leased: queue and leases are empty and `Done()` is true. -/
theorem no_stuck_queue_counterexample :
    RaceReachable ["a.txt"] 1 [] ((RaceSystem.init ["a.txt"] 1 []).run
        [.readLatch, .lockedPart false, .doneTask 1, .readLatch, .lockedPart false,
         .readLatch, .doneTask 2]) ∧
      false ∈ ((RaceSystem.init ["a.txt"] 1 []).run
        [.readLatch, .lockedPart false, .doneTask 1, .readLatch, .lockedPart false,
         .readLatch, .doneTask 2]).reads ∧
      (GetTaskWithRead false ((RaceSystem.init ["a.txt"] 1 []).run
        [.readLatch, .lockedPart false, .doneTask 1, .readLatch, .lockedPart false,
         .readLatch, .doneTask 2]).sys.coord).task.Assignment = SNOOZE ∧
      (GetTaskWithRead false ((RaceSystem.init ["a.txt"] 1 []).run
        [.readLatch, .lockedPart false, .doneTask 1, .readLatch, .lockedPart false,
         .readLatch, .doneTask 2]).sys.coord).spawned = none ∧
      ((RaceSystem.init ["a.txt"] 1 []).run
        [.readLatch, .lockedPart false, .doneTask 1, .readLatch, .lockedPart false,
         .readLatch, .doneTask 2]).sys.coord.runningTask = [] ∧
      ((RaceSystem.init ["a.txt"] 1 []).run
        [.readLatch, .lockedPart false, .doneTask 1, .readLatch, .lockedPart false,
         .readLatch, .doneTask 2]).sys.coord.queueTask = [] ∧
      Done ((RaceSystem.init ["a.txt"] 1 []).run
        [.readLatch, .lockedPart false, .doneTask 1, .readLatch, .lockedPart false,
         .readLatch, .doneTask 2]).sys.coord = true :=
  ⟨⟨_, rfl⟩, by decide, by decide, by decide, by decide, by decide, by decide⟩

/-- C20 amended (no stuck queue).  Take any state reached from `MakeCoordinator` on `M`
files and fan-out `R`, `M + R >= 1`, by latch reads and locked parts of `GetTask` calls,
`DoneTask` calls and timer fires in any order, and a `GetTask` call in flight that read
the latch value `seen` and now takes the lock.  The queue is its MAP tasks followed by
its REDUCE tasks.  If the call returns SNOOZE, then either some task is leased (a MAP
task when the queue is not empty, its head being a gated REDUCE task), or the call
read `false` and the coordinator is done by now, with queue and leases empty.  If
nothing is leased and `Done()` is false, the call returns the queue head, a MAP or
REDUCE task.  A call with nothing between its read and its lock (`GetTask`) that
returns SNOOZE always finds a lease. -/
theorem no_stuck_queue (files : List String) (nReduce : Nat) (opts : List Options)
    (rs : RaceSystem) (h : RaceReachable files nReduce opts rs)
    (hpos : 0 < files.length + nReduce) (seen : Bool) (hseen : seen ∈ rs.reads) :
    (rs.sys.coord.queueTask =
        rs.sys.coord.queueTask.filter (fun t => decide (t.Assignment = MAP)) ++
          rs.sys.coord.queueTask.filter (fun t => decide (t.Assignment = REDUCE))) ∧
      MapsFirst rs.sys.coord.queueTask ∧
      ((GetTaskWithRead seen rs.sys.coord).task.Assignment = SNOOZE →
        (rs.sys.coord.runningTask ≠ [] ∧
          (rs.sys.coord.queueTask ≠ [] →
            ∃ p ∈ rs.sys.coord.runningTask, p.2.Assignment = MAP)) ∨
        (seen = false ∧ Done rs.sys.coord = true ∧ rs.sys.coord.queueTask = [] ∧
          rs.sys.coord.runningTask = [])) ∧
      (rs.sys.coord.runningTask = [] → Done rs.sys.coord = false →
        ∃ t rest, rs.sys.coord.queueTask = t :: rest ∧
          (GetTaskWithRead seen rs.sys.coord).task = t ∧
          (t.Assignment = MAP ∨ t.Assignment = REDUCE)) ∧
      ((GetTask rs.sys.coord).task.Assignment = SNOOZE →
        rs.sys.coord.runningTask ≠ [] ∧
        (rs.sys.coord.queueTask ≠ [] →
          ∃ p ∈ rs.sys.coord.runningTask, p.2.Assignment = MAP)) := by
  obtain ⟨hr, hreads⟩ := race_reachable h
  have hi := inv_reachable hr
  obtain ⟨hsplit, hord, hsnooze, hhead⟩ :=
    atomic_getTask_not_stuck files nReduce opts rs.sys hr hpos
  have hlatch := hreads seen hseen
  refine ⟨hsplit, hord, ?_, ?_, hsnooze⟩
  · intro hs
    cases hseenv : seen with
    | true =>
      rw [hseenv] at hs
      simp [GetTaskWithRead] at hs
    | false =>
      cases hd : rs.sys.coord.isDone with
      | false =>
        left
        apply hsnooze
        rw [GetTask_eq_withRead, hd, ← hseenv]
        exact hs
      | true =>
        right
        have hempty := hi.done.mp hd
        exact ⟨rfl, hd, hempty.1, hempty.2.1⟩
  · intro hrun hd
    have hd' : rs.sys.coord.isDone = false := hd
    have hsf : seen = false := by
      cases hseenv : seen with
      | false => rfl
      | true =>
        have := hlatch hseenv
        rw [hd'] at this
        exact absurd this (by decide)
    obtain ⟨t, rest, hq, ht, hk⟩ := hhead hrun hd
    refine ⟨t, rest, hq, ?_, hk⟩
    rw [GetTask_eq_withRead, hd'] at ht
    rw [hsf]
    exact ht

/-- Witness for C20 amended on one file and `R = 1`: the MAP task is dispatched, a
second `GetTask` call reads the latch (false) and takes the lock: it returns SNOOZE,
and the MAP task is leased. -/
theorem no_stuck_queue_witness :
    false ∈ ((RaceSystem.init ["a.txt"] 1 []).run
        [.readLatch, .lockedPart false, .readLatch]).reads ∧
      (GetTaskWithRead false ((RaceSystem.init ["a.txt"] 1 []).run
        [.readLatch, .lockedPart false, .readLatch]).sys.coord).task.Assignment = SNOOZE ∧
      ((RaceSystem.init ["a.txt"] 1 []).run
        [.readLatch, .lockedPart false, .readLatch]).sys.coord.runningTask =
        [(1, { ID := 1, Assignment := MAP, File := "a.txt", NReduce := 1 })] ∧
      MapsFirst ((RaceSystem.init ["a.txt"] 1 []).run
        [.readLatch, .lockedPart false, .readLatch]).sys.coord.queueTask :=
  ⟨by decide, by decide, by decide,
    (no_stuck_queue ["a.txt"] 1 [] _ ⟨[.readLatch, .lockedPart false, .readLatch], rfl⟩
      (by decide) false (by decide)).2.1⟩

end MR
